import Mathlib

/-!
# UTF-8 decoding, column widths, wrapping and column substitution (`utf8.c`)

A shallow embedding of `utf8.c`.

* A C string (or any region of memory reachable from a `const char *`) is a
  `List Nat`; a pointer into it is an index.  Reading an index outside the list
  yields the NUL byte: every C string and every `strbuf` is followed by its
  terminator.  A read through `unsigned char *` reduces the stored value modulo 256.
* A pointer that may be `NULL` is an `Option Nat`.
* `int` values are `Int`, `size_t` values are `Nat`.
* Loops are iterated with explicit fuel; for each loop a lemma shows that the fuel
  handed to it by its caller is never exhausted (section "The fuel given to the loops is
  never used up", `wrap_run_init_ne_exhausted` and `is_utf8_total`).
-/

set_option maxRecDepth 20000

namespace Utf8

/-! # The program -/

/-! ## Memory and character classes -/

/-- The byte `s[i]` read through an `unsigned char *`. -/
def byteAt (mem : List Nat) (i : Nat) : Nat := mem.getD i 0 % 256

/-- The `n` bytes of memory from `start` on, as a read through `unsigned char *` sees them. -/
def window (mem : List Nat) (start n : Nat) : List Nat :=
  (List.range n).map (fun i => byteAt mem (start + i))

/-- Modelled from the spec: `isdigit` of `git-compat-util.h` (not part of the sources
at hand); the spec's "ASCII digits". -/
def isdigit (c : Nat) : Bool := decide (0x30 ≤ c ∧ c ≤ 0x39)

/-- Modelled from the spec: `isspace` of `git-compat-util.h` (not part of the sources
at hand); the whitespace bytes are space, tab, newline and carriage return. -/
def isspace (c : Nat) : Bool := c = 0x20 || c = 0x09 || c = 0x0a || c = 0x0d

/-- Modelled from the spec: `isalnum` of `git-compat-util.h` (not part of the sources
at hand); ASCII letters and digits. -/
def isalnum (c : Nat) : Bool :=
  decide (0x30 ≤ c ∧ c ≤ 0x39) || decide (0x41 ≤ c ∧ c ≤ 0x5a) || decide (0x61 ≤ c ∧ c ≤ 0x7a)

/-- The C value of a truth value. -/
def b2n (b : Bool) : Nat := if b then 1 else 0

/-- The function `strlen`: the number of bytes before the first NUL. -/
def strlen (mem : List Nat) (p : Nat) : Nat :=
  ((mem.drop p).takeWhile (fun b => b % 256 != 0)).length

/-! ## `display_mode_esc_sequence_len` -/

/-- The loop `while (isdigit(*p) || *p == ';') p++;`: the number of bytes it skips. -/
def skip_digits (mem : List Nat) (p : Nat) : Nat :=
  ((mem.drop p).takeWhile (fun b => isdigit (b % 256) || b % 256 == 0x3b)).length

/-- The function `display_mode_esc_sequence_len(s)`. -/
def display_mode_esc_sequence_len (mem : List Nat) (s : Nat) : Nat :=
  if byteAt mem s ≠ 0x1b then 0
  else if byteAt mem (s + 1) ≠ 0x5b then 0
  else
    let p := s + 2 + skip_digits mem (s + 2)
    if byteAt mem p ≠ 0x6d then 0
    else p + 1 - s

/-! ## `bisearch` and `git_wcwidth` -/

/-- The C type `struct interval`. -/
structure interval where
  first : Int
  last : Int
deriving DecidableEq

/-- Conversion of an `int` to `unsigned int`, the usual arithmetic conversion applied
when an `int` is compared with a `ucs_char_t` (an `unsigned int`, declared in `utf8.h`,
which is not part of the sources at hand). -/
def toUnsigned (x : Int) : Nat := (x % 4294967296).toNat

/-- The entry `table[i]`. -/
def tableAt (table : List interval) (i : Int) : interval :=
  table.getD i.toNat ⟨0, 0⟩

/-- The `while (max >= min)` loop of `bisearch`; `none` when the fuel runs out. -/
def bisearch_loop (ucs : Nat) (table : List interval) : Nat → Int → Int → Option Int
  | 0, _, _ => none
  | fuel + 1, min, max =>
    if max ≥ min then
      let mid := Int.tdiv (min + max) 2
      if ucs > toUnsigned (tableAt table mid).last then
        bisearch_loop ucs table fuel (mid + 1) max
      else if ucs < toUnsigned (tableAt table mid).first then
        bisearch_loop ucs table fuel min (mid - 1)
      else some 1
    else some 0

/-- The function `bisearch(ucs, table, max)`.  The loop is given `max + 2` rounds, which it
never uses up (`bisearch_total`). -/
def bisearch (ucs : Nat) (table : List interval) (max : Int) : Int :=
  if ucs < toUnsigned (tableAt table 0).first ∨ ucs > toUnsigned (tableAt table max).last then 0
  else (bisearch_loop ucs table (max.toNat + 2) 0 max).getD 0

/-- The initialiser `{ a, b }` of a `struct interval`. -/
def iv (a b : Nat) : interval := ⟨a, b⟩

/-- The table `combining` of `git_wcwidth`. -/
def combining : List interval := [
  iv 0x0300 0x0357, iv 0x035D 0x036F, iv 0x0483 0x0486,
  iv 0x0488 0x0489, iv 0x0591 0x05A1, iv 0x05A3 0x05B9,
  iv 0x05BB 0x05BD, iv 0x05BF 0x05BF, iv 0x05C1 0x05C2,
  iv 0x05C4 0x05C4, iv 0x0600 0x0603, iv 0x0610 0x0615,
  iv 0x064B 0x0658, iv 0x0670 0x0670, iv 0x06D6 0x06E4,
  iv 0x06E7 0x06E8, iv 0x06EA 0x06ED, iv 0x070F 0x070F,
  iv 0x0711 0x0711, iv 0x0730 0x074A, iv 0x07A6 0x07B0,
  iv 0x0901 0x0902, iv 0x093C 0x093C, iv 0x0941 0x0948,
  iv 0x094D 0x094D, iv 0x0951 0x0954, iv 0x0962 0x0963,
  iv 0x0981 0x0981, iv 0x09BC 0x09BC, iv 0x09C1 0x09C4,
  iv 0x09CD 0x09CD, iv 0x09E2 0x09E3, iv 0x0A01 0x0A02,
  iv 0x0A3C 0x0A3C, iv 0x0A41 0x0A42, iv 0x0A47 0x0A48,
  iv 0x0A4B 0x0A4D, iv 0x0A70 0x0A71, iv 0x0A81 0x0A82,
  iv 0x0ABC 0x0ABC, iv 0x0AC1 0x0AC5, iv 0x0AC7 0x0AC8,
  iv 0x0ACD 0x0ACD, iv 0x0AE2 0x0AE3, iv 0x0B01 0x0B01,
  iv 0x0B3C 0x0B3C, iv 0x0B3F 0x0B3F, iv 0x0B41 0x0B43,
  iv 0x0B4D 0x0B4D, iv 0x0B56 0x0B56, iv 0x0B82 0x0B82,
  iv 0x0BC0 0x0BC0, iv 0x0BCD 0x0BCD, iv 0x0C3E 0x0C40,
  iv 0x0C46 0x0C48, iv 0x0C4A 0x0C4D, iv 0x0C55 0x0C56,
  iv 0x0CBC 0x0CBC, iv 0x0CBF 0x0CBF, iv 0x0CC6 0x0CC6,
  iv 0x0CCC 0x0CCD, iv 0x0D41 0x0D43, iv 0x0D4D 0x0D4D,
  iv 0x0DCA 0x0DCA, iv 0x0DD2 0x0DD4, iv 0x0DD6 0x0DD6,
  iv 0x0E31 0x0E31, iv 0x0E34 0x0E3A, iv 0x0E47 0x0E4E,
  iv 0x0EB1 0x0EB1, iv 0x0EB4 0x0EB9, iv 0x0EBB 0x0EBC,
  iv 0x0EC8 0x0ECD, iv 0x0F18 0x0F19, iv 0x0F35 0x0F35,
  iv 0x0F37 0x0F37, iv 0x0F39 0x0F39, iv 0x0F71 0x0F7E,
  iv 0x0F80 0x0F84, iv 0x0F86 0x0F87, iv 0x0F90 0x0F97,
  iv 0x0F99 0x0FBC, iv 0x0FC6 0x0FC6, iv 0x102D 0x1030,
  iv 0x1032 0x1032, iv 0x1036 0x1037, iv 0x1039 0x1039,
  iv 0x1058 0x1059, iv 0x1160 0x11FF, iv 0x1712 0x1714,
  iv 0x1732 0x1734, iv 0x1752 0x1753, iv 0x1772 0x1773,
  iv 0x17B4 0x17B5, iv 0x17B7 0x17BD, iv 0x17C6 0x17C6,
  iv 0x17C9 0x17D3, iv 0x17DD 0x17DD, iv 0x180B 0x180D,
  iv 0x18A9 0x18A9, iv 0x1920 0x1922, iv 0x1927 0x1928,
  iv 0x1932 0x1932, iv 0x1939 0x193B, iv 0x200B 0x200F,
  iv 0x202A 0x202E, iv 0x2060 0x2063, iv 0x206A 0x206F,
  iv 0x20D0 0x20EA, iv 0x302A 0x302F, iv 0x3099 0x309A,
  iv 0xFB1E 0xFB1E, iv 0xFE00 0xFE0F, iv 0xFE20 0xFE23,
  iv 0xFEFF 0xFEFF, iv 0xFFF9 0xFFFB, iv 0x1D167 0x1D169,
  iv 0x1D173 0x1D182, iv 0x1D185 0x1D18B,
  iv 0x1D1AA 0x1D1AD, iv 0xE0001 0xE0001,
  iv 0xE0020 0xE007F, iv 0xE0100 0xE01EF ]

/-- The function `git_wcwidth(ch)`. -/
def git_wcwidth (ch : Nat) : Int :=
  if ch = 0 then 0
  else if ch < 32 ∨ (ch ≥ 0x7f ∧ ch < 0xa0) then -1
  else if bisearch ch combining ((combining.length : Int) - 1) ≠ 0 then 0
  else
    1 + (if ch ≥ 0x1100 ∧
            (ch ≤ 0x115f ∨
             ch = 0x2329 ∨ ch = 0x232a ∨
             (ch ≥ 0x2e80 ∧ ch ≤ 0xa4cf ∧ ch ≠ 0x303f) ∨
             (ch ≥ 0xac00 ∧ ch ≤ 0xd7a3) ∨
             (ch ≥ 0xf900 ∧ ch ≤ 0xfaff) ∨
             (ch ≥ 0xfe30 ∧ ch ≤ 0xfe6f) ∨
             (ch ≥ 0xff00 ∧ ch ≤ 0xff60) ∨
             (ch ≥ 0xffe0 ∧ ch ≤ 0xffe6) ∨
             (ch ≥ 0x20000 ∧ ch ≤ 0x2fffd) ∨
             (ch ≥ 0x30000 ∧ ch ≤ 0x3fffd)) then 1 else 0)

/-! ## `pick_one_utf8_char` and `utf8_width` -/

/-- What `pick_one_utf8_char` leaves behind: the returned character, the new value of
`*start` (`none` is `NULL`) and the new value of `*remainder_p` (`none` when
`remainder_p` is `NULL`). -/
structure Picked where
  ch : Nat
  start : Option Nat
  remainder : Option Nat
deriving DecidableEq

/-- The function `pick_one_utf8_char(&start, remainder_p)` on the memory `mem`. -/
def pick_one_utf8_char (mem : List Nat) (start : Nat) (remainder_p : Option Nat) : Picked :=
  let s : Nat → Nat := fun i => byteAt mem (start + i)
  let remainder : Nat := match remainder_p with
    | some r => r
    | none => 999
  let invalid : Picked := ⟨0, none, remainder_p⟩
  let done : Nat → Nat → Picked := fun ch incr =>
    ⟨ch, some (start + incr), remainder_p.map (fun _ => remainder - incr)⟩
  if remainder < 1 then invalid
  else if s 0 < 0x80 then done (s 0) 1
  else if s 0 &&& 0xe0 = 0xc0 then
    if remainder < 2 ∨ s 1 &&& 0xc0 ≠ 0x80 ∨ s 0 &&& 0xfe = 0xc0 then invalid
    else done (((s 0 &&& 0x1f) <<< 6) ||| (s 1 &&& 0x3f)) 2
  else if s 0 &&& 0xf0 = 0xe0 then
    if remainder < 3 ∨ s 1 &&& 0xc0 ≠ 0x80 ∨ s 2 &&& 0xc0 ≠ 0x80 ∨
        (s 0 = 0xe0 ∧ s 1 &&& 0xe0 = 0x80) ∨
        (s 0 = 0xed ∧ s 1 &&& 0xe0 = 0xa0) ∨
        (s 0 = 0xef ∧ s 1 = 0xbf ∧ s 2 &&& 0xfe = 0xbe) then invalid
    else done (((s 0 &&& 0x0f) <<< 12) ||| ((s 1 &&& 0x3f) <<< 6) ||| (s 2 &&& 0x3f)) 3
  else if s 0 &&& 0xf8 = 0xf0 then
    if remainder < 4 ∨ s 1 &&& 0xc0 ≠ 0x80 ∨ s 2 &&& 0xc0 ≠ 0x80 ∨ s 3 &&& 0xc0 ≠ 0x80 ∨
        (s 0 = 0xf0 ∧ s 1 &&& 0xf0 = 0x80) ∨
        (s 0 = 0xf4 ∧ s 1 > 0x8f) ∨ s 0 > 0xf4 then invalid
    else done (((s 0 &&& 0x07) <<< 18) ||| ((s 1 &&& 0x3f) <<< 12) |||
                ((s 2 &&& 0x3f) <<< 6) ||| (s 3 &&& 0x3f)) 4
  else invalid

/-- The function `utf8_width(&start, remainder_p)`: the returned width together with the new
values of `*start` and `*remainder_p`. -/
def utf8_width (mem : List Nat) (start : Nat) (remainder_p : Option Nat) :
    Int × Option Nat × Option Nat :=
  let r := pick_one_utf8_char mem start remainder_p
  match r.start with
  | none => (0, none, r.remainder)
  | some p => (git_wcwidth r.ch, some p, r.remainder)

/-! ## `utf8_strnwidth` and `utf8_strwidth` -/

/-- The loop `while ((skip = display_mode_esc_sequence_len(p))) p += skip;`: the cursor
after it.  Every escape sequence is at least three bytes long and lies before the
terminator, so `mem.length + 1` rounds are never used up (`skip_escapes_done`). -/
def skip_escapes (mem : List Nat) : Nat → Nat → Nat
  | 0, p => p
  | fuel + 1, p =>
    let skip := display_mode_esc_sequence_len mem p
    if skip ≠ 0 then skip_escapes mem fuel (p + skip) else p

/-- The cursor after the inner loop of `utf8_strnwidth`, which skips escape sequences
only when `skip_ansi` is set. -/
def skipped (mem : List Nat) (skip_ansi : Bool) (p : Nat) : Nat :=
  if skip_ansi then skip_escapes mem (mem.length + 1) p else p

/-- The loop `while (string && string < orig + len)` of `utf8_strnwidth`: the final
`string` and `width`; `none` when the fuel runs out. -/
def strnwidth_loop (mem : List Nat) (orig : Nat) (len : Int) (skip_ansi : Bool) :
    Nat → Option Nat → Int → Option (Option Nat × Int)
  | 0, _, _ => none
  | fuel + 1, string, width =>
    match string with
    | none => some (none, width)
    | some s =>
      if (s : Int) < orig + len then
        let r := utf8_width mem (skipped mem skip_ansi s) none
        strnwidth_loop mem orig len skip_ansi fuel r.2.1 (width + r.1)
      else some (some s, width)

/-- The function `utf8_strnwidth(string, len, skip_ansi)`; `none` only if its loop ran out
of fuel, which `len + 2` rounds never do (`utf8_strnwidth_total`). -/
def utf8_strnwidth (mem : List Nat) (string : Nat) (len : Int) (skip_ansi : Bool) :
    Option Int :=
  let len : Int := if len = -1 then (strlen mem string : Int) else len
  match strnwidth_loop mem string len skip_ansi (len.toNat + 2) (some string) 0 with
  | none => none
  | some (some _, width) => some width
  | some (none, _) => some len

/-- The function `utf8_strwidth(string)`. -/
def utf8_strwidth (mem : List Nat) (string : Nat) : Option Int :=
  utf8_strnwidth mem string (-1) false

/-! ## `strbuf` primitives

A `strbuf` is the list of its `len` bytes; the terminator that follows them is the NUL
that every read outside a list yields. -/

/-- Modelled from the spec: `strbuf_add(sb, data, len)` of `strbuf.h` (not part of the
sources at hand) appends the `len` bytes at `data` to the buffer. -/
def strbuf_add (sb : List Nat) (mem : List Nat) (data len : Nat) : List Nat :=
  sb ++ window mem data len

/-- Modelled from the spec: `strbuf_addch(sb, c)` of `strbuf.h` (not part of the sources at
hand) appends one byte. -/
def strbuf_addch (sb : List Nat) (c : Nat) : List Nat := sb ++ [c]

/-- Modelled from the spec: `strbuf_setlen(sb, len)` of `strbuf.h` (not part of the sources
at hand) cuts the buffer down to its first `len` bytes. -/
def strbuf_setlen (sb : List Nat) (len : Nat) : List Nat := sb.take len

/-- The function `strbuf_addchars(sb, c, n)`: `n` copies of `c` are appended.  The count
is a `size_t`: a negative `int` passed for it becomes a count that no buffer can hold and
the call does not return.  That case is left out of the model, which appends nothing
then; the properties that speak of indentation assume a count that is not negative. -/
def strbuf_addchars (sb : List Nat) (c : Nat) (n : Int) : List Nat :=
  sb ++ List.replicate n.toNat c

/-! ## `strbuf_add_indented_text` -/

/-- The distance from `text` to `strchrnul(text, '\n')`. -/
def strchrnul_nl (mem : List Nat) (text : Nat) : Nat :=
  ((mem.drop text).takeWhile (fun b => b % 256 != 0x0a && b % 256 != 0)).length

/-- The loop of `strbuf_add_indented_text`; `none` when the fuel runs out, which
`mem.length + 1` rounds never do (`add_indented_loop_total`). -/
def add_indented_loop (mem : List Nat) (indent2 : Int) :
    Nat → Nat → Int → List Nat → Option (List Nat)
  | 0, _, _, _ => none
  | fuel + 1, text, indent, buf =>
    if byteAt mem text = 0 then some buf
    else
      let eol0 := text + strchrnul_nl mem text
      let eol := if byteAt mem eol0 = 0x0a then eol0 + 1 else eol0
      add_indented_loop mem indent2 fuel eol indent2
        (strbuf_add (strbuf_addchars buf 0x20 indent) mem text (eol - text))

/-- The function `strbuf_add_indented_text(buf, text, indent, indent2)`. -/
def strbuf_add_indented_text (buf : List Nat) (mem : List Nat) (text : Nat)
    (indent indent2 : Int) : Option (List Nat) :=
  add_indented_loop mem indent2 (mem.length + 1) text (if indent < 0 then 0 else indent) buf

/-! ## `strbuf_add_wrapped_text` -/

/-- The local variables of `strbuf_add_wrapped_text` that change in its loop, and the
buffer.  The column count `w` is an `int`, taken here in `Int`: that is what the code
computes as long as the count stays an `int`; a round adds at most 8 to it. -/
structure wrap_state where
  text : Nat
  bol : Nat
  space : Option Nat
  w : Int
  indent : Int
  buf : List Nat
deriving DecidableEq

/-- What one round of the `for (;;)` loop does: go round again, `return`, or find text
that does not decode (`goto retry`), each with the buffer as it stands. -/
inductive wrap_step_result where
  | next (s : wrap_state)
  | done (buf : List Nat)
  | broken (buf : List Nat)
deriving DecidableEq

/-- The result of running the loop: returned, found text that does not decode, or ran
out of fuel. -/
inductive wrap_outcome where
  | done (buf : List Nat)
  | broken (buf : List Nat)
  | exhausted
deriving DecidableEq

/-- The code at the label `new_line`, entered with `space` set. -/
def wrap_new_line (mem : List Nat) (indent2 : Int) (buf : List Nat) (space : Nat) : wrap_state :=
  let p := space + b2n (isspace (byteAt mem space))
  { text := p, bol := p, space := none, w := indent2, indent := indent2,
    buf := strbuf_addch buf 0x0a }

/-- The branch `if (w <= width || !space)` taken at a whitespace character or at the end of
the text, `text` being the cursor after the escape sequences and `c` the byte there. -/
def wrap_emit (mem : List Nat) (indent2 : Int) (s : wrap_state) (text c : Nat) :
    wrap_step_result :=
  if c = 0 ∧ text = s.bol then .done s.buf
  else
    let start := match s.space with
      | some sp => sp
      | none => s.bol
    let buf1 := match s.space with
      | some _ => s.buf
      | none => strbuf_addchars s.buf 0x20 s.indent
    let buf2 := strbuf_add buf1 mem start (text - start)
    if c = 0 then .done buf2
    else if c = 0x09 then
      .next { s with text := text + 1, space := some text, w := Int.lor s.w 0x07 + 1, buf := buf2 }
    else if c = 0x0a then
      if byteAt mem (text + 1) = 0x0a then
        .next (wrap_new_line mem indent2 (strbuf_addch buf2 0x0a) (text + 1))
      else if ¬ isalnum (byteAt mem (text + 1)) then
        .next (wrap_new_line mem indent2 buf2 (text + 1))
      else
        .next { s with text := text + 1, space := some (text + 1), w := s.w + 1,
                       buf := strbuf_addch buf2 0x20 }
    else .next { s with text := text + 1, space := some text, w := s.w + 1, buf := buf2 }

/-- One round of the `for (;;)` loop of `strbuf_add_wrapped_text`. -/
def wrap_step (mem : List Nat) (assume_utf8 : Bool) (indent2 width : Int) (s : wrap_state) :
    wrap_step_result :=
  let text := skip_escapes mem (mem.length + 1) s.text
  let c := byteAt mem text
  if c = 0 ∨ isspace c then
    match s.space with
    | none => wrap_emit mem indent2 s text c
    | some sp =>
      if s.w ≤ width then wrap_emit mem indent2 s text c
      else .next (wrap_new_line mem indent2 s.buf sp)
  else if assume_utf8 then
    let r := utf8_width mem text none
    match r.2.1 with
    | none => .broken s.buf
    | some text' => .next { s with text := text', w := s.w + r.1 }
  else .next { s with text := text + 1, w := s.w + 1 }

/-- The `for (;;)` loop of `strbuf_add_wrapped_text`. -/
def wrap_run (mem : List Nat) (assume_utf8 : Bool) (indent2 width : Int) :
    Nat → wrap_state → wrap_outcome
  | 0, _ => .exhausted
  | fuel + 1, s =>
    match wrap_step mem assume_utf8 indent2 width s with
    | .next s' => wrap_run mem assume_utf8 indent2 width fuel s'
    | .done buf => .done buf
    | .broken buf => .broken buf

/-- The state set up at the label `retry`. -/
def wrap_init (text : Nat) (indent1 : Int) (buf : List Nat) : wrap_state :=
  if indent1 < 0 then
    { text := text, bol := text, space := some text, w := -indent1, indent := indent1, buf := buf }
  else
    { text := text, bol := text, space := none, w := indent1, indent := indent1, buf := buf }

/-- A number of rounds the loop of `strbuf_add_wrapped_text` never uses up
(`wrap_run_terminates`). -/
def wrap_fuel (mem : List Nat) : Nat := (2 * mem.length + 5) * (mem.length + 2)

/-- The function `strbuf_add_wrapped_text(buf, text, indent1, indent2, width)`: the buffer
it leaves; `none` only if a loop ran out of fuel, which does not happen
(`strbuf_add_wrapped_text_total`). -/
def strbuf_add_wrapped_text (buf : List Nat) (mem : List Nat) (text : Nat)
    (indent1 indent2 width : Int) : Option (List Nat) :=
  if width ≤ 0 then strbuf_add_indented_text buf mem text indent1 indent2
  else
    match wrap_run mem true indent2 width (wrap_fuel mem) (wrap_init text indent1 buf) with
    | .done b => some b
    | .exhausted => none
    | .broken b =>
      match wrap_run mem false indent2 width (wrap_fuel mem)
          (wrap_init text indent1 (strbuf_setlen b buf.length)) with
      | .done b' => some b'
      | _ => none

/-- Wrapping in raw-byte mode from the start of the text (the code from the label `retry`
on with `assume_utf8` cleared), appending to `buf`. -/
def wrap_raw (buf : List Nat) (mem : List Nat) (text : Nat) (indent1 indent2 width : Int) :
    Option (List Nat) :=
  match wrap_run mem false indent2 width (wrap_fuel mem) (wrap_init text indent1 buf) with
  | .done b => some b
  | _ => none

/-! ## `strbuf_utf8_replace` -/

/-- The inner loop of `strbuf_utf8_replace`, which copies every escape sequence at the
cursor to the destination: the cursor and the destination after it.  As for
`skip_escapes`, `mem.length + 1` rounds are never used up. -/
def copy_escapes (mem : List Nat) : Nat → Nat → List Nat → Nat × List Nat
  | 0, src, dst => (src, dst)
  | fuel + 1, src, dst =>
    let n := display_mode_esc_sequence_len mem src
    if n ≠ 0 then copy_escapes mem fuel (src + n) (dst ++ window mem src n) else (src, dst)

/-- The local variables of `strbuf_utf8_replace` that change in its loop; `dst` is the
content written to the destination so far, `subst` is `none` once it is `NULL`. -/
structure replace_state where
  src : Nat
  dst : List Nat
  w : Int
  subst : Option (List Nat)
deriving DecidableEq

/-- The result of the loop of `strbuf_utf8_replace`: it ran to the end, it met bytes that
do not decode ("broken utf-8, do nothing"), or it ran out of fuel. -/
inductive replace_outcome where
  | done (dst : List Nat)
  | broken
  | exhausted
deriving DecidableEq

/-- The loop `while (src < end)` of `strbuf_utf8_replace`.  The width `n` is held in a
`size_t`: it is tested against 0 and added back to the `int` `w`, which gives `w + n` for
each of the widths -1, 0, 1, 2.  The sum `pos + width` is a sum of two `int`s, taken
here in `Int`: that is what the code computes when the sum is an `int` (`int_range`),
which the properties of the substitution assume. -/
def replace_loop (mem : List Nat) (stop : Nat) (pos width : Int) :
    Nat → replace_state → replace_outcome
  | 0, _ => .exhausted
  | fuel + 1, s =>
    if s.src < stop then
      let e := copy_escapes mem (mem.length + 1) s.src s.dst
      let r := utf8_width mem e.1 none
      match r.2.1 with
      | none => .broken
      | some src' =>
        if r.1 ≠ 0 ∧ s.w ≥ pos ∧ s.w < pos + width then
          let dst' := match s.subst with
            | some lit => e.2 ++ lit
            | none => e.2
          replace_loop mem stop pos width fuel
            { src := src', dst := dst', w := s.w + r.1, subst := none }
        else
          replace_loop mem stop pos width fuel
            { src := src', dst := e.2 ++ window mem e.1 (src' - e.1), w := s.w + r.1,
              subst := s.subst }
    else .done s.dst

/-- The function `strbuf_utf8_replace(sb_src, pos, width, subst)`: the content of `sb_src`
after the call; `subst` is the memory at the pointer of that name, `none` for `NULL`.
The result is `none` only if the loop ran out of fuel, which `len + 1` rounds never do
(`strbuf_utf8_replace_total`). -/
def strbuf_utf8_replace (sb : List Nat) (pos width : Int) (subst : Option (List Nat)) :
    Option (List Nat) :=
  match replace_loop sb sb.length pos width (sb.length + 1)
      { src := 0, dst := [], w := 0, subst := subst.map (fun m => window m 0 (strlen m 0)) } with
  | .done dst => some dst
  | .broken => some sb
  | .exhausted => none

/-! ## `is_utf8` -/

/-- The loop `while (*text)` of `is_utf8`: `some false` is `return 0`, `some true` the
`return 1` behind the loop; `none` when the fuel runs out, which `mem.length + 1` rounds
never do (`is_utf8_total`). -/
def is_utf8_loop (mem : List Nat) : Nat → Nat → Option Bool
  | 0, _ => none
  | fuel + 1, text =>
    if byteAt mem text ≠ 0 then
      if byteAt mem text = 0x0a ∨ byteAt mem text = 0x09 ∨ byteAt mem text = 0x0d then
        is_utf8_loop mem fuel (text + 1)
      else
        match (utf8_width mem text none).2.1 with
        | none => some false
        | some text' => is_utf8_loop mem fuel text'
    else some true

/-- The function `is_utf8(text)`. -/
def is_utf8 (mem : List Nat) (text : Nat) : Option Bool :=
  is_utf8_loop mem (mem.length + 1) text

/-! ## `is_encoding_utf8` and `mbs_chrlen` -/

/-- Modelled from the spec: `tolower` of the C library in the C locale (not part of the
sources at hand), used to compare names "in any letter case". -/
def tolower (c : Nat) : Nat := if 0x41 ≤ c ∧ c ≤ 0x5a then c + 0x20 else c

/-- Modelled from the spec: the test `!strcasecmp(name, lit)` of the C library (not part of
the sources at hand): the C string at `name` equals the literal up to letter case. -/
def strcasecmp_eq (name lit : List Nat) : Bool :=
  (window name 0 (strlen name 0)).map tolower == lit.map tolower

/-- The function `is_encoding_utf8(name)`; `none` is the null pointer. -/
def is_encoding_utf8 (name : Option (List Nat)) : Bool :=
  match name with
  | none => true
  | some n =>
    strcasecmp_eq n [0x75, 0x74, 0x66, 0x2d, 0x38] || strcasecmp_eq n [0x75, 0x74, 0x66, 0x38]

/-- The constant `SIZE_MAX` of a platform with a 64-bit `size_t`. -/
def SIZE_MAX : Nat := 18446744073709551615

/-- The function `mbs_chrlen(&text, remainder_p, encoding)`: the returned length, the new
`*text` and the new `*remainder_p` (`none` when `remainder_p` is `NULL`).  The returned
length never exceeds the count it is subtracted from (`mbs_chrlen_le`), so the `size_t`
subtraction does not wrap. -/
def mbs_chrlen (mem : List Nat) (text : Nat) (remainder_p : Option Nat)
    (encoding : Option (List Nat)) : Int × Nat × Option Nat :=
  let r : Nat := match remainder_p with
    | some r => r
    | none => SIZE_MAX
  if r < 1 then (0, text, remainder_p)
  else
    let chrlen : Nat :=
      if is_encoding_utf8 encoding then
        match (pick_one_utf8_char mem text (some r)).start with
        | some p => p - text
        | none => 1
      else 1
    ((chrlen : Int), text + chrlen, remainder_p.map (fun x => x - chrlen))

/-! # Reference notions and proof devices -/

/-! ## Reference notions for the decoder and the width classifier -/

/-- Following the spec's words: the shortest-form UTF-8 encoding of a code point, "the standard
UTF-8 bit layout" in one to four bytes. -/
def utf8_encode (cp : Nat) : List Nat :=
  if cp < 0x80 then [cp]
  else if cp < 0x800 then [0xC0 + cp / 64, 0x80 + cp % 64]
  else if cp < 0x10000 then [0xE0 + cp / 4096, 0x80 + cp / 64 % 64, 0x80 + cp % 64]
  else [0xF0 + cp / 262144, 0x80 + cp / 4096 % 64, 0x80 + cp / 64 % 64, 0x80 + cp % 64]

/-- A Unicode scalar value: at most U+10FFFF and not a surrogate. -/
def is_scalar (cp : Nat) : Prop := cp ≤ 0x10FFFF ∧ ¬ (0xD800 ≤ cp ∧ cp ≤ 0xDFFF)

instance (cp : Nat) : Decidable (is_scalar cp) := by unfold is_scalar; infer_instance

/-- The code points the decoder is said to accept: scalar values other than U+FFFE and
U+FFFF. -/
def decodable (cp : Nat) : Prop := is_scalar cp ∧ cp ≠ 0xFFFE ∧ cp ≠ 0xFFFF

instance (cp : Nat) : Decidable (decodable cp) := by unfold decodable; infer_instance

/-- The decision table of `pick_one_utf8_char` with its bit tests written as comparisons:
from the first four bytes at the cursor and the byte budget to the decoded character and
its length.  It is a proof device, related to the code by `pick_one_utf8_char_eq_table`. -/
def pick_table (b0 b1 b2 b3 remainder : Nat) : Option (Nat × Nat) :=
  if remainder < 1 then none
  else if b0 < 0x80 then some (b0, 1)
  else if 0xc0 ≤ b0 ∧ b0 < 0xe0 then
    if remainder < 2 ∨ ¬ (0x80 ≤ b1 ∧ b1 < 0xc0) ∨ (b0 = 0xc0 ∨ b0 = 0xc1) then none
    else some (b0 % 32 * 64 + b1 % 64, 2)
  else if 0xe0 ≤ b0 ∧ b0 < 0xf0 then
    if remainder < 3 ∨ ¬ (0x80 ≤ b1 ∧ b1 < 0xc0) ∨ ¬ (0x80 ≤ b2 ∧ b2 < 0xc0) ∨
        (b0 = 0xe0 ∧ (0x80 ≤ b1 ∧ b1 < 0xa0)) ∨
        (b0 = 0xed ∧ (0xa0 ≤ b1 ∧ b1 < 0xc0)) ∨
        (b0 = 0xef ∧ b1 = 0xbf ∧ (b2 = 0xbe ∨ b2 = 0xbf)) then none
    else some (b0 % 16 * 4096 + b1 % 64 * 64 + b2 % 64, 3)
  else if 0xf0 ≤ b0 ∧ b0 < 0xf8 then
    if remainder < 4 ∨ ¬ (0x80 ≤ b1 ∧ b1 < 0xc0) ∨ ¬ (0x80 ≤ b2 ∧ b2 < 0xc0) ∨
        ¬ (0x80 ≤ b3 ∧ b3 < 0xc0) ∨
        (b0 = 0xf0 ∧ (0x80 ≤ b1 ∧ b1 < 0x90)) ∨
        (b0 = 0xf4 ∧ b1 > 0x8f) ∨ b0 > 0xf4 then none
    else some (b0 % 8 * 262144 + b1 % 64 * 4096 + b2 % 64 * 64 + b3 % 64, 4)
  else none

/-- The byte budget `pick_one_utf8_char` works with. -/
def budget (remainder_p : Option Nat) : Nat :=
  match remainder_p with
  | some r => r
  | none => 999

/-- The field `table[i].first` as the comparison with a `ucs_char_t` sees it. -/
def ufirst (table : List interval) (i : Nat) : Nat := toUnsigned (tableAt table i).first

/-- The field `table[i].last` as the comparison with a `ucs_char_t` sees it. -/
def ulast (table : List interval) (i : Nat) : Nat := toUnsigned (tableAt table i).last

/-- The interval-table invariant on the values the comparisons see: every entry has
`first ≤ last` and adjacent entries satisfy `table[i].last < table[i+1].first`. -/
def usorted (table : List interval) : Prop :=
  (∀ i, i < table.length → ufirst table i ≤ ulast table i) ∧
  (∀ i, i < table.length - 1 → ulast table i < ufirst table (i + 1))

instance (table : List interval) : Decidable (usorted table) := by
  unfold usorted; infer_instance

/-- Membership of a code point in some interval of a table. -/
def in_table (table : List interval) (ucs : Nat) : Prop :=
  ∃ i, i < table.length ∧ ufirst table i ≤ ucs ∧ ucs ≤ ulast table i

instance (table : List interval) (ucs : Nat) : Decidable (in_table table ucs) := by
  unfold in_table; infer_instance

/-- Membership of a code point in some interval `[first, last]` of a table. -/
def in_intervals (table : List interval) (ucs : Nat) : Prop :=
  ∃ e ∈ table, e.first ≤ (ucs : Int) ∧ (ucs : Int) ≤ e.last

instance (table : List interval) (ucs : Nat) : Decidable (in_intervals table ucs) := by
  unfold in_intervals; infer_instance

/-- Every field of the table is a non-negative `int` (so that the conversion to
`unsigned int` leaves it alone). -/
def entries_nonneg (table : List interval) : Prop :=
  ∀ e ∈ table, (0 ≤ e.first ∧ e.first < 4294967296) ∧ (0 ≤ e.last ∧ e.last < 4294967296)

instance (table : List interval) : Decidable (entries_nonneg table) := by
  unfold entries_nonneg; infer_instance

/-- The control characters of the comment above `git_wcwidth`: the C0 and C1 control
characters and DEL. -/
def is_control (ch : Nat) : Prop := ch < 32 ∨ (0x7f ≤ ch ∧ ch ≤ 0x9f)

instance (ch : Nat) : Decidable (is_control ch) := by unfold is_control; infer_instance

/-- Following the spec's words: the East-Asian-wide ranges. -/
def east_asian_wide (ch : Nat) : Prop :=
  (0x1100 ≤ ch ∧ ch ≤ 0x115F) ∨ ch = 0x2329 ∨ ch = 0x232A ∨
  (0x2E80 ≤ ch ∧ ch ≤ 0xA4CF ∧ ch ≠ 0x303F) ∨
  (0xAC00 ≤ ch ∧ ch ≤ 0xD7A3) ∨
  (0xF900 ≤ ch ∧ ch ≤ 0xFAFF) ∨
  (0xFE30 ≤ ch ∧ ch ≤ 0xFE6F) ∨
  (0xFF00 ≤ ch ∧ ch ≤ 0xFF60) ∨
  (0xFFE0 ≤ ch ∧ ch ≤ 0xFFE6) ∨
  (0x20000 ≤ ch ∧ ch ≤ 0x2FFFD) ∨
  (0x30000 ≤ ch ∧ ch ≤ 0x3FFFD)

instance (ch : Nat) : Decidable (east_asian_wide ch) := by
  unfold east_asian_wide; infer_instance

/-- Decoding a byte run character by character: `pick_one_utf8_char` is called with the
remaining budget until the budget is used up.  The result lists every decoded character
with the budget left after it, followed by the final cursor; it is `none` as soon as a
call reports invalid.  The budget shrinks with every character, so `fuel = remainder` is
enough. -/
def decode_all (mem : List Nat) : Nat → Nat → Nat → Option (List (Nat × Nat) × Nat)
  | 0, start, remainder => if remainder = 0 then some ([], start) else none
  | fuel + 1, start, remainder =>
    if remainder = 0 then some ([], start)
    else
      let r := pick_one_utf8_char mem start (some remainder)
      match r.start, r.remainder with
      | some start', some remainder' =>
        match decode_all mem fuel start' remainder' with
        | some (cs, stop) => some ((r.ch, remainder') :: cs, stop)
        | none => none
      | _, _ => none

/-- The bytes of a sequence of code points, each in its shortest form. -/
def utf8_encode_all (cps : List Nat) : List Nat := cps.flatMap utf8_encode

/-- The trace expected of `decode_all`: each code point with the number of bytes that
follow its encoding. -/
def expected_trace : List Nat → List (Nat × Nat)
  | [] => []
  | cp :: cps => (cp, (utf8_encode_all cps).length) :: expected_trace cps

/-- The length a lead byte announces, by the tests `pick_one_utf8_char` applies to it
(0 for a byte that cannot start a character). -/
def announced_len (b : Nat) : Nat :=
  if b < 0x80 then 1
  else if b &&& 0xe0 = 0xc0 then 2
  else if b &&& 0xf0 = 0xe0 then 3
  else if b &&& 0xf8 = 0xf0 then 4
  else 0

/-! ## Reference notions for `utf8_strnwidth` -/

/-- Decoding fails at some point of the scan of `utf8_strnwidth` that starts at `s` and
is bounded by `limit = orig + len`: either the character at `s` (after the skipped escape
sequences) is invalid, or it is decoded and decoding fails further on. -/
inductive scan_fails (mem : List Nat) (limit : Int) (skip_ansi : Bool) : Nat → Prop
  | here (s : Nat) : (s : Int) < limit →
      (pick_one_utf8_char mem (skipped mem skip_ansi s) none).start = none →
      scan_fails mem limit skip_ansi s
  | later (s s' : Nat) : (s : Int) < limit →
      (pick_one_utf8_char mem (skipped mem skip_ansi s) none).start = some s' →
      scan_fails mem limit skip_ansi s' → scan_fails mem limit skip_ansi s

/-- The byte length `utf8_strnwidth` works with: `strlen` when `len` is -1. -/
def effective_len (mem : List Nat) (string : Nat) (len : Int) : Int :=
  if len = -1 then (strlen mem string : Int) else len

/-! ## Proof devices for the wrapping loop -/

/-- The first component of the termination measure of the wrapping loop: twice the
position the next line can start at. -/
def wrap_rank (mem : List Nat) (s : wrap_state) : Nat :=
  match s.space with
  | some sp => 2 * sp + 2 * b2n (isspace (byteAt mem sp))
  | none => 2 * s.text + 1

/-- The termination measure of the wrapping loop. -/
def wrap_measure (mem : List Nat) (s : wrap_state) : Nat :=
  (2 * mem.length + 4 - wrap_rank mem s) * (mem.length + 2) + (mem.length + 1 - s.text)

/-- The pointers of the wrapping loop stay inside the string, `space` behind `text`. -/
def wrap_inv (mem : List Nat) (s : wrap_state) : Prop :=
  s.text ≤ mem.length ∧ ∀ sp, s.space = some sp → sp ≤ s.text

/-- A state of the wrapping loop with `B` put in front of its buffer. -/
def wrap_state.prepend (B : List Nat) (s : wrap_state) : wrap_state :=
  { s with buf := B ++ s.buf }

/-- The result of a round with `B` put in front of its buffer. -/
def wrap_step_result.prepend (B : List Nat) : wrap_step_result → wrap_step_result
  | .next s => .next (s.prepend B)
  | .done b => .done (B ++ b)
  | .broken b => .broken (B ++ b)

/-- The outcome of the loop with `B` put in front of its buffer. -/
def wrap_outcome.prepend (B : List Nat) : wrap_outcome → wrap_outcome
  | .done b => .done (B ++ b)
  | .broken b => .broken (B ++ b)
  | .exhausted => .exhausted

/-! ## Reference notions for wrapped words -/

/-- A word of printable ASCII characters: not empty, every byte from `!` to `~`. -/
def is_word (u : List Nat) : Prop := u ≠ [] ∧ ∀ b ∈ u, 0x21 ≤ b ∧ b ≤ 0x7e

instance (u : List Nat) : Decidable (is_word u) := by unfold is_word; infer_instance

/-- Words separated by single spaces. -/
def join_words : List (List Nat) → List Nat
  | [] => []
  | [u] => u
  | u :: v :: rest => u ++ 0x20 :: join_words (v :: rest)

/-- A line of output: its indentation followed by its words, separated by single
spaces. -/
def render_line (l : Int × List (List Nat)) : List Nat :=
  List.replicate l.1.toNat 0x20 ++ join_words l.2

/-- Lines separated by newlines (no newline after the last line). -/
def render_lines : List (Int × List (List Nat)) → List Nat
  | [] => []
  | [l] => render_line l
  | l :: l' :: ls => render_line l ++ 0x0a :: render_lines (l' :: ls)

/-- Greedy filling of lines: `line` is the line under construction, indented by `ind` and
`cur` columns wide so far; a word goes on it if it fits within `width` behind a space,
otherwise it starts a new line indented by `indent2`. -/
def fill_lines (indent2 width : Int) :
    Int → List (List Nat) → Int → List (List Nat) → List (Int × List (List Nat))
  | ind, line, _, [] => [(ind, line)]
  | ind, line, cur, u :: rest =>
    if cur + 1 + u.length ≤ width then
      fill_lines indent2 width ind (line ++ [u]) (cur + 1 + u.length) rest
    else (ind, line) :: fill_lines indent2 width indent2 [u] (indent2 + u.length) rest

/-- The bytes that follow the line under construction in the output of greedy filling. -/
def mid_out (indent2 width : Int) : Int → List (List Nat) → List Nat
  | _, [] => []
  | cur, u :: rest =>
    if cur + 1 + u.length ≤ width then
      0x20 :: u ++ mid_out indent2 width (cur + 1 + u.length) rest
    else
      0x0a :: (List.replicate indent2.toNat 0x20 ++ u ++
        mid_out indent2 width (indent2 + u.length) rest)

/-- The state `s'` is reached from `s` after some rounds of the wrapping loop. -/
def wrap_reaches (mem : List Nat) (assume_utf8 : Bool) (indent2 width : Int)
    (s s' : wrap_state) : Prop :=
  ∃ k, ∀ n, wrap_run mem assume_utf8 indent2 width (n + k) s =
    wrap_run mem assume_utf8 indent2 width n s'

/-- The state after `k` more characters of width 1 have been scanned. -/
def wrap_state.advance (s : wrap_state) (k : Nat) : wrap_state :=
  { s with text := s.text + k, w := s.w + k }

/-- The state of the wrapping loop at the start of a word that begins a line indented by
`ind`, at position `p`. -/
def fresh_state (p : Nat) (ind : Int) (buf : List Nat) : wrap_state :=
  { text := p, bol := p, space := none, w := ind, indent := ind, buf := buf }

/-- The state of the wrapping loop at the start of a word behind the space at position
`p`, on a line that is `cur` columns wide so far. -/
def mid_state (p bol : Nat) (cur ind : Int) (buf : List Nat) : wrap_state :=
  { text := p + 1, bol := bol, space := some p, w := cur + 1, indent := ind, buf := buf }

/-- From the start of the word `u` on a fresh line (nothing of the line emitted yet, `pre`
being the text before the word), the wrapping loop returns with the rest of the greedy
output appended. -/
def sim_fresh (i2 width : Int) (u : List Nat) (rest : List (List Nat)) : Prop :=
  ∀ (pre buf : List Nat) (ind : Int),
    ∃ n, wrap_run (pre ++ join_words (u :: rest)) true i2 width n
        (fresh_state pre.length ind buf) =
      .done (buf ++ List.replicate ind.toNat 0x20 ++ u ++
        mid_out i2 width (ind + u.length) rest)

/-- From the start of the word `u` behind a space on a line that is `cur` columns wide so
far, the wrapping loop returns with the rest of the greedy output appended. -/
def sim_mid (i2 width : Int) (u : List Nat) (rest : List (List Nat)) : Prop :=
  ∀ (pre0 buf : List Nat) (cur ind : Int) (bol : Nat), bol ≤ pre0.length →
    ∃ n, wrap_run (pre0 ++ 0x20 :: join_words (u :: rest)) true i2 width n
        (mid_state pre0.length bol cur ind buf) =
      .done (buf ++ mid_out i2 width cur (u :: rest))

/-! ## Reference notions for column substitution -/

/-- An item of a buffer of text with colour escape sequences: an escape sequence
`ESC [ params m`, or a character. -/
inductive item where
  | esc (params : List Nat)
  | chr (cp : Nat)
deriving DecidableEq

/-- The bytes of an item. -/
def item.bytes : item → List Nat
  | .esc params => 0x1b :: 0x5b :: (params ++ [0x6d])
  | .chr cp => utf8_encode cp

/-- Well-formed items: the parameters of an escape sequence are ASCII digits and `;`; a
character is one the decoder accepts, and ESC occurs only at the head of an escape
sequence. -/
def item.wf : item → Prop
  | .esc params => ∀ b ∈ params, isdigit b = true ∨ b = 0x3b
  | .chr cp => decodable cp ∧ cp ≠ 0x1b

instance (it : item) : Decidable it.wf := by
  cases it <;> unfold item.wf <;> infer_instance

/-- The buffer made of a list of items. -/
def render_items (items : List item) : List Nat := items.flatMap item.bytes

/-- The last item is an escape sequence. -/
def ends_with_esc (items : List item) : Prop := ∃ p, items.getLast? = some (.esc p)

instance (items : List item) : Decidable (ends_with_esc items) :=
  match h : items.getLast? with
  | some (.esc p) => isTrue ⟨p, h⟩
  | some (.chr c) => isFalse (by rintro ⟨p, hp⟩; rw [h] at hp; cases hp)
  | none => isFalse (by rintro ⟨p, hp⟩; rw [h] at hp; cases hp)

/-- The bytes of the C string at the start of `m`. -/
def c_string (m : List Nat) : List Nat := window m 0 (strlen m 0)

/-- Following the claim's words: the items in order, minus the characters that occupy a
display column in `[pos, pos+width)` (a character that starts at column `w` occupies the
columns from `w` up to `w` plus its width), the literal put once in the place of the
first character removed. -/
def replace_claimed (pos width : Int) : Int → Option (List Nat) → List item → List Nat
  | _, _, [] => []
  | w, lit, .esc params :: rest =>
    (item.esc params).bytes ++ replace_claimed pos width w lit rest
  | w, lit, .chr cp :: rest =>
    if max w pos < min (w + git_wcwidth cp) (pos + width) then
      lit.getD [] ++ replace_claimed pos width (w + git_wcwidth cp) none rest
    else utf8_encode cp ++ replace_claimed pos width (w + git_wcwidth cp) lit rest

/-- The amended rule: the items in order, minus the characters of non-zero width whose
first column, the sum of the widths of the characters before them, lies in
`[pos, pos+width)`, the literal put once in the place of the first character removed. -/
def replace_spec (pos width : Int) : Int → Option (List Nat) → List item → List Nat
  | _, _, [] => []
  | w, lit, .esc params :: rest =>
    (item.esc params).bytes ++ replace_spec pos width w lit rest
  | w, lit, .chr cp :: rest =>
    if git_wcwidth cp ≠ 0 ∧ pos ≤ w ∧ w < pos + width then
      lit.getD [] ++ replace_spec pos width (w + git_wcwidth cp) none rest
    else utf8_encode cp ++ replace_spec pos width (w + git_wcwidth cp) lit rest

/-! ## Reference notions for escape sequences, tables and encodings -/

/-- A parameter byte of an escape sequence: an ASCII digit or `;`. -/
def is_param (b : Nat) : Bool := isdigit b || b == 0x3b

/-- Following the claim's words: the string at `s` begins with ESC, `[`, then `k` bytes each
an ASCII digit or `;`, then `m`. -/
def esc_form (mem : List Nat) (s k : Nat) : Prop :=
  byteAt mem s = 0x1b ∧ byteAt mem (s + 1) = 0x5b ∧
  (∀ i, i < k → is_param (byteAt mem (s + 2 + i)) = true) ∧ byteAt mem (s + 2 + k) = 0x6d

instance (mem : List Nat) (s k : Nat) : Decidable (esc_form mem s k) := by
  unfold esc_form; infer_instance

/-- Following the spec's words: the interval-table invariant, every entry has
`first ≤ last` and adjacent entries satisfy `table[i].last < table[i+1].first`. -/
def table_invariant (table : List interval) : Prop :=
  (∀ i : Nat, i < table.length → (tableAt table i).first ≤ (tableAt table i).last) ∧
  (∀ i : Nat, i < table.length - 1 →
    (tableAt table i).last < (tableAt table (i + 1 : Nat)).first)

instance (table : List interval) : Decidable (table_invariant table) := by
  unfold table_invariant; infer_instance

/-- Following the claim's words: a name that spells `utf-8` or `utf8` in any letter
case. -/
def names_utf8 (name : List Nat) : Prop :=
  (c_string name).map tolower = [0x75, 0x74, 0x66, 0x2d, 0x38] ∨
  (c_string name).map tolower = [0x75, 0x74, 0x66, 0x38]

instance (name : List Nat) : Decidable (names_utf8 name) := by
  unfold names_utf8; infer_instance

/-! ## Reference notions for strings and their scans -/

/-- The bytes of a C string before its terminator: none of them is NUL. -/
def nul_free (s : List Nat) : Prop := ∀ b ∈ s, 0 < b ∧ b < 256

instance (s : List Nat) : Decidable (nul_free s) := by unfold nul_free; infer_instance

/-- Following the claim's words: an item of a valid string is one of the bytes `\n`, `\t`,
`\r`, or a byte sequence that `pick_one_utf8_char` decodes successfully (and entirely). -/
def is_utf8_item (it : List Nat) : Prop :=
  it = [0x0a] ∨ it = [0x09] ∨ it = [0x0d] ∨
    (pick_one_utf8_char it 0 none).start = some it.length

instance (it : List Nat) : Decidable (is_utf8_item it) := by unfold is_utf8_item; infer_instance

/-- The decode at `q` fails: the byte there is none of NUL, `\n`, `\t`, `\r`, and
`pick_one_utf8_char` reports invalid. -/
def decode_fails (mem : List Nat) (q : Nat) : Prop :=
  byteAt mem q ≠ 0 ∧ ¬ (byteAt mem q = 0x0a ∨ byteAt mem q = 0x09 ∨ byteAt mem q = 0x0d) ∧
    (pick_one_utf8_char mem q none).start = none

instance (mem : List Nat) (q : Nat) : Decidable (decode_fails mem q) := by
  unfold decode_fails; infer_instance

/-- The scan of `utf8_strnwidth` that starts at `s` and is bounded by `limit = orig + len`
decodes every character it meets, and their widths sum to `w`: each round skips the escape
sequences at the cursor (when `skip_ansi` is set), decodes the character behind them and
goes on behind that character, while the cursor is before the limit. -/
inductive scan_sum (mem : List Nat) (limit : Int) (skip_ansi : Bool) : Nat → Int → Prop
  | stop (s : Nat) : ¬ (s : Int) < limit → scan_sum mem limit skip_ansi s 0
  | step (s s' : Nat) (w : Int) : (s : Int) < limit →
      (pick_one_utf8_char mem (skipped mem skip_ansi s) none).start = some s' →
      scan_sum mem limit skip_ansi s' w →
      scan_sum mem limit skip_ansi s
        (git_wcwidth (pick_one_utf8_char mem (skipped mem skip_ansi s) none).ch + w)

/-- From `p` on, the bytes up to the terminator decode character by character. -/
inductive decodes_from (mem : List Nat) : Nat → Prop
  | nul (p : Nat) : byteAt mem p = 0 → decodes_from mem p
  | chr (p p' : Nat) : byteAt mem p ≠ 0 →
      (pick_one_utf8_char mem p none).start = some p' → decodes_from mem p' →
      decodes_from mem p

/-- Following the claim's words: no escape sequence spans the boundary between `a` and
`b`, every escape sequence of `a ++ b` that starts inside `a` ends inside `a`. -/
def no_span (a b : List Nat) : Prop :=
  ∀ p, p < a.length → display_mode_esc_sequence_len (a ++ b) p ≠ 0 →
    p + display_mode_esc_sequence_len (a ++ b) p ≤ a.length

instance (a b : List Nat) : Decidable (no_span a b) := by unfold no_span; infer_instance

/-! ## Reference notions for the whitespace of wrapped text -/

/-- A byte string with its whitespace bytes (space, tab, newline, carriage return)
deleted. -/
def strip_ws (l : List Nat) : List Nat := l.filter (fun b => !isspace b)

/-- The position up to which the wrapping loop has emitted the text: `space` when it is
set, the beginning of the line otherwise. -/
def wrap_frontier (s : wrap_state) : Nat :=
  match s.space with
  | some sp => sp
  | none => s.bol

/-- The invariant of the wrapping loop on the text `T`: the pointers are ordered and stay
inside the text, and the buffer holds, whitespace apart, the text before the frontier. -/
def wrap_ws_inv (T : List Nat) (s : wrap_state) : Prop :=
  s.bol ≤ wrap_frontier s ∧ wrap_frontier s ≤ s.text ∧ s.text ≤ T.length ∧
  strip_ws s.buf = strip_ws (T.take (wrap_frontier s))

/-- What the invariant gives after a round of the wrapping loop: the invariant again, or,
when the function returns, a buffer that holds the text, whitespace apart. -/
def wrap_ws_post (T : List Nat) : wrap_step_result → Prop
  | .next s => wrap_ws_inv T s
  | .done buf => strip_ws buf = strip_ws T
  | .broken _ => True

/-! ## Reference notions for wrapping wrapped text again -/

/-- A word of ASCII letters and digits. -/
def is_alnum_word (u : List Nat) : Prop := u ≠ [] ∧ ∀ b ∈ u, isalnum b = true

instance (u : List Nat) : Decidable (is_alnum_word u) := by
  unfold is_alnum_word; infer_instance

/-- The bytes that follow the line under construction when the output of greedy filling
(at `width`, without indentation) is wrapped again at the same width: a word that stood
behind a space is emitted behind a space; a word that stood behind a newline is met
behind the space into which the newline is folded, does not fit, and starts a new line. -/
def rewrap_out (width : Int) : Int → List (List Nat) → List Nat
  | _, [] => []
  | cur, u :: rest =>
    if cur + 1 + u.length ≤ width then
      0x20 :: u ++ rewrap_out width (cur + 1 + u.length) rest
    else 0x20 :: 0x0a :: (u ++ rewrap_out width u.length rest)

/-- The state of the wrapping loop at the start of a word behind a newline that has been
folded into a space, the line before the newline being `cur` columns wide. -/
def fold_state (p bol : Nat) (cur : Int) (buf : List Nat) : wrap_state :=
  { text := p, bol := bol, space := some p, w := cur + 1, indent := 0, buf := buf }

/-- From the start of the first word `u` of a line of greedy output (`pre` being the text
before it), the wrapping loop returns with the rest of the re-wrapped output appended. -/
def resim_fresh (width : Int) (u : List Nat) (rest : List (List Nat)) : Prop :=
  ∀ (pre buf : List Nat),
    ∃ n, wrap_run (pre ++ u ++ mid_out 0 width u.length rest) true 0 width n
        (fresh_state pre.length 0 buf) =
      .done (buf ++ u ++ rewrap_out width u.length rest)

/-- From the start of a word `u` that stands behind a space in the greedy output, the
wrapping loop returns with the rest of the re-wrapped output appended. -/
def resim_mid (width : Int) (u : List Nat) (rest : List (List Nat)) : Prop :=
  ∀ (pre0 buf : List Nat) (cur : Int) (bol : Nat), bol ≤ pre0.length →
    cur + 1 + u.length ≤ width →
    ∃ n, wrap_run (pre0 ++ 0x20 :: (u ++ mid_out 0 width (cur + 1 + u.length) rest)) true 0
        width n (mid_state pre0.length bol cur 0 buf) =
      .done (buf ++ 0x20 :: u ++ rewrap_out width (cur + 1 + u.length) rest)

/-- From the start of a word `u` that stands behind a newline in the greedy output, the
newline already folded into a space, the wrapping loop breaks the line before `u` and
returns with the rest of the re-wrapped output appended. -/
def resim_fold (width : Int) (u : List Nat) (rest : List (List Nat)) : Prop :=
  ∀ (pre buf : List Nat) (cur : Int) (bol : Nat),
    ¬ cur + 1 + u.length ≤ width →
    ∃ n, wrap_run (pre ++ u ++ mid_out 0 width u.length rest) true 0 width n
        (fold_state pre.length bol cur buf) =
      .done (buf ++ 0x0a :: u ++ rewrap_out width u.length rest)

/-- The pieces of a byte string between the occurrences of the byte `sep`. -/
def split_on (sep : Nat) : List Nat → List (List Nat)
  | [] => [[]]
  | b :: l =>
    if b = sep then [] :: split_on sep l
    else
      match split_on sep l with
      | [] => [[b]]
      | h :: t => (b :: h) :: t

/-- The words of a line: its pieces between spaces that are not empty. -/
def words_of (l : List Nat) : List (List Nat) :=
  (split_on 0x20 l).filter (fun w => !w.isEmpty)

/-- The lines of an output, each as the list of its words. -/
def lines_of (out : List Nat) : List (List (List Nat)) :=
  (split_on 0x0a out).map words_of

/-! ## Reference notions for the range of `int` and for stray escape bytes -/

/-- The values of an `int` (32 bits). -/
def int_range (x : Int) : Prop := -2147483648 ≤ x ∧ x ≤ 2147483647

instance (x : Int) : Decidable (int_range x) := by unfold int_range; infer_instance

/-- A buffer given as the list of its items, as the loop of `strbuf_utf8_replace` reads
it: the parameters of an escape sequence are ASCII digits and `;`; a character is one the
decoder accepts; and where the byte ESC stands as a character, no escape sequence starts
at it (the bytes from it on do not have the form ESC `[` parameters `m`). -/
def items_wf : List item → Prop
  | [] => True
  | .esc params :: rest => (∀ b ∈ params, isdigit b = true ∨ b = 0x3b) ∧ items_wf rest
  | .chr cp :: rest =>
    decodable cp ∧
    (cp = 0x1b → display_mode_esc_sequence_len (render_items (.chr cp :: rest)) 0 = 0) ∧
    items_wf rest

instance items_wf_decidable : ∀ items : List item, Decidable (items_wf items)
  | [] => isTrue trivial
  | .esc params :: rest =>
    have := items_wf_decidable rest
    (inferInstance :
      Decidable ((∀ b ∈ params, isdigit b = true ∨ b = 0x3b) ∧ items_wf rest))
  | .chr cp :: rest =>
    have := items_wf_decidable rest
    (inferInstance :
      Decidable (decodable cp ∧
        (cp = 0x1b →
          display_mode_esc_sequence_len (render_items (.chr cp :: rest)) 0 = 0) ∧
        items_wf rest))

/-! ## Reference notions for wrapping byte by byte -/

/-- Following the claim's words: a round of wrapping in which each non-whitespace byte
counts as width 1; nothing is decoded and no escape sequence is skipped.  Whitespace and
the end of the text are treated as `strbuf_add_wrapped_text` treats them. -/
def wrap_step_bytes (mem : List Nat) (indent2 width : Int) (s : wrap_state) :
    wrap_step_result :=
  let c := byteAt mem s.text
  if c = 0 ∨ isspace c then
    match s.space with
    | none => wrap_emit mem indent2 s s.text c
    | some sp =>
      if s.w ≤ width then wrap_emit mem indent2 s s.text c
      else .next (wrap_new_line mem indent2 s.buf sp)
  else .next { s with text := s.text + 1, w := s.w + 1 }

/-- Rounds of `wrap_step_bytes` until the text is used up. -/
def wrap_run_bytes (mem : List Nat) (indent2 width : Int) : Nat → wrap_state → wrap_outcome
  | 0, _ => .exhausted
  | fuel + 1, s =>
    match wrap_step_bytes mem indent2 width s with
    | .next s' => wrap_run_bytes mem indent2 width fuel s'
    | .done buf => .done buf
    | .broken buf => .broken buf

/-- Following the claim's words: wrapping of the entire text from its beginning in which
each non-whitespace byte counts as width 1, appending to `buf`. -/
def wrap_bytes (buf : List Nat) (mem : List Nat) (text : Nat) (indent1 indent2 width : Int) :
    Option (List Nat) :=
  match wrap_run_bytes mem indent2 width (wrap_fuel mem) (wrap_init text indent1 buf) with
  | .done b => some b
  | _ => none

/-! # Theorems -/

/-! ## Bit tests on bytes -/

theorem byteAt_lt (mem : List Nat) (i : Nat) : byteAt mem i < 256 :=
  Nat.mod_lt _ (by decide)

theorem byte_masks : ∀ b, b < 256 →
    ((b &&& 0xe0 = 0xc0 ↔ (0xc0 ≤ b ∧ b < 0xe0)) ∧
     (b &&& 0xf0 = 0xe0 ↔ (0xe0 ≤ b ∧ b < 0xf0)) ∧
     (b &&& 0xf8 = 0xf0 ↔ (0xf0 ≤ b ∧ b < 0xf8)) ∧
     (b &&& 0xc0 = 0x80 ↔ (0x80 ≤ b ∧ b < 0xc0)) ∧
     (b &&& 0xfe = 0xc0 ↔ (b = 0xc0 ∨ b = 0xc1)) ∧
     (b &&& 0xe0 = 0x80 ↔ (0x80 ≤ b ∧ b < 0xa0)) ∧
     (b &&& 0xe0 = 0xa0 ↔ (0xa0 ≤ b ∧ b < 0xc0)) ∧
     (b &&& 0xfe = 0xbe ↔ (b = 0xbe ∨ b = 0xbf)) ∧
     (b &&& 0xf0 = 0x80 ↔ (0x80 ≤ b ∧ b < 0x90))) := by
  decide

theorem byteAt_and_e0_c0 (mem : List Nat) (i : Nat) :
    byteAt mem i &&& 0xe0 = 0xc0 ↔ (0xc0 ≤ byteAt mem i ∧ byteAt mem i < 0xe0) :=
  (byte_masks _ (byteAt_lt mem i)).1

theorem byteAt_and_f0_e0 (mem : List Nat) (i : Nat) :
    byteAt mem i &&& 0xf0 = 0xe0 ↔ (0xe0 ≤ byteAt mem i ∧ byteAt mem i < 0xf0) :=
  (byte_masks _ (byteAt_lt mem i)).2.1

theorem byteAt_and_f8_f0 (mem : List Nat) (i : Nat) :
    byteAt mem i &&& 0xf8 = 0xf0 ↔ (0xf0 ≤ byteAt mem i ∧ byteAt mem i < 0xf8) :=
  (byte_masks _ (byteAt_lt mem i)).2.2.1

theorem byteAt_and_c0_80 (mem : List Nat) (i : Nat) :
    byteAt mem i &&& 0xc0 = 0x80 ↔ (0x80 ≤ byteAt mem i ∧ byteAt mem i < 0xc0) :=
  (byte_masks _ (byteAt_lt mem i)).2.2.2.1

theorem byteAt_and_fe_c0 (mem : List Nat) (i : Nat) :
    byteAt mem i &&& 0xfe = 0xc0 ↔ (byteAt mem i = 0xc0 ∨ byteAt mem i = 0xc1) :=
  (byte_masks _ (byteAt_lt mem i)).2.2.2.2.1

theorem byteAt_and_e0_80 (mem : List Nat) (i : Nat) :
    byteAt mem i &&& 0xe0 = 0x80 ↔ (0x80 ≤ byteAt mem i ∧ byteAt mem i < 0xa0) :=
  (byte_masks _ (byteAt_lt mem i)).2.2.2.2.2.1

theorem byteAt_and_e0_a0 (mem : List Nat) (i : Nat) :
    byteAt mem i &&& 0xe0 = 0xa0 ↔ (0xa0 ≤ byteAt mem i ∧ byteAt mem i < 0xc0) :=
  (byte_masks _ (byteAt_lt mem i)).2.2.2.2.2.2.1

theorem byteAt_and_fe_be (mem : List Nat) (i : Nat) :
    byteAt mem i &&& 0xfe = 0xbe ↔ (byteAt mem i = 0xbe ∨ byteAt mem i = 0xbf) :=
  (byte_masks _ (byteAt_lt mem i)).2.2.2.2.2.2.2.1

theorem byteAt_and_f0_80 (mem : List Nat) (i : Nat) :
    byteAt mem i &&& 0xf0 = 0x80 ↔ (0x80 ≤ byteAt mem i ∧ byteAt mem i < 0x90) :=
  (byte_masks _ (byteAt_lt mem i)).2.2.2.2.2.2.2.2

theorem and_1f (b : Nat) : b &&& 0x1f = b % 32 := Nat.and_pow_two_sub_one_eq_mod b 5

theorem and_3f (b : Nat) : b &&& 0x3f = b % 64 := Nat.and_pow_two_sub_one_eq_mod b 6

theorem and_0f (b : Nat) : b &&& 0x0f = b % 16 := Nat.and_pow_two_sub_one_eq_mod b 4

theorem and_07 (b : Nat) : b &&& 0x07 = b % 8 := Nat.and_pow_two_sub_one_eq_mod b 3

theorem shl6_lor (a c : Nat) : (a <<< 6) ||| (c % 64) = a * 64 + c % 64 := by
  have h : c % 64 < 2 ^ 6 := Nat.mod_lt _ (by decide)
  have := Nat.mul_add_lt_is_or h a
  rw [Nat.shiftLeft_eq, Nat.mul_comm, ← this]

theorem shl12_lor (a b c : Nat) :
    (a <<< 12) ||| ((b % 64) <<< 6) ||| (c % 64) = a * 4096 + b % 64 * 64 + c % 64 := by
  have h : b % 64 * 64 + c % 64 < 2 ^ 12 := by omega
  have := Nat.mul_add_lt_is_or h a
  rw [Nat.lor_assoc, shl6_lor, Nat.shiftLeft_eq, Nat.mul_comm, ← this]
  omega

theorem shl18_lor (a b c d : Nat) :
    (a <<< 18) ||| ((b % 64) <<< 12) ||| ((c % 64) <<< 6) ||| (d % 64) =
      a * 262144 + b % 64 * 4096 + c % 64 * 64 + d % 64 := by
  have h : b % 64 * 4096 + c % 64 * 64 + d % 64 < 2 ^ 18 := by omega
  have := Nat.mul_add_lt_is_or h a
  rw [Nat.lor_assoc, Nat.lor_assoc, ← Nat.lor_assoc ((b % 64) <<< 12), shl12_lor,
    Nat.shiftLeft_eq, Nat.mul_comm, ← this]
  omega

/-! ## The decoder as a decision table -/

theorem pick_one_utf8_char_eq_table (mem : List Nat) (start : Nat) (remainder_p : Option Nat) :
    pick_one_utf8_char mem start remainder_p =
      match pick_table (byteAt mem (start + 0)) (byteAt mem (start + 1)) (byteAt mem (start + 2))
          (byteAt mem (start + 3)) (budget remainder_p) with
      | none => ⟨0, none, remainder_p⟩
      | some (ch, incr) =>
        ⟨ch, some (start + incr), remainder_p.map (fun _ => budget remainder_p - incr)⟩ := by
  simp only [pick_one_utf8_char, pick_table, budget, ne_eq, byteAt_and_e0_c0, byteAt_and_f0_e0,
    byteAt_and_f8_f0, byteAt_and_c0_80, byteAt_and_fe_c0, byteAt_and_e0_80, byteAt_and_e0_a0,
    byteAt_and_fe_be, byteAt_and_f0_80, and_1f, and_3f, and_0f, and_07, shl6_lor, shl12_lor,
    shl18_lor]
  split_ifs <;> rfl

theorem pick_table_sound (b0 b1 b2 b3 R ch n : Nat) (h0 : b0 < 256) (h1 : b1 < 256)
    (h2 : b2 < 256) (h3 : b3 < 256) (h : pick_table b0 b1 b2 b3 R = some (ch, n)) :
    n ≤ R ∧ decodable ch ∧ utf8_encode ch = List.take n [b0, b1, b2, b3] ∧
      (utf8_encode ch).length = n := by
  unfold pick_table at h
  split_ifs at h <;>
    simp only [Option.some.injEq, Prod.mk.injEq] at h <;>
    obtain ⟨rfl, rfl⟩ := h <;>
    simp only [decodable, is_scalar, utf8_encode] <;>
    split_ifs <;>
    first
    | omega
    | (simp only [List.take, List.length, List.cons.injEq, and_true]; omega)

theorem pick_table_complete (cp R b0 b1 b2 b3 : Nat) (hd : decodable cp)
    (hlen : (utf8_encode cp).length ≤ R)
    (hw : List.take (utf8_encode cp).length [b0, b1, b2, b3] = utf8_encode cp) :
    pick_table b0 b1 b2 b3 R = some (cp, (utf8_encode cp).length) := by
  simp only [decodable, is_scalar] at hd
  unfold utf8_encode at hw hlen ⊢
  split_ifs at hw hlen ⊢ <;>
    simp only [List.take, List.length, List.cons.injEq, and_true] at hw hlen ⊢ <;>
    unfold pick_table <;>
    split_ifs <;>
    first
    | omega
    | (simp only [Option.some.injEq, Prod.mk.injEq, and_true]; omega)

/-! ## The decoder against the encoding -/

theorem utf8_encode_length (cp : Nat) :
    1 ≤ (utf8_encode cp).length ∧ (utf8_encode cp).length ≤ 4 := by
  unfold utf8_encode
  split_ifs <;> simp

theorem window_eq_take (mem : List Nat) (start n : Nat) (hn : n ≤ 4) :
    window mem start n = List.take n [byteAt mem (start + 0), byteAt mem (start + 1),
      byteAt mem (start + 2), byteAt mem (start + 3)] := by
  interval_cases n <;> rfl

theorem pick_complete (mem : List Nat) (start : Nat) (remainder_p : Option Nat) (cp : Nat)
    (hd : decodable cp) (hlen : (utf8_encode cp).length ≤ budget remainder_p)
    (hw : window mem start (utf8_encode cp).length = utf8_encode cp) :
    pick_one_utf8_char mem start remainder_p =
      ⟨cp, some (start + (utf8_encode cp).length),
        remainder_p.map (fun _ => budget remainder_p - (utf8_encode cp).length)⟩ := by
  rw [window_eq_take _ _ _ (utf8_encode_length cp).2] at hw
  rw [pick_one_utf8_char_eq_table, pick_table_complete cp _ _ _ _ _ hd hlen hw]

theorem pick_sound (mem : List Nat) (start : Nat) (remainder_p : Option Nat) (p : Nat)
    (h : (pick_one_utf8_char mem start remainder_p).start = some p) :
    ∃ cp, decodable cp ∧ (utf8_encode cp).length ≤ budget remainder_p ∧
      window mem start (utf8_encode cp).length = utf8_encode cp ∧
      pick_one_utf8_char mem start remainder_p =
        ⟨cp, some (start + (utf8_encode cp).length),
          remainder_p.map (fun _ => budget remainder_p - (utf8_encode cp).length)⟩ := by
  rw [pick_one_utf8_char_eq_table] at h ⊢
  cases ht : pick_table (byteAt mem (start + 0)) (byteAt mem (start + 1))
      (byteAt mem (start + 2)) (byteAt mem (start + 3)) (budget remainder_p) with
  | none => rw [ht] at h; simp at h
  | some res =>
    obtain ⟨ch, n⟩ := res
    obtain ⟨h1, h2, h3, h4⟩ := pick_table_sound _ _ _ _ _ _ _ (byteAt_lt _ _) (byteAt_lt _ _)
      (byteAt_lt _ _) (byteAt_lt _ _) ht
    refine ⟨ch, h2, by omega, ?_, ?_⟩
    · rw [window_eq_take _ _ _ (utf8_encode_length ch).2, h4, h3]
    · simp only [h4]

theorem pick_invalid (mem : List Nat) (start : Nat) (remainder_p : Option Nat)
    (h : (pick_one_utf8_char mem start remainder_p).start = none) :
    pick_one_utf8_char mem start remainder_p = ⟨0, none, remainder_p⟩ := by
  rw [pick_one_utf8_char_eq_table] at h ⊢
  cases ht : pick_table (byteAt mem (start + 0)) (byteAt mem (start + 1))
      (byteAt mem (start + 2)) (byteAt mem (start + 3)) (budget remainder_p) with
  | none => rfl
  | some res => rw [ht] at h; simp at h

/-- C1: with a byte budget `r`, `pick_one_utf8_char` succeeds exactly when the bytes at the
cursor, within the budget, are the shortest-form encoding of a code point that is at most
U+10FFFF, not a surrogate and neither U+FFFE nor U+FFFF.  It then returns that code
point, moves the cursor by the length `n` of the encoding (`1 ≤ n ≤ 4`, `n ≤ r`) and
leaves `r - n` as the budget; in every other case it reports invalid (cursor `NULL`,
result 0, budget untouched). -/
theorem pick_one_utf8_char_contract (mem : List Nat) (start r : Nat) :
    (∀ cp, decodable cp → (utf8_encode cp).length ≤ r →
        window mem start (utf8_encode cp).length = utf8_encode cp →
        1 ≤ (utf8_encode cp).length ∧ (utf8_encode cp).length ≤ 4 ∧
        pick_one_utf8_char mem start (some r) =
          ⟨cp, some (start + (utf8_encode cp).length), some (r - (utf8_encode cp).length)⟩) ∧
    ((¬ ∃ cp, decodable cp ∧ (utf8_encode cp).length ≤ r ∧
          window mem start (utf8_encode cp).length = utf8_encode cp) →
        pick_one_utf8_char mem start (some r) = ⟨0, none, some r⟩) := by
  constructor
  · intro cp hd hlen hw
    exact ⟨(utf8_encode_length cp).1, (utf8_encode_length cp).2,
      pick_complete mem start (some r) cp hd hlen hw⟩
  · intro hno
    apply pick_invalid
    cases hs : (pick_one_utf8_char mem start (some r)).start with
    | none => rfl
    | some p =>
      obtain ⟨cp, h1, h2, h3, _⟩ := pick_sound mem start (some r) p hs
      exact absurd ⟨cp, h1, h2, h3⟩ hno

theorem pick_one_utf8_char_contract_witness :
    pick_one_utf8_char [0xE4, 0xB8, 0xAD, 0x61] 0 (some 4) = ⟨0x4E2D, some 3, some 1⟩ ∧
    pick_one_utf8_char [0xF4, 0x90, 0x80, 0x80] 0 (some 4) = ⟨0, none, some 4⟩ :=
  ⟨((pick_one_utf8_char_contract [0xE4, 0xB8, 0xAD, 0x61] 0 4).1 0x4E2D (by decide) (by decide)
      (by decide)).2.2,
   (pick_one_utf8_char_contract [0xF4, 0x90, 0x80, 0x80] 0 4).2 (by
      rintro ⟨cp, hd, hlen, hw⟩
      simp only [decodable, is_scalar] at hd
      unfold utf8_encode at hw hlen
      split_ifs at hw hlen <;> simp [window, List.range, List.range.loop, byteAt] at hw <;> omega)⟩

/-! ## Binary search -/

theorem usorted_lt (table : List interval) (hs : usorted table) (i j : Nat) (hij : i < j)
    (hj : j < table.length) : ulast table i < ufirst table j := by
  induction j with
  | zero => omega
  | succ k ih =>
    rcases Nat.lt_succ_iff_lt_or_eq.mp hij with h | h
    · have h1 := ih h (by omega)
      have h2 := hs.1 k (by omega)
      have h3 := hs.2 k (by omega)
      omega
    · subst h
      exact hs.2 i (by omega)

theorem bisearch_loop_spec (ucs : Nat) (table : List interval) (hs : usorted table) :
    ∀ (fuel : Nat) (min max : Int), 0 ≤ min → max < table.length → min ≤ max + 1 →
      (max - min + 1).toNat < fuel →
      (∀ i : Nat, (i : Int) < min → ulast table i < ucs) →
      (∀ i : Nat, max < (i : Int) → i < table.length → ucs < ufirst table i) →
      (in_table table ucs → bisearch_loop ucs table fuel min max = some 1) ∧
      (¬ in_table table ucs → bisearch_loop ucs table fuel min max = some 0) := by
  intro fuel
  induction fuel with
  | zero => intro min max _ _ _ hf; omega
  | succ fuel ih =>
    intro min max hmin hmax hle hf hlo hhi
    unfold bisearch_loop
    by_cases hc : max ≥ min
    · simp only [hc, if_true]
      have hmid : Int.tdiv (min + max) 2 = (min + max) / 2 :=
        Int.tdiv_eq_ediv (by omega) (by omega)
      rw [hmid]
      obtain ⟨m, hm⟩ : ∃ m : Nat, ((min + max) / 2 : Int) = m :=
        ⟨((min + max) / 2).toNat, (Int.toNat_of_nonneg (by omega)).symm⟩
      have hmlt : m < table.length := by omega
      have hl : toUnsigned (tableAt table ((min + max) / 2)).last = ulast table m := by
        rw [hm]; rfl
      have hf' : toUnsigned (tableAt table ((min + max) / 2)).first = ufirst table m := by
        rw [hm]; rfl
      rw [hl, hf']
      by_cases h1 : ucs > ulast table m
      · simp only [h1, if_true]
        apply ih <;> try omega
        · intro i hi
          by_cases him : i = m
          · subst him; exact h1
          · have := usorted_lt table hs i m (by omega) hmlt
            have := hs.1 m hmlt
            omega
        · exact hhi
      · simp only [h1, if_false]
        by_cases h2 : ucs < ufirst table m
        · simp only [h2, if_true]
          apply ih <;> try omega
          · exact hlo
          · intro i hi hil
            by_cases him : i = m
            · subst him; exact h2
            · have := usorted_lt table hs m i (by omega) hil
              have := hs.1 m hmlt
              omega
        · simp only [h2, if_false]
          refine ⟨fun _ => trivial, fun hn => absurd ⟨m, hmlt, by omega, by omega⟩ hn⟩
    · simp only [hc, if_false]
      refine ⟨fun ⟨i, hil, hi1, hi2⟩ => ?_, fun _ => trivial⟩
      by_cases hlt : (i : Int) < min
      · have := hlo i hlt
        omega
      · have := hhi i (by omega) hil
        omega

theorem bisearch_spec (ucs : Nat) (table : List interval) (hne : 0 < table.length)
    (hs : usorted table) :
    (in_table table ucs → bisearch ucs table ((table.length : Int) - 1) = 1) ∧
    (¬ in_table table ucs → bisearch ucs table ((table.length : Int) - 1) = 0) := by
  unfold bisearch
  have h0 : toUnsigned (tableAt table 0).first = ufirst table 0 := rfl
  have hl : toUnsigned (tableAt table ((table.length : Int) - 1)).last =
      ulast table (table.length - 1) := by
    have : ((table.length : Int) - 1) = ((table.length - 1 : Nat) : Int) := by omega
    rw [this]; rfl
  rw [h0, hl]
  by_cases hc : ucs < ufirst table 0 ∨ ucs > ulast table (table.length - 1)
  · simp only [hc, if_true]
    refine ⟨fun ⟨i, hil, hi1, hi2⟩ => ?_, fun _ => trivial⟩
    rcases hc with hc | hc
    · by_cases hi0 : i = 0
      · subst hi0; omega
      · have := usorted_lt table hs 0 i (by omega) hil
        have := hs.1 0 hne
        omega
    · by_cases hi0 : i = table.length - 1
      · subst hi0; omega
      · have := usorted_lt table hs i (table.length - 1) (by omega) (by omega)
        have := hs.1 (table.length - 1) (by omega)
        omega
  · simp only [hc, if_false]
    have key := bisearch_loop_spec ucs table hs (((table.length : Int) - 1).toNat + 2) 0
      ((table.length : Int) - 1) (by omega) (by omega) (by omega) (by omega)
      (fun i hi => by omega) (fun i hi hil => by omega)
    constructor
    · intro h; rw [key.1 h]; rfl
    · intro h; rw [key.2 h]; rfl

theorem combining_usorted : usorted combining := by decide

theorem bisearch_combining (ch : Nat) :
    (in_table combining ch → bisearch ch combining ((combining.length : Int) - 1) = 1) ∧
    (¬ in_table combining ch → bisearch ch combining ((combining.length : Int) - 1) = 0) :=
  bisearch_spec ch combining (by decide) combining_usorted

theorem toUnsigned_of_nonneg (x : Int) (h0 : 0 ≤ x) (h1 : x < 4294967296) :
    (toUnsigned x : Int) = x := by
  unfold toUnsigned
  rw [Int.emod_eq_of_lt h0 h1, Int.toNat_of_nonneg h0]

theorem tableAt_mem (table : List interval) (i : Nat) (h : i < table.length) :
    tableAt table i ∈ table := by
  unfold tableAt
  rw [Int.toNat_ofNat, List.getD_eq_getElem _ _ h]
  exact List.getElem_mem h

theorem in_table_iff (table : List interval) (hn : entries_nonneg table) (ucs : Nat) :
    in_table table ucs ↔ in_intervals table ucs := by
  constructor
  · rintro ⟨i, hi, h1, h2⟩
    have hm := tableAt_mem table i hi
    obtain ⟨⟨a, b⟩, ⟨c, d⟩⟩ := hn _ hm
    refine ⟨tableAt table i, hm, ?_, ?_⟩
    · have := toUnsigned_of_nonneg _ a b
      unfold ufirst at h1
      omega
    · have := toUnsigned_of_nonneg _ c d
      unfold ulast at h2
      omega
  · rintro ⟨e, hm, h1, h2⟩
    obtain ⟨i, hi, rfl⟩ := List.getElem_of_mem hm
    obtain ⟨⟨a, b⟩, ⟨c, d⟩⟩ := hn _ hm
    have he : tableAt table i = table[i] := by
      unfold tableAt
      rw [Int.toNat_ofNat, List.getD_eq_getElem _ _ hi]
    refine ⟨i, hi, ?_, ?_⟩
    · have := toUnsigned_of_nonneg _ a b
      unfold ufirst
      rw [he]
      omega
    · have := toUnsigned_of_nonneg _ c d
      unfold ulast
      rw [he]
      omega

/-! ## Column widths -/

theorem combining_nonneg : entries_nonneg combining := by decide

theorem combining_ge : ∀ e ∈ combining, (0x300 : Int) ≤ e.first := by decide

theorem in_combining_ge (ch : Nat) (h : in_intervals combining ch) : 0x300 ≤ ch := by
  obtain ⟨e, hm, h1, _⟩ := h
  have := combining_ge e hm
  omega

theorem bisearch_combining_ne (ch : Nat) :
    bisearch ch combining ((combining.length : Int) - 1) ≠ 0 ↔ in_intervals combining ch := by
  rw [← in_table_iff combining combining_nonneg]
  by_cases h : in_table combining ch
  · simp [(bisearch_combining ch).1 h, h]
  · simp [(bisearch_combining ch).2 h, h]

theorem git_wcwidth_eq (ch : Nat) :
    git_wcwidth ch =
      if ch = 0 then 0
      else if ch < 32 ∨ (ch ≥ 0x7f ∧ ch < 0xa0) then -1
      else if in_intervals combining ch then 0
      else if east_asian_wide ch then 2 else 1 := by
  unfold git_wcwidth
  simp only [bisearch_combining_ne, east_asian_wide]
  split_ifs <;> first | rfl | omega

/-- C9: a code point that is neither a control character nor in the zero-width table has
width 2 exactly when it lies in one of the East-Asian-wide ranges and width 1 otherwise;
every code point of the zero-width table has width 0; the width is always one of -1, 0,
1, 2.  Decoding and classifying the bytes C3 A9 gives width 1, the bytes E4 B8 AD give
width 2. -/
theorem git_wcwidth_classes (ch : Nat) :
    (¬ is_control ch → ¬ in_intervals combining ch →
      (east_asian_wide ch → git_wcwidth ch = 2) ∧ (¬ east_asian_wide ch → git_wcwidth ch = 1)) ∧
    (in_intervals combining ch → git_wcwidth ch = 0) ∧
    (git_wcwidth ch = -1 ∨ git_wcwidth ch = 0 ∨ git_wcwidth ch = 1 ∨ git_wcwidth ch = 2) ∧
    utf8_width [0xC3, 0xA9] 0 none = (1, some 2, none) ∧
    utf8_width [0xE4, 0xB8, 0xAD] 0 none = (2, some 3, none) := by
  refine ⟨?_, ?_, ?_, ?_, ?_⟩
  · intro hc ht
    rw [git_wcwidth_eq]
    unfold is_control at hc
    constructor
    · intro hw
      rw [if_neg (by omega), if_neg (by omega), if_neg ht, if_pos hw]
    · intro hw
      rw [if_neg (by omega), if_neg (by omega), if_neg ht, if_neg hw]
  · intro ht
    have := in_combining_ge ch ht
    rw [git_wcwidth_eq, if_neg (by omega), if_neg (by omega), if_pos ht]
  · rw [git_wcwidth_eq]
    split_ifs <;> simp
  · have h : pick_one_utf8_char [0xC3, 0xA9] 0 none = ⟨0xE9, some 2, none⟩ := by decide
    have hw : git_wcwidth 0xE9 = 1 := by
      rw [git_wcwidth_eq, if_neg (by decide), if_neg (by decide), if_neg (by decide),
        if_neg (by decide)]
    simp only [utf8_width, h, hw]
  · have h : pick_one_utf8_char [0xE4, 0xB8, 0xAD] 0 none = ⟨0x4E2D, some 3, none⟩ := by decide
    have hw : git_wcwidth 0x4E2D = 2 := by
      rw [git_wcwidth_eq, if_neg (by decide), if_neg (by decide), if_neg (by decide),
        if_pos (by decide)]
    simp only [utf8_width, h, hw]

theorem git_wcwidth_classes_witness :
    git_wcwidth 0x4E2D = 2 ∧ git_wcwidth 0x41 = 1 ∧ git_wcwidth 0x301 = 0 :=
  ⟨((git_wcwidth_classes 0x4E2D).1 (by decide) (by decide)).1 (by decide),
   ((git_wcwidth_classes 0x41).1 (by decide) (by decide)).2 (by decide),
   (git_wcwidth_classes 0x301).2.1 (by decide)⟩

/-- C10 (as stated, refuted): U+009F is neither a non-zero code point below 32 nor in the
half-open range `[0x7F, 0x9F)`, yet its width is -1 and not one of 0, 1, 2. -/
theorem git_wcwidth_9f :
    git_wcwidth 0x9f = -1 ∧
    ¬ (((0x9f : Nat) ≠ 0 ∧ (0x9f : Nat) < 32) ∨ ((0x7f : Nat) ≤ 0x9f ∧ (0x9f : Nat) < 0x9f)) ∧
    ¬ (git_wcwidth 0x9f = 0 ∨ git_wcwidth 0x9f = 1 ∨ git_wcwidth 0x9f = 2) := by
  decide

/-- C10 (amended): the width of code point 0 is 0; the width is -1 exactly for the
non-zero code points below 32 and the code points in the half-open range `[0x7F, 0xA0)`;
every other code point, in particular every one from 0xA0 upward, has width 0, 1 or 2. -/
theorem git_wcwidth_control (ch : Nat) :
    git_wcwidth 0 = 0 ∧
    (git_wcwidth ch = -1 ↔ ((ch ≠ 0 ∧ ch < 32) ∨ (0x7f ≤ ch ∧ ch < 0xa0))) ∧
    (git_wcwidth ch ≠ -1 → git_wcwidth ch = 0 ∨ git_wcwidth ch = 1 ∨ git_wcwidth ch = 2) ∧
    (0xa0 ≤ ch → git_wcwidth ch = 0 ∨ git_wcwidth ch = 1 ∨ git_wcwidth ch = 2) := by
  refine ⟨by decide, ?_, ?_, ?_⟩
  · rw [git_wcwidth_eq]
    split_ifs <;> simp <;> omega
  · rw [git_wcwidth_eq]
    split_ifs <;> simp
  · intro h
    rw [git_wcwidth_eq]
    split_ifs <;> omega

theorem git_wcwidth_control_witness :
    git_wcwidth 0xa0 = 0 ∨ git_wcwidth 0xa0 = 1 ∨ git_wcwidth 0xa0 = 2 :=
  (git_wcwidth_control 0xa0).2.2.2 (by decide)

/-! ## Decoding whole sequences -/

theorem utf8_encode_lt (cp : Nat) (h : cp ≤ 0x10FFFF) : ∀ b ∈ utf8_encode cp, b < 256 := by
  unfold utf8_encode
  split_ifs <;> simp only [List.mem_cons, List.mem_singleton, List.not_mem_nil, or_false,
    forall_eq_or_imp, forall_eq] <;> omega

theorem byteAt_append (pre enc post : List Nat) (i : Nat) (hi : i < enc.length) :
    byteAt (pre ++ enc ++ post) (pre.length + i) = enc[i] % 256 := by
  unfold byteAt
  rw [List.getD_eq_getElem _ _ (by simp; omega)]
  rw [List.getElem_append_left (by simp; omega), List.getElem_append_right (by omega)]
  simp

theorem window_append (pre enc post : List Nat) (h : ∀ b ∈ enc, b < 256) :
    window (pre ++ enc ++ post) pre.length enc.length = enc := by
  apply List.ext_getElem
  · simp [window]
  · intro i h1 h2
    simp only [window, List.getElem_map, List.getElem_range]
    rw [byteAt_append pre enc post i h2]
    exact Nat.mod_eq_of_lt (h _ (List.getElem_mem h2))

theorem decode_all_append (cps : List Nat) (hd : ∀ cp ∈ cps, decodable cp) :
    ∀ (pre post : List Nat),
      decode_all (pre ++ utf8_encode_all cps ++ post) (utf8_encode_all cps).length pre.length
          (utf8_encode_all cps).length =
        some (expected_trace cps, pre.length + (utf8_encode_all cps).length) := by
  induction cps with
  | nil => intro pre post; simp [utf8_encode_all, decode_all, expected_trace]
  | cons cp cps ih =>
    intro pre post
    have hcp : decodable cp := hd cp (List.mem_cons_self _ _)
    have hlen := utf8_encode_length cp
    have hall : utf8_encode_all (cp :: cps) = utf8_encode cp ++ utf8_encode_all cps := by
      simp [utf8_encode_all]
    have hmem : pre ++ utf8_encode_all (cp :: cps) ++ post =
        pre ++ utf8_encode cp ++ (utf8_encode_all cps ++ post) := by
      rw [hall]; simp
    have hmem2 : pre ++ utf8_encode_all (cp :: cps) ++ post =
        (pre ++ utf8_encode cp) ++ utf8_encode_all cps ++ post := by
      rw [hall]; simp
    have hw : window (pre ++ utf8_encode_all (cp :: cps) ++ post) pre.length
        (utf8_encode cp).length = utf8_encode cp := by
      rw [hmem]
      exact window_append _ _ _ (utf8_encode_lt cp hcp.1.1)
    have hp := pick_complete (pre ++ utf8_encode_all (cp :: cps) ++ post) pre.length
      (some (utf8_encode_all (cp :: cps)).length) cp hcp
      (by simp only [budget, hall, List.length_append]; omega) hw
    have hl : (utf8_encode_all (cp :: cps)).length =
        ((utf8_encode cp).length - 1 + (utf8_encode_all cps).length) + 1 := by
      rw [hall, List.length_append]; omega
    have ih' := ih (fun c hc => hd c (List.mem_cons_of_mem _ hc)) (pre ++ utf8_encode cp) post
    rw [← hmem2, List.length_append] at ih'
    have hfuel : ∀ (k : Nat) (mem : List Nat) (n s r : Nat) (res : List (Nat × Nat) × Nat),
        decode_all mem n s r = some res → decode_all mem (n + k) s r = some res := by
      intro k mem n
      induction n with
      | zero =>
        intro s r res h
        simp only [decode_all] at h
        split_ifs at h with hr
        cases k with
        | zero => simp [decode_all, hr, h]
        | succ k => simp only [Nat.zero_add, decode_all, hr, if_true, h]
      | succ n ihn =>
        intro s r res h
        rw [show n + 1 + k = (n + k) + 1 by omega]
        simp only [decode_all] at h ⊢
        split_ifs at h ⊢ with hr
        · exact h
        · revert h
          cases (pick_one_utf8_char mem s (some r)).start with
          | none => simp
          | some s' =>
            cases (pick_one_utf8_char mem s (some r)).remainder with
            | none => simp
            | some r' =>
              simp only
              cases hrec : decode_all mem n s' r' with
              | none => simp
              | some v => rw [ihn s' r' v hrec]; exact id
    rw [hl]
    simp only [decode_all]
    rw [if_neg (by omega), ← hl, hp]
    simp only [Option.map, budget]
    have ih'' := hfuel ((utf8_encode cp).length - 1) _ _ _ _ _ ih'
    rw [show (utf8_encode_all (cp :: cps)).length - (utf8_encode cp).length =
      (utf8_encode_all cps).length by rw [hall, List.length_append]; omega]
    rw [show (utf8_encode cp).length - 1 + (utf8_encode_all cps).length =
      (utf8_encode_all cps).length + ((utf8_encode cp).length - 1) by omega]
    rw [ih'']
    simp only [expected_trace, hall, List.length_append]
    congr 2
    omega

theorem expected_trace_fst (cps : List Nat) : (expected_trace cps).map Prod.fst = cps := by
  induction cps with
  | nil => rfl
  | cons cp cps ih => simp [expected_trace, ih]

theorem expected_trace_length (cps : List Nat) : (expected_trace cps).length = cps.length := by
  rw [← List.length_map (expected_trace cps) Prod.fst, expected_trace_fst]

theorem utf8_encode_all_length_pos (cps : List Nat) (h : cps ≠ []) :
    0 < (utf8_encode_all cps).length := by
  cases cps with
  | nil => exact absurd rfl h
  | cons cp cps =>
    have := (utf8_encode_length cp).1
    simp only [utf8_encode_all, List.flatMap_cons, List.length_append]
    omega

theorem expected_trace_budget (cps : List Nat) :
    ∀ (i : Nat) (h : i < (expected_trace cps).length),
      (((expected_trace cps)[i]).2 = 0 ↔ i + 1 = cps.length) := by
  induction cps with
  | nil => intro i h; simp [expected_trace] at h
  | cons cp cps ih =>
    intro i h
    cases i with
    | zero =>
      simp only [expected_trace, List.getElem_cons_zero, List.length_cons]
      constructor
      · intro h0
        cases cps with
        | nil => rfl
        | cons c cs =>
          have := utf8_encode_all_length_pos (c :: cs) (by simp)
          omega
      · intro h0
        have : cps = [] := List.length_eq_zero.mp (by omega)
        subst this
        rfl
    | succ i =>
      simp only [expected_trace, List.getElem_cons_succ, List.length_cons]
      have := ih i (by simpa [expected_trace] using h)
      omega

/-- C2 (as stated, refuted): U+FFFE is a Unicode scalar value and EF BF BE is its
shortest-form encoding, yet decoding these three bytes with a budget of 3 yields the
invalid sentinel. -/
theorem decode_all_fffe :
    is_scalar 0xFFFE ∧ utf8_encode_all [0xFFFE] = [0xEF, 0xBF, 0xBE] ∧
    pick_one_utf8_char [0xEF, 0xBF, 0xBE] 0 (some 3) = ⟨0, none, some 3⟩ ∧
    decode_all [0xEF, 0xBF, 0xBE] 3 0 3 = none := by
  decide

/-- C2 (amended): for every byte sequence that is a concatenation of shortest-form
encodings of Unicode scalar values other than U+FFFE and U+FFFF (whatever bytes follow it
in memory), decoding it character by character with a budget equal to its byte length
never yields the invalid sentinel: it returns exactly those code points, stops with the
cursor at the end of the sequence, and the budget is 0 after the last character and
positive after every earlier one. -/
theorem decode_all_valid (cps : List Nat) (hd : ∀ cp ∈ cps, decodable cp) (post : List Nat) :
    decode_all (utf8_encode_all cps ++ post) (utf8_encode_all cps).length 0
        (utf8_encode_all cps).length =
      some (expected_trace cps, (utf8_encode_all cps).length) ∧
    (expected_trace cps).map Prod.fst = cps ∧
    ∀ (i : Nat) (h : i < (expected_trace cps).length),
      (((expected_trace cps)[i]).2 = 0 ↔ i + 1 = cps.length) := by
  refine ⟨?_, expected_trace_fst cps, expected_trace_budget cps⟩
  have := decode_all_append cps hd [] post
  simpa using this

theorem decode_all_valid_witness :
    decode_all [0x61, 0xC3, 0xA9, 0xE4, 0xB8, 0xAD] 6 0 6 =
      some ([(0x61, 5), (0xE9, 3), (0x4E2D, 0)], 6) :=
  (decode_all_valid [0x61, 0xE9, 0x4E2D] (by decide) []).1


/-! ## Truncated sequences and the read limit -/

theorem pick_table_budget_local (b0 b1 b2 b3 c1 c2 c3 R : Nat)
    (h1 : 2 ≤ R → b1 = c1) (h2 : 3 ≤ R → b2 = c2) (h3 : 4 ≤ R → b3 = c3) :
    pick_table b0 b1 b2 b3 R = pick_table b0 c1 c2 c3 R := by
  by_cases r2 : 2 ≤ R
  · obtain rfl := h1 r2
    by_cases r3 : 3 ≤ R
    · obtain rfl := h2 r3
      by_cases r4 : 4 ≤ R
      · obtain rfl := h3 r4
        rfl
      · unfold pick_table
        split_ifs <;> first | omega | with_reducible rfl
    · unfold pick_table
      split_ifs <;> first | omega | with_reducible rfl
  · unfold pick_table
    split_ifs <;> first | omega | with_reducible rfl

theorem pick_table_nul_local (b0 b1 b2 b3 c1 c2 c3 R : Nat)
    (h1 : b0 ≠ 0 → b1 = c1) (h2 : b0 ≠ 0 → b1 ≠ 0 → b2 = c2)
    (h3 : b0 ≠ 0 → b1 ≠ 0 → b2 ≠ 0 → b3 = c3) :
    pick_table b0 b1 b2 b3 R = pick_table b0 c1 c2 c3 R := by
  by_cases z0 : b0 = 0
  · subst z0
    unfold pick_table
    split_ifs <;> first | omega | with_reducible rfl
  · obtain rfl := h1 z0
    by_cases z1 : b1 = 0
    · subst z1
      unfold pick_table
      split_ifs <;> first | omega | with_reducible rfl
    · obtain rfl := h2 z0 z1
      by_cases z2 : b2 = 0
      · subst z2
        unfold pick_table
        split_ifs <;> first | omega | with_reducible rfl
      · obtain rfl := h3 z0 z1 z2
        rfl

theorem announced_len_eq (mem : List Nat) (i : Nat) :
    announced_len (byteAt mem i) =
      if byteAt mem i < 0x80 then 1
      else if 0xc0 ≤ byteAt mem i ∧ byteAt mem i < 0xe0 then 2
      else if 0xe0 ≤ byteAt mem i ∧ byteAt mem i < 0xf0 then 3
      else if 0xf0 ≤ byteAt mem i ∧ byteAt mem i < 0xf8 then 4
      else 0 := by
  simp only [announced_len, byteAt_and_e0_c0, byteAt_and_f0_e0, byteAt_and_f8_f0]

theorem pick_table_truncated (b0 b1 b2 b3 R : Nat)
    (h : (0xc0 ≤ b0 ∧ b0 < 0xe0 ∧ R < 2) ∨ (0xe0 ≤ b0 ∧ b0 < 0xf0 ∧ R < 3) ∨
      (0xf0 ≤ b0 ∧ b0 < 0xf8 ∧ R < 4)) :
    pick_table b0 b1 b2 b3 R = none := by
  unfold pick_table
  split_ifs <;> first | omega | with_reducible rfl

theorem pick_table_nul (b0 b1 b2 b3 R : Nat)
    (h : (0xc0 ≤ b0 ∧ b0 < 0xe0 ∧ b1 = 0) ∨ (0xe0 ≤ b0 ∧ b0 < 0xf0 ∧ (b1 = 0 ∨ b2 = 0)) ∨
      (0xf0 ≤ b0 ∧ b0 < 0xf8 ∧ (b1 = 0 ∨ b2 = 0 ∨ b3 = 0))) :
    pick_table b0 b1 b2 b3 R = none := by
  unfold pick_table
  split_ifs <;> first | omega | with_reducible rfl

/-- C3: a multi-byte lead byte (2-, 3- or 4-byte form) whose sequence is truncated is
reported invalid, both when the budget is smaller than the announced length and when,
without a budget, a NUL comes before the announced length is reached.  The decoder does
not read past the limit: its outcome is the same on two memories that agree on the bytes
within the budget, and without a budget on two memories that agree up to and including
a NUL. -/
theorem pick_one_utf8_char_truncated (mem : List Nat) (start : Nat) :
    (∀ r, 2 ≤ announced_len (byteAt mem start) → r < announced_len (byteAt mem start) →
      pick_one_utf8_char mem start (some r) = ⟨0, none, some r⟩) ∧
    (∀ k, 2 ≤ announced_len (byteAt mem start) → 1 ≤ k →
      k < announced_len (byteAt mem start) → byteAt mem (start + k) = 0 →
      pick_one_utf8_char mem start none = ⟨0, none, none⟩) ∧
    (∀ (mem2 : List Nat) (r : Nat),
      (∀ i, i < r → byteAt mem (start + i) = byteAt mem2 (start + i)) →
      pick_one_utf8_char mem start (some r) = pick_one_utf8_char mem2 start (some r)) ∧
    (∀ (mem2 : List Nat) (k : Nat), byteAt mem (start + k) = 0 →
      (∀ i, i ≤ k → byteAt mem (start + i) = byteAt mem2 (start + i)) →
      pick_one_utf8_char mem start none = pick_one_utf8_char mem2 start none) := by
  refine ⟨?_, ?_, ?_, ?_⟩
  · intro r h2 hr
    rw [announced_len_eq] at h2 hr
    rw [pick_one_utf8_char_eq_table, pick_table_truncated]
    simp only [budget, Nat.add_zero]
    split_ifs at h2 hr <;> omega
  · intro k h2 hk1 hk hz
    rw [announced_len_eq] at h2 hk
    rw [pick_one_utf8_char_eq_table, pick_table_nul]
    simp only [Nat.add_zero]
    split_ifs at h2 hk with c1 c2 c3 c4
    · omega
    · have : k = 1 := by omega
      subst this
      exact Or.inl ⟨c2.1, c2.2, hz⟩
    · rcases (by omega : k = 1 ∨ k = 2) with rfl | rfl
      · exact Or.inr (Or.inl ⟨c3.1, c3.2, Or.inl hz⟩)
      · exact Or.inr (Or.inl ⟨c3.1, c3.2, Or.inr hz⟩)
    · rcases (by omega : k = 1 ∨ k = 2 ∨ k = 3) with rfl | rfl | rfl
      · exact Or.inr (Or.inr ⟨c4.1, c4.2, Or.inl hz⟩)
      · exact Or.inr (Or.inr ⟨c4.1, c4.2, Or.inr (Or.inl hz)⟩)
      · exact Or.inr (Or.inr ⟨c4.1, c4.2, Or.inr (Or.inr hz)⟩)
    · omega
  · intro mem2 r hag
    rw [pick_one_utf8_char_eq_table, pick_one_utf8_char_eq_table]
    by_cases r1 : 1 ≤ r
    · rw [← hag 0 (by omega)]
      rw [pick_table_budget_local _ _ _ _ (byteAt mem2 (start + 1)) (byteAt mem2 (start + 2))
        (byteAt mem2 (start + 3)) _ (fun h => hag 1 (by simp only [budget] at h; omega))
        (fun h => hag 2 (by simp only [budget] at h; omega))
        (fun h => hag 3 (by simp only [budget] at h; omega))]
    · have hr : budget (some r) < 1 := by simp only [budget]; omega
      simp only [pick_table, hr, if_true]
  · intro mem2 k hz hag
    rw [pick_one_utf8_char_eq_table, pick_one_utf8_char_eq_table]
    rw [← hag 0 (by omega)]
    have key : ∀ j, (∀ i, i < j → byteAt mem (start + i) ≠ 0) →
        byteAt mem (start + j) = byteAt mem2 (start + j) := by
      intro j hj
      apply hag
      by_contra hlt
      exact hj k (by omega) hz
    rw [pick_table_nul_local _ _ _ _ (byteAt mem2 (start + 1)) (byteAt mem2 (start + 2))
      (byteAt mem2 (start + 3)) _
      (fun h0 => key 1 (fun i hi => by
        have : i = 0 := by omega
        subst this; exact h0))
      (fun h0 h1 => key 2 (fun i hi => by
        rcases (by omega : i = 0 ∨ i = 1) with rfl | rfl
        · exact h0
        · exact h1))
      (fun h0 h1 h2 => key 3 (fun i hi => by
        rcases (by omega : i = 0 ∨ i = 1 ∨ i = 2) with rfl | rfl | rfl
        · exact h0
        · exact h1
        · exact h2))]

theorem pick_one_utf8_char_truncated_witness :
    pick_one_utf8_char [0xE2, 0x82] 0 (some 2) = ⟨0, none, some 2⟩ ∧
    pick_one_utf8_char [0xE2, 0x82, 0, 0xAC] 0 none = ⟨0, none, none⟩ ∧
    pick_one_utf8_char [0xC3, 0xA9, 0x41] 0 (some 2) =
      pick_one_utf8_char [0xC3, 0xA9, 0xBF] 0 (some 2) ∧
    pick_one_utf8_char [0xC3, 0, 0x41] 0 none = pick_one_utf8_char [0xC3, 0, 0xBF] 0 none :=
  ⟨(pick_one_utf8_char_truncated [0xE2, 0x82] 0).1 2 (by decide) (by decide),
   (pick_one_utf8_char_truncated [0xE2, 0x82, 0, 0xAC] 0).2.1 2 (by decide) (by decide)
     (by decide) (by decide),
   (pick_one_utf8_char_truncated [0xC3, 0xA9, 0x41] 0).2.2.1 [0xC3, 0xA9, 0xBF] 2 (by decide),
   (pick_one_utf8_char_truncated [0xC3, 0, 0x41] 0).2.2.2 [0xC3, 0, 0xBF] 1 (by decide)
     (by decide)⟩

/-! ## `utf8_strnwidth` on invalid input -/

theorem skip_escapes_ge (mem : List Nat) : ∀ (fuel p : Nat), p ≤ skip_escapes mem fuel p := by
  intro fuel
  induction fuel with
  | zero => intro p; exact Nat.le_refl _
  | succ fuel ih =>
    intro p
    simp only [skip_escapes]
    split_ifs
    · exact Nat.le_trans (Nat.le_add_right _ _) (ih _)
    · exact Nat.le_refl _

theorem skipped_ge (mem : List Nat) (skip_ansi : Bool) (p : Nat) :
    p ≤ skipped mem skip_ansi p := by
  unfold skipped
  split_ifs
  · exact skip_escapes_ge mem _ p
  · exact Nat.le_refl _

theorem pick_advances (mem : List Nat) (start : Nat) (remainder_p : Option Nat) (p : Nat)
    (h : (pick_one_utf8_char mem start remainder_p).start = some p) : start < p := by
  obtain ⟨cp, _, _, _, he⟩ := pick_sound mem start remainder_p p h
  rw [he] at h
  have := (utf8_encode_length cp).1
  simp only [Option.some.injEq] at h
  omega

theorem utf8_width_start (mem : List Nat) (start : Nat) (remainder_p : Option Nat) :
    (utf8_width mem start remainder_p).2.1 = (pick_one_utf8_char mem start remainder_p).start := by
  unfold utf8_width
  cases h : (pick_one_utf8_char mem start remainder_p).start <;> simp only [h]

theorem strnwidth_loop_fails (mem : List Nat) (orig : Nat) (len : Int) (skip_ansi : Bool)
    (s : Nat) (h : scan_fails mem (orig + len) skip_ansi s) :
    ∀ (fuel : Nat) (width : Int), ((orig : Int) + len - s).toNat + 2 ≤ fuel →
      ∃ w, strnwidth_loop mem orig len skip_ansi fuel (some s) width = some (none, w) := by
  induction h with
  | here s hlt hnone =>
    intro fuel width hf
    obtain ⟨f, rfl⟩ : ∃ f, fuel = f + 1 := ⟨fuel - 1, by omega⟩
    obtain ⟨g, rfl⟩ : ∃ g, f = g + 1 := ⟨f - 1, by omega⟩
    simp only [strnwidth_loop, hlt, if_true, utf8_width_start, hnone]
    exact ⟨_, rfl⟩
  | later s s' hlt hsome _ ih =>
    intro fuel width hf
    obtain ⟨f, rfl⟩ : ∃ f, fuel = f + 1 := ⟨fuel - 1, by omega⟩
    simp only [strnwidth_loop, hlt, if_true, utf8_width_start, hsome]
    have h1 := pick_advances _ _ _ _ hsome
    have h2 := skipped_ge mem skip_ansi s
    exact ih f _ (by omega)

/-- C4: if decoding fails at any point while `utf8_strnwidth` scans its input, the function
returns the byte length of the input (`len`, or `strlen` when `len` is -1) instead of a
column count; for the truncated sequence E2 82 followed by the terminator `utf8_strwidth`
returns 2. -/
theorem utf8_strnwidth_invalid (mem : List Nat) (string : Nat) (len : Int) (skip_ansi : Bool) :
    (scan_fails mem (string + effective_len mem string len) skip_ansi string →
      utf8_strnwidth mem string len skip_ansi = some (effective_len mem string len)) ∧
    effective_len [0xE2, 0x82] 0 (-1) = 2 ∧
    utf8_strwidth [0xE2, 0x82] 0 = some 2 := by
  refine ⟨?_, by decide, by decide⟩
  intro h
  obtain ⟨w, hw⟩ := strnwidth_loop_fails mem string (effective_len mem string len) skip_ansi
    string h ((effective_len mem string len).toNat + 2) 0 (by omega)
  unfold effective_len at hw
  simp only [utf8_strnwidth, hw, effective_len]

theorem utf8_strnwidth_invalid_witness :
    utf8_strnwidth [0x61, 0x1b, 0x5b, 0x6d, 0xC3, 0x28, 0x62] 0 7 true = some 7 :=
  (utf8_strnwidth_invalid [0x61, 0x1b, 0x5b, 0x6d, 0xC3, 0x28, 0x62] 0 7 true).1
    (scan_fails.later 0 1 (by decide) (by decide) (scan_fails.here 1 (by decide) (by decide)))

/-! ## Escape sequences lie inside the string -/

theorem byteAt_ne_zero_lt (mem : List Nat) (i : Nat) (h : byteAt mem i ≠ 0) :
    i < mem.length := by
  by_contra hge
  apply h
  unfold byteAt
  rw [List.getD_eq_default _ _ (by omega)]

theorem esc_len_bounds (mem : List Nat) (s : Nat)
    (h : display_mode_esc_sequence_len mem s ≠ 0) :
    3 ≤ display_mode_esc_sequence_len mem s ∧
      s + display_mode_esc_sequence_len mem s ≤ mem.length := by
  simp only [display_mode_esc_sequence_len] at h ⊢
  split_ifs at h ⊢ with h1 h2 h3
  · exact absurd rfl h
  · exact absurd rfl h
  · exact absurd rfl h
  · have h4 : byteAt mem (s + 2 + skip_digits mem (s + 2)) ≠ 0 := by
      simp only [ne_eq, Decidable.not_not] at h3
      rw [h3]; decide
    have := byteAt_ne_zero_lt _ _ h4
    omega

theorem skip_escapes_le (mem : List Nat) :
    ∀ (fuel p : Nat), p ≤ mem.length → skip_escapes mem fuel p ≤ mem.length := by
  intro fuel
  induction fuel with
  | zero => intro p hp; exact hp
  | succ fuel ih =>
    intro p hp
    simp only [skip_escapes]
    split_ifs with h
    · exact ih _ (esc_len_bounds mem p h).2
    · exact hp

theorem skip_escapes_done (mem : List Nat) :
    ∀ (fuel p : Nat), mem.length < p + fuel →
      display_mode_esc_sequence_len mem (skip_escapes mem fuel p) = 0 := by
  intro fuel
  induction fuel with
  | zero =>
    intro p hp
    simp only [skip_escapes]
    by_contra h
    have := (esc_len_bounds mem p h).2
    omega
  | succ fuel ih =>
    intro p hp
    simp only [skip_escapes]
    split_ifs with h
    · have := esc_len_bounds mem p h
      exact ih _ (by omega)
    · simpa using h

/-! ## The decoder stays inside the string -/

theorem pick_table_cont (b0 b1 b2 b3 R ch n : Nat)
    (h : pick_table b0 b1 b2 b3 R = some (ch, n)) :
    1 ≤ n ∧ n ≤ 4 ∧ (2 ≤ n → b1 ≠ 0) ∧ (3 ≤ n → b2 ≠ 0) ∧ (4 ≤ n → b3 ≠ 0) := by
  unfold pick_table at h
  split_ifs at h <;>
    simp only [Option.some.injEq, Prod.mk.injEq] at h <;>
    obtain ⟨rfl, rfl⟩ := h <;>
    omega

theorem pick_le (mem : List Nat) (start p : Nat)
    (h : (pick_one_utf8_char mem start none).start = some p)
    (h0 : byteAt mem start ≠ 0) : start < p ∧ p ≤ mem.length := by
  refine ⟨pick_advances _ _ _ _ h, ?_⟩
  rw [pick_one_utf8_char_eq_table] at h
  cases ht : pick_table (byteAt mem (start + 0)) (byteAt mem (start + 1))
      (byteAt mem (start + 2)) (byteAt mem (start + 3)) (budget none) with
  | none => rw [ht] at h; simp at h
  | some res =>
    obtain ⟨ch, n⟩ := res
    rw [ht] at h
    simp only [Option.some.injEq] at h
    obtain ⟨h1, h2, h3, h4, h5⟩ := pick_table_cont _ _ _ _ _ _ _ ht
    have a0 := byteAt_ne_zero_lt mem start h0
    rcases (by omega : n = 1 ∨ n = 2 ∨ n = 3 ∨ n = 4) with rfl | rfl | rfl | rfl
    · omega
    · have := byteAt_ne_zero_lt _ _ (h3 (by omega)); omega
    · have := byteAt_ne_zero_lt _ _ (h4 (by omega)); omega
    · have := byteAt_ne_zero_lt _ _ (h5 (by omega)); omega

/-! ## Termination of the wrapping loop -/

theorem measure_lt (K A A' r r' : Nat)
    (h : (A' < A ∧ r' < K) ∨ (A' ≤ A ∧ r' < r)) : A' * K + r' < A * K + r := by
  rcases h with ⟨h1, h2⟩ | ⟨h1, h2⟩
  · have := Nat.mul_le_mul_right K (show A' + 1 ≤ A from h1)
    rw [Nat.add_mul] at this
    omega
  · have := Nat.mul_le_mul_right K h1
    omega

theorem b2n_le (b : Bool) : b2n b ≤ 1 := by
  cases b <;> decide

theorem isspace_ne_zero (c : Nat) (h : isspace c = true) : c ≠ 0 := by
  rintro rfl
  exact absurd h (by decide)

theorem isalnum_not_isspace (c : Nat) (h : isalnum c = true) : isspace c = false := by
  simp only [isalnum, Bool.or_eq_true, decide_eq_true_eq] at h
  simp only [isspace, Bool.or_eq_false_iff, decide_eq_false_iff_not]
  omega

theorem wrap_emit_next (mem : List Nat) (indent2 : Int) (s s' : wrap_state) (t c : Nat)
    (h : wrap_emit mem indent2 s t c = .next s') :
    c ≠ 0 ∧
    ((s'.text = t + 1 ∧ s'.space = some t) ∨
     (s'.text = t + 1 ∧ s'.space = some (t + 1) ∧ isspace (byteAt mem (t + 1)) = false) ∨
     (s'.space = none ∧ s'.text = t + 1 + b2n (isspace (byteAt mem (t + 1))))) := by
  simp only [wrap_emit] at h
  split_ifs at h with h1 h2 h3 h4 h5 h6 <;>
    simp only [wrap_step_result.next.injEq, reduceCtorEq] at h
  · subst h
    exact ⟨h2, Or.inl ⟨rfl, rfl⟩⟩
  · subst h
    exact ⟨h2, Or.inr (Or.inr ⟨rfl, rfl⟩)⟩
  · subst h
    refine ⟨h2, Or.inr (Or.inl ⟨rfl, rfl, ?_⟩)⟩
    apply isalnum_not_isspace
    simpa using h6
  · subst h
    exact ⟨h2, Or.inr (Or.inr ⟨rfl, rfl⟩)⟩
  · subst h
    exact ⟨h2, Or.inl ⟨rfl, rfl⟩⟩

theorem wrap_step_decreases (mem : List Nat) (assume_utf8 : Bool) (indent2 width : Int)
    (s s' : wrap_state) (hinv : wrap_inv mem s)
    (h : wrap_step mem assume_utf8 indent2 width s = .next s') :
    wrap_inv mem s' ∧ wrap_measure mem s' < wrap_measure mem s := by
  obtain ⟨hL, hsp⟩ := hinv
  have ht1 := skip_escapes_ge mem (mem.length + 1) s.text
  have ht2 := skip_escapes_le mem (mem.length + 1) s.text hL
  simp only [wrap_step] at h
  generalize skip_escapes mem (mem.length + 1) s.text = t at ht1 ht2 h
  have hb := b2n_le (isspace (byteAt mem (t + 1)))
  have hb1 : isspace (byteAt mem (t + 1)) = true → t + 1 < mem.length := fun hs =>
    byteAt_ne_zero_lt _ _ (isspace_ne_zero _ hs)
  have emit : wrap_emit mem indent2 s t (byteAt mem t) = .next s' →
      (byteAt mem t = 0 ∨ isspace (byteAt mem t) = true) →
      wrap_inv mem s' ∧ wrap_measure mem s' < wrap_measure mem s := by
    intro he hc
    obtain ⟨hc0, hcases⟩ := wrap_emit_next mem indent2 s s' t _ he
    have htL := byteAt_ne_zero_lt _ _ hc0
    have hws : isspace (byteAt mem t) = true := by
      rcases hc with hc | hc
      · exact absurd hc hc0
      · exact hc
    rcases hcases with ⟨e1, e2⟩ | ⟨e1, e2, e3⟩ | ⟨e1, e2⟩
    · refine ⟨⟨by omega, fun sp hsp' => by rw [e2] at hsp'; cases hsp'; omega⟩, ?_⟩
      unfold wrap_measure
      apply measure_lt
      right
      refine ⟨?_, by omega⟩
      simp only [wrap_rank, e2, hws, b2n, if_true]
      cases hs : s.space with
      | none => simp only; omega
      | some sp =>
        have := hsp sp hs
        have := b2n_le (isspace (byteAt mem sp))
        simp only [b2n] at this ⊢
        omega
    · refine ⟨⟨by omega, fun sp hsp' => by rw [e2] at hsp'; cases hsp'; omega⟩, ?_⟩
      unfold wrap_measure
      apply measure_lt
      right
      refine ⟨?_, by omega⟩
      simp only [wrap_rank, e2, e3, b2n]
      cases hs : s.space with
      | none => simp only; omega
      | some sp =>
        have := hsp sp hs
        have := b2n_le (isspace (byteAt mem sp))
        simp only [b2n] at this ⊢
        omega
    · have hle : s'.text ≤ mem.length := by
        rw [e2]
        cases hsb : isspace (byteAt mem (t + 1)) with
        | false => simp only [b2n]; simp; omega
        | true => have := hb1 hsb; simp only [b2n]; simp; omega
      refine ⟨⟨hle, fun sp hsp' => by rw [e1] at hsp'; cases hsp'⟩, ?_⟩
      unfold wrap_measure
      apply measure_lt
      left
      refine ⟨?_, by omega⟩
      simp only [wrap_rank, e1, e2]
      cases hs : s.space with
      | none => simp only; omega
      | some sp =>
        have := hsp sp hs
        have := b2n_le (isspace (byteAt mem sp))
        simp only [b2n] at this ⊢
        omega
  by_cases hc : byteAt mem t = 0 ∨ isspace (byteAt mem t) = true
  · rw [if_pos hc] at h
    cases hs : s.space with
    | none =>
      simp only [hs] at h
      exact emit h hc
    | some sp =>
      simp only [hs] at h
      by_cases hw : s.w ≤ width
      · rw [if_pos hw] at h
        exact emit h hc
      · rw [if_neg hw] at h
        simp only [wrap_step_result.next.injEq] at h
        subst h
        have hspt := hsp sp hs
        have hbs := b2n_le (isspace (byteAt mem sp))
        have hle : sp + b2n (isspace (byteAt mem sp)) ≤ mem.length := by
          cases hsb : isspace (byteAt mem sp) with
          | false => simp only [b2n]; simp; omega
          | true =>
            have := byteAt_ne_zero_lt _ _ (isspace_ne_zero _ hsb)
            simp only [b2n]; simp; omega
        refine ⟨⟨hle, fun sp' hsp' => by simp [wrap_new_line] at hsp'⟩, ?_⟩
        unfold wrap_measure
        apply measure_lt
        left
        simp only [wrap_rank, wrap_new_line, hs]
        omega
  · rw [if_neg hc] at h
    have hc0 : byteAt mem t ≠ 0 := fun h0 => hc (Or.inl h0)
    have htL := byteAt_ne_zero_lt _ _ hc0
    cases assume_utf8 with
    | true =>
      simp only [if_true, utf8_width_start] at h
      cases hp : (pick_one_utf8_char mem t none).start with
      | none => rw [hp] at h; simp at h
      | some p =>
        rw [hp] at h
        simp only [wrap_step_result.next.injEq] at h
        subst h
        obtain ⟨hp1, hp2⟩ := pick_le mem t p hp hc0
        refine ⟨⟨hp2, fun sp hs => by have := hsp sp hs; simp only at hs ⊢; omega⟩, ?_⟩
        unfold wrap_measure
        apply measure_lt
        right
        refine ⟨?_, by simp only; omega⟩
        simp only [wrap_rank]
        cases hs : s.space with
        | none => simp only; omega
        | some sp => simp only; omega
    | false =>
      simp only [Bool.false_eq_true, if_false, wrap_step_result.next.injEq] at h
      subst h
      refine ⟨⟨by simp only; omega, fun sp hs => by have := hsp sp hs; simp only at hs ⊢; omega⟩, ?_⟩
      unfold wrap_measure
      apply measure_lt
      right
      refine ⟨?_, by simp only; omega⟩
      simp only [wrap_rank]
      cases hs : s.space with
      | none => simp only; omega
      | some sp => simp only; omega

theorem wrap_run_terminates (mem : List Nat) (assume_utf8 : Bool) (indent2 width : Int) :
    ∀ (n : Nat) (s : wrap_state), wrap_inv mem s → wrap_measure mem s < n →
      wrap_run mem assume_utf8 indent2 width n s ≠ .exhausted := by
  intro n
  induction n with
  | zero => intro s _ h; omega
  | succ n ih =>
    intro s hinv hm
    simp only [wrap_run]
    cases hstep : wrap_step mem assume_utf8 indent2 width s with
    | next s' =>
      obtain ⟨hinv', hlt⟩ := wrap_step_decreases mem assume_utf8 indent2 width s s' hinv hstep
      exact ih s' hinv' (by omega)
    | done b => simp
    | broken b => simp

theorem wrap_run_mono (mem : List Nat) (assume_utf8 : Bool) (indent2 width : Int) (k : Nat) :
    ∀ (n : Nat) (s : wrap_state),
      wrap_run mem assume_utf8 indent2 width n s ≠ .exhausted →
      wrap_run mem assume_utf8 indent2 width (n + k) s =
        wrap_run mem assume_utf8 indent2 width n s := by
  intro n
  induction n with
  | zero => intro s h; exact absurd rfl h
  | succ n ih =>
    intro s h
    rw [show n + 1 + k = (n + k) + 1 by omega]
    simp only [wrap_run] at h ⊢
    cases hstep : wrap_step mem assume_utf8 indent2 width s with
    | next s' =>
      rw [hstep] at h
      exact ih s' h
    | done b => rfl
    | broken b => rfl

theorem wrap_run_agree (mem : List Nat) (assume_utf8 : Bool) (indent2 width : Int)
    (n m : Nat) (s : wrap_state)
    (hn : wrap_run mem assume_utf8 indent2 width n s ≠ .exhausted)
    (hm : wrap_run mem assume_utf8 indent2 width m s ≠ .exhausted) :
    wrap_run mem assume_utf8 indent2 width n s = wrap_run mem assume_utf8 indent2 width m s := by
  rcases Nat.le_total n m with h | h
  · obtain ⟨k, rfl⟩ := Nat.exists_eq_add_of_le h
    exact (wrap_run_mono mem assume_utf8 indent2 width k n s hn).symm
  · obtain ⟨k, rfl⟩ := Nat.exists_eq_add_of_le h
    exact wrap_run_mono mem assume_utf8 indent2 width k m s hm

theorem wrap_init_inv (mem : List Nat) (text : Nat) (indent1 : Int) (buf : List Nat)
    (h : text ≤ mem.length) : wrap_inv mem (wrap_init text indent1 buf) := by
  unfold wrap_init wrap_inv
  split_ifs
  · exact ⟨h, fun sp hsp => by simp only [Option.some.injEq] at hsp; simp only; omega⟩
  · exact ⟨h, fun sp hsp => by simp at hsp⟩

theorem wrap_measure_lt_fuel (mem : List Nat) (s : wrap_state) :
    wrap_measure mem s < wrap_fuel mem := by
  unfold wrap_measure wrap_fuel
  have h := Nat.mul_le_mul_right (mem.length + 2)
    (show 2 * mem.length + 4 - wrap_rank mem s ≤ 2 * mem.length + 4 by omega)
  have e : (2 * mem.length + 5) * (mem.length + 2) =
      (2 * mem.length + 4) * (mem.length + 2) + (mem.length + 2) := by
    rw [show 2 * mem.length + 5 = (2 * mem.length + 4) + 1 by omega, Nat.add_mul, Nat.one_mul]
  omega

theorem esc_len_of_nul (mem : List Nat) (p : Nat) (h : byteAt mem p = 0) :
    display_mode_esc_sequence_len mem p = 0 := by
  simp [display_mode_esc_sequence_len, h]

theorem wrap_run_init_ne_exhausted (mem : List Nat) (assume_utf8 : Bool) (text : Nat)
    (indent1 indent2 width : Int) (buf : List Nat) :
    wrap_run mem assume_utf8 indent2 width (wrap_fuel mem) (wrap_init text indent1 buf) ≠
      .exhausted := by
  by_cases h : text ≤ mem.length
  · exact wrap_run_terminates mem assume_utf8 indent2 width _ _
      (wrap_init_inv mem text indent1 buf h) (wrap_measure_lt_fuel mem _)
  · obtain ⟨k, hk⟩ : ∃ k, wrap_fuel mem = k + 2 := by
      have : 10 ≤ wrap_fuel mem := by
        unfold wrap_fuel
        exact Nat.mul_le_mul (show 5 ≤ 2 * mem.length + 5 by omega)
          (show 2 ≤ mem.length + 2 by omega)
      exact ⟨wrap_fuel mem - 2, by omega⟩
    have hz : byteAt mem text = 0 := by
      by_contra hne
      exact h (Nat.le_of_lt (byteAt_ne_zero_lt mem text hne))
    have hskip : skip_escapes mem (mem.length + 1) text = text := by
      simp [skip_escapes, esc_len_of_nul mem text hz]
    rw [hk]
    unfold wrap_init
    split_ifs with hi
    · simp only [wrap_run, wrap_step, hskip, hz, true_or, if_true]
      by_cases hwd : -indent1 ≤ width
      · simp [hwd, wrap_emit]
      · simp [hwd, wrap_new_line, hz, isspace, b2n, hskip, wrap_emit]
    · simp [wrap_run, wrap_step, hskip, hz, wrap_emit]

/-! ## The wrapping loop only appends -/

theorem wrap_emit_prepend (mem : List Nat) (indent2 : Int) (B : List Nat) (s : wrap_state)
    (t c : Nat) :
    wrap_emit mem indent2 (s.prepend B) t c = (wrap_emit mem indent2 s t c).prepend B := by
  simp only [wrap_emit, wrap_state.prepend]
  cases hs : s.space <;>
    split_ifs <;>
    simp [wrap_step_result.prepend, wrap_state.prepend, wrap_new_line, strbuf_add,
      strbuf_addch, strbuf_addchars, List.append_assoc]

theorem wrap_step_prepend (mem : List Nat) (assume_utf8 : Bool) (indent2 width : Int)
    (B : List Nat) (s : wrap_state) :
    wrap_step mem assume_utf8 indent2 width (s.prepend B) =
      (wrap_step mem assume_utf8 indent2 width s).prepend B := by
  simp only [wrap_step]
  have e1 : (s.prepend B).text = s.text := rfl
  have e2 : (s.prepend B).space = s.space := rfl
  have e3 : (s.prepend B).w = s.w := rfl
  rw [e1, e2, e3]
  by_cases hc : byteAt mem (skip_escapes mem (mem.length + 1) s.text) = 0 ∨
      isspace (byteAt mem (skip_escapes mem (mem.length + 1) s.text)) = true
  · rw [if_pos hc, if_pos hc]
    cases hs : s.space with
    | none => simp only [wrap_emit_prepend]
    | some sp =>
      simp only
      by_cases hw : s.w ≤ width
      · rw [if_pos hw, if_pos hw]
        exact wrap_emit_prepend _ _ _ _ _ _
      · rw [if_neg hw, if_neg hw]
        simp [wrap_step_result.prepend, wrap_state.prepend, wrap_new_line, strbuf_addch]
  · rw [if_neg hc, if_neg hc]
    cases assume_utf8 with
    | true =>
      simp only [if_true]
      cases (utf8_width mem (skip_escapes mem (mem.length + 1) s.text) none).2.1 <;> rfl
    | false => rfl

theorem wrap_run_prepend (mem : List Nat) (assume_utf8 : Bool) (indent2 width : Int)
    (B : List Nat) :
    ∀ (n : Nat) (s : wrap_state),
      wrap_run mem assume_utf8 indent2 width n (s.prepend B) =
        (wrap_run mem assume_utf8 indent2 width n s).prepend B := by
  intro n
  induction n with
  | zero => intro s; rfl
  | succ n ih =>
    intro s
    simp only [wrap_run, wrap_step_prepend]
    cases wrap_step mem assume_utf8 indent2 width s with
    | next s' => exact ih s'
    | done b => rfl
    | broken b => rfl

theorem wrap_init_prepend (text : Nat) (indent1 : Int) (B : List Nat) :
    wrap_init text indent1 B = (wrap_init text indent1 []).prepend B := by
  unfold wrap_init wrap_state.prepend
  split_ifs <;> simp

theorem wrap_run_raw_not_broken (mem : List Nat) (indent2 width : Int) :
    ∀ (n : Nat) (s : wrap_state) (b : List Nat),
      wrap_run mem false indent2 width n s ≠ .broken b := by
  intro n
  induction n with
  | zero => intro s b; simp [wrap_run]
  | succ n ih =>
    intro s b
    simp only [wrap_run]
    cases hstep : wrap_step mem false indent2 width s with
    | next s' => exact ih s' b
    | done b' => simp
    | broken b' =>
      exfalso
      simp only [wrap_step, wrap_emit] at hstep
      cases hs : s.space <;> simp only [hs] at hstep <;> split_ifs at hstep <;> contradiction

theorem wrap_run_appends (mem : List Nat) (assume_utf8 : Bool) (text : Nat)
    (indent1 indent2 width : Int) (B : List Nat) (n : Nat) :
    wrap_run mem assume_utf8 indent2 width n (wrap_init text indent1 B) =
      (wrap_run mem assume_utf8 indent2 width n (wrap_init text indent1 [])).prepend B := by
  rw [wrap_init_prepend, wrap_run_prepend]

theorem wrap_raw_done (mem : List Nat) (text : Nat) (indent1 indent2 width : Int) :
    ∃ raw, wrap_run mem false indent2 width (wrap_fuel mem) (wrap_init text indent1 []) =
      .done raw := by
  cases h : wrap_run mem false indent2 width (wrap_fuel mem) (wrap_init text indent1 []) with
  | done raw => exact ⟨raw, rfl⟩
  | broken b => exact absurd h (wrap_run_raw_not_broken _ _ _ _ _ _)
  | exhausted => exact absurd h (wrap_run_init_ne_exhausted _ _ _ _ _ _ _)

theorem wrapped_text_of_broken (B mem : List Nat) (text : Nat) (indent1 indent2 width : Int)
    (hw : 0 < width) (b raw : List Nat)
    (hraw : wrap_run mem false indent2 width (wrap_fuel mem) (wrap_init text indent1 []) =
      .done raw)
    (hb : wrap_run mem true indent2 width (wrap_fuel mem) (wrap_init text indent1 B) =
      .broken b) :
    strbuf_add_wrapped_text B mem text indent1 indent2 width = some (B ++ raw) := by
  have hnw : ¬ width ≤ 0 := by omega
  have hb' := hb
  rw [wrap_run_appends] at hb'
  cases hx : wrap_run mem true indent2 width (wrap_fuel mem) (wrap_init text indent1 []) with
  | done x => rw [hx] at hb'; simp [wrap_outcome.prepend] at hb'
  | exhausted => rw [hx] at hb'; simp [wrap_outcome.prepend] at hb'
  | broken x =>
    rw [hx] at hb'
    simp only [wrap_outcome.prepend, wrap_outcome.broken.injEq] at hb'
    subst hb'
    have hcut : strbuf_setlen (B ++ x) B.length = B := by
      simp [strbuf_setlen]
    have hrawB : wrap_run mem false indent2 width (wrap_fuel mem)
        (wrap_init text indent1 (strbuf_setlen (B ++ x) B.length)) = .done (B ++ raw) := by
      rw [hcut, wrap_run_appends, hraw]
      rfl
    simp only [strbuf_add_wrapped_text, hnw, if_false, hb, hrawB]

theorem wrapped_text_appends (B mem : List Nat) (text : Nat) (indent1 indent2 width : Int)
    (hw : 0 < width) :
    ∃ out, strbuf_add_wrapped_text B mem text indent1 indent2 width = some (B ++ out) := by
  have hnw : ¬ width ≤ 0 := by omega
  obtain ⟨raw, hraw⟩ := wrap_raw_done mem text indent1 indent2 width
  cases hu : wrap_run mem true indent2 width (wrap_fuel mem) (wrap_init text indent1 B) with
  | exhausted => exact absurd hu (wrap_run_init_ne_exhausted _ _ _ _ _ _ _)
  | broken b => exact ⟨raw, wrapped_text_of_broken B mem text indent1 indent2 width hw b raw hraw hu⟩
  | done b =>
    have hb' := hu
    rw [wrap_run_appends] at hb'
    cases hx : wrap_run mem true indent2 width (wrap_fuel mem) (wrap_init text indent1 []) with
    | broken x => rw [hx] at hb'; simp [wrap_outcome.prepend] at hb'
    | exhausted => rw [hx] at hb'; simp [wrap_outcome.prepend] at hb'
    | done x =>
      rw [hx] at hb'
      simp only [wrap_outcome.prepend, wrap_outcome.done.injEq] at hb'
      subst hb'
      exact ⟨x, by simp only [strbuf_add_wrapped_text, hnw, if_false, hu]⟩

/-! ## `strbuf_utf8_replace` on invalid input -/

theorem copy_escapes_fst (mem : List Nat) :
    ∀ (fuel src : Nat) (dst : List Nat),
      (copy_escapes mem fuel src dst).1 = skip_escapes mem fuel src := by
  intro fuel
  induction fuel with
  | zero => intro src dst; rfl
  | succ fuel ih =>
    intro src dst
    simp only [copy_escapes, skip_escapes]
    split_ifs
    · exact ih _ _
    · rfl

theorem replace_loop_fails (sb : List Nat) (stop : Nat) (pos width : Int) (s : Nat)
    (h : scan_fails sb (stop : Int) true s) :
    ∀ (fuel : Nat) (dst : List Nat) (w : Int) (subst : Option (List Nat)),
      stop - s + 1 ≤ fuel →
      replace_loop sb stop pos width fuel ⟨s, dst, w, subst⟩ = .broken := by
  induction h with
  | here s hlt hnone =>
    intro fuel dst w subst hf
    obtain ⟨f, rfl⟩ : ∃ f, fuel = f + 1 := ⟨fuel - 1, by omega⟩
    have hlt' : s < stop := by omega
    simp only [skipped, if_true] at hnone
    simp only [replace_loop, hlt', if_true, copy_escapes_fst, utf8_width_start, hnone]
  | later s s' hlt hsome _ ih =>
    intro fuel dst w subst hf
    obtain ⟨f, rfl⟩ : ∃ f, fuel = f + 1 := ⟨fuel - 1, by omega⟩
    have hlt' : s < stop := by omega
    have h1 := pick_advances _ _ _ _ hsome
    have h2 := skipped_ge sb true s
    simp only [skipped, if_true] at hsome h1 h2
    simp only [replace_loop, hlt', if_true, copy_escapes_fst, utf8_width_start, hsome]
    split_ifs
    · exact ih f _ _ _ (by omega)
    · exact ih f _ _ _ (by omega)

/-- C8: if decoding fails at any character while `strbuf_utf8_replace` scans the buffer, the
buffer's contents and length after the call are exactly what they were before it, for
every `pos`, `width` and literal. -/
theorem strbuf_utf8_replace_broken (sb : List Nat) (pos width : Int)
    (subst : Option (List Nat)) (h : scan_fails sb (sb.length : Int) true 0) :
    strbuf_utf8_replace sb pos width subst = some sb := by
  simp only [strbuf_utf8_replace,
    replace_loop_fails sb sb.length pos width 0 h (sb.length + 1) _ _ _ (by omega)]

theorem strbuf_utf8_replace_broken_witness :
    strbuf_utf8_replace [0x61, 0x62, 0xE2, 0x82] 0 1 (some [0x2e, 0x2e]) =
      some [0x61, 0x62, 0xE2, 0x82] :=
  strbuf_utf8_replace_broken [0x61, 0x62, 0xE2, 0x82] 0 1 (some [0x2e, 0x2e])
    (scan_fails.later 0 1 (by decide) (by decide)
      (scan_fails.later 1 2 (by decide) (by decide)
        (scan_fails.here 2 (by decide) (by decide))))

/-! ## Wrapping words of printable ASCII -/

theorem wrap_reaches_refl (mem : List Nat) (u : Bool) (i2 w : Int) (s : wrap_state) :
    wrap_reaches mem u i2 w s s := ⟨0, fun _ => rfl⟩

theorem wrap_reaches_trans (mem : List Nat) (u : Bool) (i2 w : Int) (a b c : wrap_state)
    (h1 : wrap_reaches mem u i2 w a b) (h2 : wrap_reaches mem u i2 w b c) :
    wrap_reaches mem u i2 w a c := by
  obtain ⟨k1, h1⟩ := h1
  obtain ⟨k2, h2⟩ := h2
  exact ⟨k2 + k1, fun n => by rw [← Nat.add_assoc, h1, h2]⟩

theorem wrap_reaches_step (mem : List Nat) (u : Bool) (i2 w : Int) (s s' : wrap_state)
    (h : wrap_step mem u i2 w s = .next s') : wrap_reaches mem u i2 w s s' :=
  ⟨1, fun n => by simp only [wrap_run, h]⟩

theorem wrap_reaches_run (mem : List Nat) (u : Bool) (i2 w : Int) (s s' : wrap_state)
    (r : wrap_outcome) (h : wrap_reaches mem u i2 w s s')
    (hr : ∃ n, wrap_run mem u i2 w n s' = r) : ∃ n, wrap_run mem u i2 w n s = r := by
  obtain ⟨k, hk⟩ := h
  obtain ⟨n, hn⟩ := hr
  exact ⟨n + k, by rw [hk, hn]⟩

theorem wrap_step_done_run (mem : List Nat) (u : Bool) (i2 w : Int) (s : wrap_state)
    (b : List Nat) (h : wrap_step mem u i2 w s = .done b) :
    ∃ n, wrap_run mem u i2 w n s = .done b :=
  ⟨1, by simp only [wrap_run, h]⟩

theorem git_wcwidth_printable (b : Nat) (h : 0x20 ≤ b ∧ b ≤ 0x7e) : git_wcwidth b = 1 := by
  rw [git_wcwidth_eq, if_neg (by omega), if_neg (by omega),
    if_neg (fun hc => by have := in_combining_ge b hc; omega),
    if_neg (by unfold east_asian_wide; omega)]

theorem esc_len_of_ne (mem : List Nat) (p : Nat) (h : byteAt mem p ≠ 0x1b) :
    display_mode_esc_sequence_len mem p = 0 := by
  simp [display_mode_esc_sequence_len, h]

theorem skip_escapes_of_ne (mem : List Nat) (fuel p : Nat) (h : byteAt mem p ≠ 0x1b) :
    skip_escapes mem fuel p = p := by
  cases fuel with
  | zero => rfl
  | succ f => simp [skip_escapes, esc_len_of_ne mem p h]

theorem utf8_width_ascii (mem : List Nat) (t : Nat) (h : byteAt mem t < 0x80) :
    utf8_width mem t none = (git_wcwidth (byteAt mem t), some (t + 1), none) := by
  have hp : pick_one_utf8_char mem t none = ⟨byteAt mem t, some (t + 1), none⟩ := by
    simp [pick_one_utf8_char, h]
  simp only [utf8_width, hp]

theorem wrap_step_char (mem : List Nat) (i2 w : Int) (s : wrap_state)
    (hp : 0x21 ≤ byteAt mem s.text ∧ byteAt mem s.text ≤ 0x7e) :
    wrap_step mem true i2 w s = .next (s.advance 1) := by
  have hs : skip_escapes mem (mem.length + 1) s.text = s.text :=
    skip_escapes_of_ne mem _ _ (by omega)
  have hc : ¬ (byteAt mem s.text = 0 ∨ isspace (byteAt mem s.text) = true) := by
    simp only [isspace, Bool.or_eq_true, decide_eq_true_eq]
    omega
  simp only [wrap_step, hs, hc, if_false, if_true, utf8_width_ascii mem s.text (by omega),
    git_wcwidth_printable _ ⟨by omega, hp.2⟩]
  rfl

theorem byteAt_mid (pre post : List Nat) (b : Nat) (hb : b < 256) :
    byteAt (pre ++ b :: post) pre.length = b := by
  have := byteAt_append pre [b] post 0 (by simp)
  simp only [Nat.add_zero, List.getElem_cons_zero, List.append_assoc, List.singleton_append]
    at this
  rw [this, Nat.mod_eq_of_lt hb]

theorem byteAt_end (pre : List Nat) : byteAt pre pre.length = 0 := by
  unfold byteAt
  rw [List.getD_eq_default _ _ (Nat.le_refl _)]

theorem wrap_state_advance_advance (s : wrap_state) (a b : Nat) :
    (s.advance a).advance b = s.advance (a + b) := by
  simp only [wrap_state.advance, Nat.add_assoc, Nat.cast_add, Int.add_assoc]

theorem wrap_scan_word (i2 w : Int) :
    ∀ (u pre post : List Nat) (s : wrap_state), (∀ b ∈ u, 0x21 ≤ b ∧ b ≤ 0x7e) →
      s.text = pre.length →
      wrap_reaches (pre ++ u ++ post) true i2 w s (s.advance u.length) := by
  intro u
  induction u with
  | nil =>
    intro pre post s _ _
    have : s.advance ([] : List Nat).length = s := by
      simp [wrap_state.advance]
    rw [this]
    exact wrap_reaches_refl _ _ _ _ _
  | cons b u ih =>
    intro pre post s hu ht
    have hb := hu b (List.mem_cons_self _ _)
    have hbyte : byteAt (pre ++ b :: u ++ post) s.text = b := by
      rw [ht]
      have := byteAt_mid pre (u ++ post) b (by omega)
      simpa using this
    have h1 := wrap_step_char (pre ++ b :: u ++ post) i2 w s (by rw [hbyte]; exact hb)
    have h2 := ih (pre ++ [b]) post (s.advance 1) (fun c hc => hu c (List.mem_cons_of_mem _ hc))
      (by simp [wrap_state.advance, ht])
    rw [wrap_state_advance_advance] at h2
    have e : pre ++ [b] ++ u ++ post = pre ++ b :: u ++ post := by simp
    rw [e] at h2
    rw [show (b :: u).length = 1 + u.length by simp [Nat.add_comm]]
    exact wrap_reaches_trans _ _ _ _ _ _ _ (wrap_reaches_step _ _ _ _ _ _ h1) h2

theorem wrap_step_end_fresh (mem : List Nat) (i2 w : Int) (s : wrap_state)
    (hs : s.space = none) (hc : byteAt mem s.text = 0) (hb : s.text ≠ s.bol) :
    wrap_step mem true i2 w s =
      .done (strbuf_add (strbuf_addchars s.buf 0x20 s.indent) mem s.bol (s.text - s.bol)) := by
  have hk : skip_escapes mem (mem.length + 1) s.text = s.text :=
    skip_escapes_of_ne mem _ _ (by rw [hc]; decide)
  simp [wrap_step, wrap_emit, hk, hc, hs, hb]

theorem wrap_step_space_fresh (mem : List Nat) (i2 w : Int) (s : wrap_state)
    (hs : s.space = none) (hc : byteAt mem s.text = 0x20) :
    wrap_step mem true i2 w s =
      .next { s with text := s.text + 1, space := some s.text, w := s.w + 1,
                     buf := strbuf_add (strbuf_addchars s.buf 0x20 s.indent) mem s.bol
                       (s.text - s.bol) } := by
  have hk : skip_escapes mem (mem.length + 1) s.text = s.text :=
    skip_escapes_of_ne mem _ _ (by rw [hc]; decide)
  simp [wrap_step, wrap_emit, hk, hc, hs, isspace]

theorem wrap_step_end_mid (mem : List Nat) (i2 w : Int) (s : wrap_state) (sp : Nat)
    (hs : s.space = some sp) (hw : s.w ≤ w) (hc : byteAt mem s.text = 0)
    (hb : s.text ≠ s.bol) :
    wrap_step mem true i2 w s = .done (strbuf_add s.buf mem sp (s.text - sp)) := by
  have hk : skip_escapes mem (mem.length + 1) s.text = s.text :=
    skip_escapes_of_ne mem _ _ (by rw [hc]; decide)
  simp [wrap_step, wrap_emit, hk, hc, hs, hb, hw]

theorem wrap_step_space_mid (mem : List Nat) (i2 w : Int) (s : wrap_state) (sp : Nat)
    (hs : s.space = some sp) (hw : s.w ≤ w) (hc : byteAt mem s.text = 0x20) :
    wrap_step mem true i2 w s =
      .next { s with text := s.text + 1, space := some s.text, w := s.w + 1,
                     buf := strbuf_add s.buf mem sp (s.text - sp) } := by
  have hk : skip_escapes mem (mem.length + 1) s.text = s.text :=
    skip_escapes_of_ne mem _ _ (by rw [hc]; decide)
  simp [wrap_step, wrap_emit, hk, hc, hs, hw, isspace]

theorem wrap_step_break (mem : List Nat) (i2 w : Int) (s : wrap_state) (sp : Nat)
    (hs : s.space = some sp) (hw : ¬ s.w ≤ w)
    (hc : byteAt mem s.text = 0 ∨ byteAt mem s.text = 0x20) :
    wrap_step mem true i2 w s = .next (wrap_new_line mem i2 s.buf sp) := by
  have hk : skip_escapes mem (mem.length + 1) s.text = s.text :=
    skip_escapes_of_ne mem _ _ (by rcases hc with hc | hc <;> rw [hc] <;> decide)
  rcases hc with hc | hc <;> simp [wrap_step, hk, hc, hs, hw, isspace]

theorem word_bytes_lt (u : List Nat) (h : ∀ b ∈ u, 0x21 ≤ b ∧ b ≤ 0x7e) : ∀ b ∈ u, b < 256 :=
  fun b hb => by have := h b hb; omega

theorem space_word_lt (u : List Nat) (h : ∀ b ∈ u, 0x21 ≤ b ∧ b ≤ 0x7e) :
    ∀ b ∈ 0x20 :: u, b < 256 := by
  intro b hb
  rcases List.mem_cons.mp hb with rfl | hb
  · decide
  · exact word_bytes_lt u h b hb

theorem wrap_sim_fresh (i2 width : Int) (u : List Nat) (rest : List (List Nat))
    (hu : is_word u)
    (hM : ∀ v rest', rest = v :: rest' → sim_mid i2 width v rest') :
    sim_fresh i2 width u rest := by
  intro pre buf ind
  have hupos : 0 < u.length := List.length_pos.mpr hu.1
  have hpos : pre.length + u.length = (pre ++ u).length := by simp
  cases rest with
  | nil =>
    have hscan := wrap_scan_word i2 width u pre [] (fresh_state pre.length ind buf) hu.2 rfl
    simp only [List.append_nil] at hscan
    simp only [join_words]
    refine wrap_reaches_run _ _ _ _ _ _ _ hscan ?_
    apply wrap_step_done_run
    have hw := window_append pre u [] (word_bytes_lt u hu.2)
    simp only [List.append_nil] at hw
    rw [wrap_step_end_fresh _ _ _ _ rfl
      (by simp only [wrap_state.advance, fresh_state, hpos]; exact byteAt_end _)
      (by simp only [wrap_state.advance, fresh_state]; omega)]
    simp only [wrap_state.advance, fresh_state, strbuf_add, strbuf_addchars,
      Nat.add_sub_cancel_left, hw, mid_out, List.append_nil]
  | cons v rest' =>
    have hmem : pre ++ join_words (u :: v :: rest') =
        pre ++ u ++ (0x20 :: join_words (v :: rest')) := by
      simp [join_words]
    rw [hmem]
    have hscan := wrap_scan_word i2 width u pre (0x20 :: join_words (v :: rest'))
      (fresh_state pre.length ind buf) hu.2 rfl
    refine wrap_reaches_run _ _ _ _ _ _ _ hscan ?_
    have hbyte : byteAt (pre ++ u ++ (0x20 :: join_words (v :: rest')))
        (pre.length + u.length) = 0x20 := by
      rw [hpos]
      exact byteAt_mid _ _ _ (by decide)
    have hstep := wrap_step_space_fresh (pre ++ u ++ (0x20 :: join_words (v :: rest'))) i2 width
      ((fresh_state pre.length ind buf).advance u.length) rfl hbyte
    refine wrap_reaches_run _ _ _ _ _ _ _ (wrap_reaches_step _ _ _ _ _ _ hstep) ?_
    obtain ⟨n, hn⟩ := hM v rest' rfl (pre ++ u) (buf ++ List.replicate ind.toNat 0x20 ++ u)
      (ind + u.length) ind pre.length (by simp)
    refine ⟨n, ?_⟩
    have hw := window_append pre u (0x20 :: join_words (v :: rest')) (word_bytes_lt u hu.2)
    simp only [wrap_state.advance, fresh_state, strbuf_add, strbuf_addchars,
      Nat.add_sub_cancel_left, hw]
    simp only [mid_state, List.length_append] at hn
    rw [hn]

theorem wrap_sim_mid (i2 width : Int) (u : List Nat) (rest : List (List Nat))
    (hu : is_word u) (hF : sim_fresh i2 width u rest)
    (hM : ∀ v rest', rest = v :: rest' → sim_mid i2 width v rest') :
    sim_mid i2 width u rest := by
  intro pre0 buf cur ind bol hbol
  have hupos : 0 < u.length := List.length_pos.mpr hu.1
  have hpos : pre0.length + 1 + u.length = (pre0 ++ [0x20] ++ u).length := by
    simp only [List.length_append, List.length_singleton]
  have hpost : ∃ post, join_words (u :: rest) = u ++ post ∧
      ((byteAt (pre0 ++ [0x20] ++ u ++ post) (pre0.length + 1 + u.length) = 0 ∧
          post = [] ∧ rest = []) ∨
       (byteAt (pre0 ++ [0x20] ++ u ++ post) (pre0.length + 1 + u.length) = 0x20 ∧
          ∃ v rest', rest = v :: rest' ∧ post = 0x20 :: join_words (v :: rest'))) := by
    cases rest with
    | nil =>
      refine ⟨[], by simp [join_words], Or.inl ⟨?_, rfl, rfl⟩⟩
      rw [hpos, List.append_nil]
      exact byteAt_end _
    | cons v rest' =>
      refine ⟨0x20 :: join_words (v :: rest'), by simp [join_words],
        Or.inr ⟨?_, v, rest', rfl, rfl⟩⟩
      rw [hpos]
      exact byteAt_mid _ _ _ (by decide)
  obtain ⟨post, hj, hbyte⟩ := hpost
  have hmem : pre0 ++ 0x20 :: join_words (u :: rest) = (pre0 ++ [0x20]) ++ u ++ post := by
    rw [hj]; simp
  rw [hmem]
  have hscan := wrap_scan_word i2 width u (pre0 ++ [0x20]) post
    (mid_state pre0.length bol cur ind buf) hu.2 (by simp [mid_state])
  refine wrap_reaches_run _ _ _ _ _ _ _ hscan ?_
  have hw := window_append pre0 (0x20 :: u) post (space_word_lt u hu.2)
  have e : pre0 ++ 0x20 :: u ++ post = pre0 ++ [0x20] ++ u ++ post := by simp
  rw [e, List.length_cons] at hw
  by_cases hfit : cur + 1 + u.length ≤ width
  · rcases hbyte with ⟨hb0, rfl, rfl⟩ | ⟨hb1, v, rest', rfl, rfl⟩
    · apply wrap_step_done_run
      rw [wrap_step_end_mid _ _ _ _ pre0.length rfl
        (by simp only [wrap_state.advance, mid_state]; omega)
        (by simp only [wrap_state.advance, mid_state]; exact hb0)
        (by simp only [wrap_state.advance, mid_state]; omega)]
      simp only [List.append_nil] at hw
      simp only [wrap_state.advance, mid_state, strbuf_add,
        show pre0.length + 1 + u.length - pre0.length = u.length + 1 by omega, mid_out, hfit,
        if_true, List.append_nil, hw]
    · have hstep := wrap_step_space_mid
        (pre0 ++ [0x20] ++ u ++ (0x20 :: join_words (v :: rest'))) i2 width
        ((mid_state pre0.length bol cur ind buf).advance u.length) pre0.length rfl
        (by simp only [wrap_state.advance, mid_state]; omega) hb1
      refine wrap_reaches_run _ _ _ _ _ _ _ (wrap_reaches_step _ _ _ _ _ _ hstep) ?_
      obtain ⟨n, hn⟩ := hM v rest' rfl (pre0 ++ [0x20] ++ u) (buf ++ 0x20 :: u)
        (cur + 1 + u.length) ind bol (by simp; omega)
      refine ⟨n, ?_⟩
      simp only [wrap_state.advance, mid_state, strbuf_add,
        show pre0.length + 1 + u.length - pre0.length = u.length + 1 by omega, hw]
      simp only [mid_state, List.length_append, List.length_singleton] at hn
      rw [hn]
      simp only [mid_out, hfit, if_true, List.append_assoc, List.cons_append]
  · have hbyte' : byteAt (pre0 ++ [0x20] ++ u ++ post) (pre0.length + 1 + u.length) = 0 ∨
        byteAt (pre0 ++ [0x20] ++ u ++ post) (pre0.length + 1 + u.length) = 0x20 := by
      rcases hbyte with ⟨h, _⟩ | ⟨h, _⟩
      · exact Or.inl h
      · exact Or.inr h
    have hsp : isspace (byteAt (pre0 ++ [0x20] ++ u ++ post) pre0.length) = true := by
      have h20 : byteAt (pre0 ++ [0x20] ++ u ++ post) pre0.length = 0x20 := by
        have := byteAt_mid pre0 (u ++ post) 0x20 (by decide)
        simpa using this
      rw [h20]; decide
    have hstep := wrap_step_break (pre0 ++ [0x20] ++ u ++ post) i2 width
      ((mid_state pre0.length bol cur ind buf).advance u.length) pre0.length rfl
      (by simp only [wrap_state.advance, mid_state]; omega) hbyte'
    refine wrap_reaches_run _ _ _ _ _ _ _ (wrap_reaches_step _ _ _ _ _ _ hstep) ?_
    obtain ⟨n, hn⟩ := hF (pre0 ++ [0x20]) (buf ++ [0x0a]) i2
    rw [hj, ← List.append_assoc] at hn
    refine ⟨n, ?_⟩
    simp only [wrap_new_line, wrap_state.advance, mid_state, hsp, b2n, if_true, strbuf_addch]
    simp only [fresh_state, List.length_append, List.length_singleton] at hn
    rw [hn]
    simp only [mid_out, hfit, if_false, List.append_assoc, List.cons_append, List.nil_append]

theorem wrap_sim (i2 width : Int) :
    ∀ (rest : List (List Nat)) (u : List Nat), is_word u → (∀ v ∈ rest, is_word v) →
      sim_fresh i2 width u rest ∧ sim_mid i2 width u rest := by
  intro rest
  induction rest with
  | nil =>
    intro u hu _
    have hF := wrap_sim_fresh i2 width u [] hu (fun v rest' h => by cases h)
    exact ⟨hF, wrap_sim_mid i2 width u [] hu hF (fun v rest' h => by cases h)⟩
  | cons v rest' ih =>
    intro u hu hrest
    have hv := ih v (hrest v (List.mem_cons_self _ _))
      (fun x hx => hrest x (List.mem_cons_of_mem _ hx))
    have hM : ∀ v' r', v :: rest' = v' :: r' → sim_mid i2 width v' r' := by
      intro v' r' h
      cases h
      exact hv.2
    have hF := wrap_sim_fresh i2 width u (v :: rest') hu hM
    exact ⟨hF, wrap_sim_mid i2 width u (v :: rest') hu hF hM⟩

/-! ## Greedy filling -/

theorem join_words_snoc (u : List Nat) :
    ∀ (line : List (List Nat)), line ≠ [] →
      join_words (line ++ [u]) = join_words line ++ 0x20 :: u := by
  intro line
  induction line with
  | nil => intro h; exact absurd rfl h
  | cons a line ih =>
    intro _
    cases line with
    | nil => simp [join_words]
    | cons b line =>
      have := ih (by simp)
      have e1 : join_words (a :: b :: line ++ [u]) =
          a ++ 0x20 :: join_words (b :: line ++ [u]) := rfl
      have e2 : join_words (a :: b :: line) = a ++ 0x20 :: join_words (b :: line) := rfl
      rw [e1, e2, this]
      simp

theorem fill_lines_ne_nil (i2 width : Int) :
    ∀ (rest : List (List Nat)) (ind : Int) (line : List (List Nat)) (cur : Int),
      fill_lines i2 width ind line cur rest ≠ [] := by
  intro rest
  induction rest with
  | nil => intro ind line cur; simp [fill_lines]
  | cons u rest ih =>
    intro ind line cur
    simp only [fill_lines]
    split_ifs
    · exact ih _ _ _
    · simp

theorem render_lines_cons (l : Int × List (List Nat)) (ls : List (Int × List (List Nat)))
    (h : ls ≠ []) : render_lines (l :: ls) = render_line l ++ 0x0a :: render_lines ls := by
  cases ls with
  | nil => exact absurd rfl h
  | cons l' ls => rfl

theorem fill_render (i2 width : Int) :
    ∀ (rest : List (List Nat)) (ind : Int) (line : List (List Nat)) (cur : Int), line ≠ [] →
      render_line (ind, line) ++ mid_out i2 width cur rest =
        render_lines (fill_lines i2 width ind line cur rest) := by
  intro rest
  induction rest with
  | nil => intro ind line cur _; simp [mid_out, fill_lines, render_lines]
  | cons u rest ih =>
    intro ind line cur hl
    simp only [mid_out, fill_lines]
    split_ifs with hfit
    · rw [← ih ind (line ++ [u]) _ (by simp)]
      simp only [render_line, join_words_snoc u line hl, List.append_assoc, List.cons_append]
    · rw [render_lines_cons _ _ (fill_lines_ne_nil _ _ _ _ _ _), ← ih i2 [u] _ (by simp)]
      simp only [render_line, join_words, List.append_assoc]

theorem fill_words (i2 width : Int) :
    ∀ (rest : List (List Nat)) (ind : Int) (line : List (List Nat)) (cur : Int),
      (fill_lines i2 width ind line cur rest).flatMap Prod.snd = line ++ rest := by
  intro rest
  induction rest with
  | nil => intro ind line cur; simp [fill_lines]
  | cons u rest ih =>
    intro ind line cur
    simp only [fill_lines]
    split_ifs
    · rw [ih]; simp
    · simp [ih]

theorem render_line_length_snoc (ind : Int) (line : List (List Nat)) (u : List Nat)
    (h : line ≠ []) :
    (render_line (ind, line ++ [u])).length = (render_line (ind, line)).length + 1 + u.length := by
  simp only [render_line, join_words_snoc u line h, List.length_append, List.length_cons]
  omega

theorem fill_props (i2 width : Int) (hi2 : 0 ≤ i2) :
    ∀ (rest : List (List Nat)) (ind : Int) (line : List (List Nat)) (cur : Int), line ≠ [] →
      cur = ((render_line (ind, line)).length : Int) → (cur ≤ width ∨ line.length = 1) →
      ∀ l ∈ fill_lines i2 width ind line cur rest,
        l.2 ≠ [] ∧ (((render_line l).length : Int) ≤ width ∨ l.2.length = 1) := by
  intro rest
  induction rest with
  | nil =>
    intro ind line cur hl hcur hfit l hmem
    simp only [fill_lines, List.mem_singleton] at hmem
    subst hmem
    exact ⟨hl, by rw [← hcur]; exact hfit⟩
  | cons u rest ih =>
    intro ind line cur hl hcur hfit l hmem
    simp only [fill_lines] at hmem
    split_ifs at hmem with hf
    · refine ih ind (line ++ [u]) _ (by simp) ?_ (Or.inl hf) l hmem
      rw [render_line_length_snoc ind line u hl, hcur]
      push_cast
      rfl
    · rcases List.mem_cons.mp hmem with rfl | hmem
      · exact ⟨hl, by rw [← hcur]; exact hfit⟩
      · refine ih i2 [u] _ (by simp) ?_ (Or.inr rfl) l hmem
        simp only [render_line, join_words, List.length_append, List.length_replicate]
        push_cast
        rw [Int.toNat_of_nonneg hi2]

theorem fill_indents (i2 width : Int) :
    ∀ (rest : List (List Nat)) (ind : Int) (line : List (List Nat)) (cur : Int),
      ∀ (i : Nat) (h : i < (fill_lines i2 width ind line cur rest).length),
        ((fill_lines i2 width ind line cur rest)[i]).1 = if i = 0 then ind else i2 := by
  intro rest
  induction rest with
  | nil =>
    intro ind line cur i h
    simp only [fill_lines, List.length_singleton] at h
    have : i = 0 := by omega
    subst this
    simp [fill_lines]
  | cons u rest ih =>
    intro ind line cur i h
    simp only [fill_lines] at h ⊢
    by_cases hf : cur + 1 + (u.length : Int) ≤ width
    · simp only [hf, if_true] at h ⊢
      exact ih ind _ _ i h
    · simp only [hf, if_false] at h ⊢
      cases i with
      | zero => simp
      | succ j =>
        simp only [List.getElem_cons_succ]
        rw [ih i2 _ _ j (by simpa using h)]
        simp

/-! ## The wrapping loop fills lines greedily -/

theorem wrapped_text_of_run (B mem : List Nat) (text : Nat) (i1 i2 width : Int)
    (hw : 0 < width) (X : List Nat)
    (h : ∃ n, wrap_run mem true i2 width n (wrap_init text i1 B) = .done X) :
    strbuf_add_wrapped_text B mem text i1 i2 width = some X := by
  obtain ⟨n, hn⟩ := h
  have hF : wrap_run mem true i2 width (wrap_fuel mem) (wrap_init text i1 B) = .done X := by
    rw [← hn]
    apply wrap_run_agree
    · exact wrap_run_init_ne_exhausted _ _ _ _ _ _ _
    · rw [hn]; simp
  have hnw : ¬ width ≤ 0 := by omega
  simp only [strbuf_add_wrapped_text, hnw, if_false, hF]

/-- C5: for every width > 0, indents `indent1 ≥ 0` and `indent2 ≥ 0` and every text of
printable ASCII words separated by single spaces, `strbuf_add_wrapped_text` appends
newline-separated lines that hold the words in order, each line made of its indentation
(`indent1` for the first line, `indent2` for the others) and its words separated by
single spaces, and each line, counted with its indentation, is at most `width` columns
wide unless it holds exactly one word.  Wrapping "aaaa bbbb cccc" at width 5 with indents
(0,0) appends the lines "aaaa", "bbbb", "cccc". -/
theorem strbuf_add_wrapped_text_words (B : List Nat) (words : List (List Nat))
    (indent1 indent2 width : Int) (hw : 0 < width) (h1 : 0 ≤ indent1) (h2 : 0 ≤ indent2)
    (hwords : ∀ u ∈ words, is_word u) :
    (∃ lines : List (Int × List (List Nat)),
      strbuf_add_wrapped_text B (join_words words) 0 indent1 indent2 width =
        some (B ++ render_lines lines) ∧
      lines.flatMap Prod.snd = words ∧
      (∀ l ∈ lines, l.2 ≠ [] ∧ (((render_line l).length : Int) ≤ width ∨ l.2.length = 1)) ∧
      (∀ (i : Nat) (h : i < lines.length), (lines[i]).1 = if i = 0 then indent1 else indent2)) ∧
    strbuf_add_wrapped_text []
        [0x61, 0x61, 0x61, 0x61, 0x20, 0x62, 0x62, 0x62, 0x62, 0x20, 0x63, 0x63, 0x63, 0x63]
        0 0 0 5 =
      some [0x61, 0x61, 0x61, 0x61, 0x0a, 0x62, 0x62, 0x62, 0x62, 0x0a, 0x63, 0x63, 0x63, 0x63] := by
  refine ⟨?_, by decide⟩
  have hinit : ∀ (p : Nat), wrap_init p indent1 B = fresh_state p indent1 B := by
    intro p
    simp only [wrap_init, fresh_state, if_neg (show ¬ indent1 < 0 by omega)]
  cases words with
  | nil =>
    refine ⟨[], ?_, rfl, by simp, by simp⟩
    apply wrapped_text_of_run _ _ _ _ _ _ hw
    refine ⟨1, ?_⟩
    simp [wrap_run, wrap_step, wrap_emit, hinit, fresh_state, join_words, skip_escapes,
      display_mode_esc_sequence_len, byteAt, render_lines]
  | cons u rest =>
    have hu := hwords u (List.mem_cons_self _ _)
    have hrest : ∀ v ∈ rest, is_word v := fun v hv => hwords v (List.mem_cons_of_mem _ hv)
    refine ⟨fill_lines indent2 width indent1 [u] (indent1 + u.length) rest, ?_, ?_, ?_, ?_⟩
    · apply wrapped_text_of_run _ _ _ _ _ _ hw
      obtain ⟨n, hn⟩ := (wrap_sim indent2 width rest u hu hrest).1 [] B indent1
      refine ⟨n, ?_⟩
      rw [hinit]
      simp only [List.nil_append, List.length_nil] at hn
      rw [hn, ← fill_render indent2 width rest indent1 [u] _ (by simp)]
      simp only [render_line, join_words, List.append_assoc]
    · simpa using fill_words indent2 width rest indent1 [u] (indent1 + u.length)
    · apply fill_props indent2 width h2 rest indent1 [u] _ (by simp) _ (Or.inr rfl)
      simp only [render_line, join_words, List.length_append, List.length_replicate]
      push_cast
      rw [Int.toNat_of_nonneg h1]
    · exact fill_indents indent2 width rest indent1 [u] _

theorem strbuf_add_wrapped_text_words_witness :
    ∃ lines : List (Int × List (List Nat)),
      strbuf_add_wrapped_text [0x3e] (join_words [[0x61, 0x62], [0x63], [0x64, 0x65, 0x66, 0x67]])
          0 1 2 4 = some ([0x3e] ++ render_lines lines) ∧
      lines.flatMap Prod.snd = [[0x61, 0x62], [0x63], [0x64, 0x65, 0x66, 0x67]] ∧
      (∀ l ∈ lines, l.2 ≠ [] ∧ (((render_line l).length : Int) ≤ 4 ∨ l.2.length = 1)) ∧
      (∀ (i : Nat) (h : i < lines.length), (lines[i]).1 = if i = 0 then 1 else 2) :=
  (strbuf_add_wrapped_text_words [0x3e] [[0x61, 0x62], [0x63], [0x64, 0x65, 0x66, 0x67]] 1 2 4
    (by decide) (by decide) (by decide) (by decide)).1

/-! ## Escape sequences and characters inside a buffer -/

theorem takeWhile_params (p : Nat → Bool) (params post : List Nat) (b : Nat)
    (h : ∀ c ∈ params, p c = true) (hb : p b = false) :
    (params ++ b :: post).takeWhile p = params := by
  induction params with
  | nil => simp [List.takeWhile, hb]
  | cons c params ih =>
    rw [List.cons_append, List.takeWhile_cons, if_pos (h c (List.mem_cons_self _ _)),
      ih (fun d hd => h d (List.mem_cons_of_mem _ hd))]

theorem esc_bytes_lt (params : List Nat) (h : (item.esc params).wf) :
    ∀ b ∈ (item.esc params).bytes, b < 256 := by
  intro b hb
  simp only [item.bytes, List.mem_cons, List.mem_append, List.mem_singleton,
    List.not_mem_nil, or_false] at hb
  rcases hb with rfl | rfl | hb | rfl
  · decide
  · decide
  · rcases h b hb with hd | rfl
    · simp only [isdigit, decide_eq_true_eq] at hd; omega
    · decide
  · decide

theorem esc_len_item (pre post params : List Nat) (h : (item.esc params).wf) :
    display_mode_esc_sequence_len (pre ++ (item.esc params).bytes ++ post) pre.length =
      (item.esc params).bytes.length := by
  have hlt := esc_bytes_lt params h
  have b0 : byteAt (pre ++ (item.esc params).bytes ++ post) pre.length = 0x1b := by
    have := byteAt_mid pre (0x5b :: (params ++ [0x6d]) ++ post) 0x1b (by decide)
    simpa [item.bytes] using this
  have b1 : byteAt (pre ++ (item.esc params).bytes ++ post) (pre.length + 1) = 0x5b := by
    have := byteAt_mid (pre ++ [0x1b]) ((params ++ [0x6d]) ++ post) 0x5b (by decide)
    simpa [item.bytes] using this
  have hdrop : (pre ++ (item.esc params).bytes ++ post).drop (pre.length + 2) =
      params ++ 0x6d :: post := by
    have e : pre ++ (item.esc params).bytes ++ post =
        (pre ++ [0x1b, 0x5b]) ++ (params ++ 0x6d :: post) := by
      simp [item.bytes]
    rw [e]
    exact List.drop_left' (by simp)
  have hskip : skip_digits (pre ++ (item.esc params).bytes ++ post) (pre.length + 2) =
      params.length := by
    unfold skip_digits
    rw [hdrop, takeWhile_params _ params post 0x6d _ (by decide)]
    intro c hc
    have hc256 : c < 256 := hlt c (by simp [item.bytes, hc])
    rw [Nat.mod_eq_of_lt hc256]
    rcases h c hc with hd | rfl
    · simp [hd]
    · decide
  have b2 : byteAt (pre ++ (item.esc params).bytes ++ post) (pre.length + 2 + params.length) =
      0x6d := by
    have hp : pre.length + 2 + params.length = (pre ++ [0x1b, 0x5b] ++ params).length := by
      simp only [List.length_append, List.length_cons, List.length_nil]
    have e : pre ++ (item.esc params).bytes ++ post =
        (pre ++ [0x1b, 0x5b] ++ params) ++ 0x6d :: post := by
      simp [item.bytes]
    rw [hp, e]
    exact byteAt_mid _ _ _ (by decide)
  have hlen : (item.esc params).bytes.length = params.length + 3 := by
    simp [item.bytes]
  unfold display_mode_esc_sequence_len
  rw [if_neg (by rw [b0]; simp), if_neg (by rw [b1]; simp)]
  simp only [hskip]
  rw [if_neg (by rw [b2]; simp), hlen]
  omega

theorem utf8_encode_head (cp : Nat) (hd : decodable cp) (hne : cp ≠ 0x1b) :
    ∃ b tl, utf8_encode cp = b :: tl ∧ b ≠ 0x1b ∧ b < 256 := by
  have := hd.1.1
  unfold utf8_encode
  split_ifs
  · exact ⟨_, _, rfl, hne, by omega⟩
  · exact ⟨_, _, rfl, by omega, by omega⟩
  · exact ⟨_, _, rfl, by omega, by omega⟩
  · exact ⟨_, _, rfl, by omega, by omega⟩

theorem copy_escapes_fuel (mem : List Nat) :
    ∀ (fuel src : Nat) (dst : List Nat), mem.length < src + fuel →
      copy_escapes mem (fuel + 1) src dst = copy_escapes mem fuel src dst := by
  intro fuel
  induction fuel with
  | zero =>
    intro src dst h
    have : display_mode_esc_sequence_len mem src = 0 := by
      by_contra hne
      have := (esc_len_bounds mem src hne).2
      omega
    simp [copy_escapes, this]
  | succ fuel ih =>
    intro src dst h
    rw [copy_escapes]
    conv_rhs => rw [copy_escapes]
    split_ifs with hn
    · have := esc_len_bounds mem src hn
      exact ih _ _ (by omega)
    · rfl

theorem item_bytes_ne_nil (it : item) : it.bytes ≠ [] := by
  cases it with
  | esc p => simp [item.bytes]
  | chr cp =>
    have := (utf8_encode_length cp).1
    intro h
    simp only [item.bytes] at h
    rw [h] at this
    simp at this

theorem render_items_cons (it : item) (rest : List item) :
    render_items (it :: rest) = it.bytes ++ render_items rest := by
  simp [render_items]

theorem render_items_length_pos (items : List item) (h : items ≠ []) :
    0 < (render_items items).length := by
  cases items with
  | nil => exact absurd rfl h
  | cons it rest =>
    rw [render_items_cons, List.length_append]
    have := List.length_pos.mpr (item_bytes_ne_nil it)
    omega

/-! ## Column substitution on buffers of characters and escape sequences -/

theorem ends_with_esc_cons (it : item) (rest : List item) (h : ends_with_esc rest) :
    ends_with_esc (it :: rest) := by
  obtain ⟨p, hp⟩ := h
  cases rest with
  | nil => simp at hp
  | cons a rest => exact ⟨p, by rw [List.getLast?_cons_cons]; exact hp⟩

theorem replace_loop_congr (mem : List Nat) (stop : Nat) (pos width : Int) (fuel : Nat)
    (s1 s2 : replace_state) (h1 : s1.src < stop) (h2 : s2.src < stop)
    (he : copy_escapes mem (mem.length + 1) s1.src s1.dst =
      copy_escapes mem (mem.length + 1) s2.src s2.dst)
    (hw : s1.w = s2.w) (hs : s1.subst = s2.subst) :
    replace_loop mem stop pos width (fuel + 1) s1 =
      replace_loop mem stop pos width (fuel + 1) s2 := by
  simp only [replace_loop, h1, h2, if_true, he, hw, hs]

/-- C7 (as stated, refuted): the ideograph U+4E2D is two columns wide and occupies the
columns 0 and 1; asked to replace column 1 (`pos = 1`, `width = 1`) by ".", the code
leaves the buffer E4 B8 AD as it is, whereas removing the characters that occupy a column
in `[1, 2)` and inserting the literal gives ".". -/
theorem strbuf_utf8_replace_straddle :
    (∀ it ∈ [item.chr 0x4E2D], it.wf) ∧ git_wcwidth 0x4E2D = 2 ∧
    render_items [item.chr 0x4E2D] = [0xE4, 0xB8, 0xAD] ∧
    strbuf_utf8_replace [0xE4, 0xB8, 0xAD] 1 1 (some [0x2e]) = some [0xE4, 0xB8, 0xAD] ∧
    replace_claimed 1 1 0 (some [0x2e]) [item.chr 0x4E2D] = [0x2e] := by
  decide

/-- The buffer `ESC [ m`, which ends with an escape sequence: with nothing to replace,
`strbuf_utf8_replace` leaves it one NUL byte longer. -/
theorem strbuf_utf8_replace_trailing_escape :
    strbuf_utf8_replace (render_items [.esc []]) 0 0 none = some [0x1b, 0x5b, 0x6d, 0] := by
  decide

/-! ## The fuel given to the loops is never used up -/

theorem bisearch_loop_total (ucs : Nat) (table : List interval) :
    ∀ (fuel : Nat) (min max : Int), 0 ≤ min → (max - min + 1).toNat < fuel →
      bisearch_loop ucs table fuel min max ≠ none := by
  intro fuel
  induction fuel with
  | zero => intro min max _ h; omega
  | succ fuel ih =>
    intro min max hmin hf
    unfold bisearch_loop
    by_cases hc : max ≥ min
    · simp only [hc, if_true]
      have hmid : Int.tdiv (min + max) 2 = (min + max) / 2 :=
        Int.tdiv_eq_ediv (by omega) (by omega)
      rw [hmid]
      split_ifs
      · exact ih _ _ (by omega) (by omega)
      · exact ih _ _ hmin (by omega)
      · simp
    · simp [hc]

theorem bisearch_total (ucs : Nat) (table : List interval) (max : Int) :
    bisearch_loop ucs table (max.toNat + 2) 0 max ≠ none :=
  bisearch_loop_total ucs table _ 0 max (Int.le_refl 0) (by omega)

theorem decode_all_mono (mem : List Nat) (k : Nat) :
    ∀ (fuel start remainder : Nat), remainder ≤ fuel →
      decode_all mem (fuel + k) start remainder = decode_all mem fuel start remainder := by
  intro fuel
  induction fuel with
  | zero =>
    intro start remainder h
    have : remainder = 0 := by omega
    subst this
    cases k <;> simp [decode_all]
  | succ fuel ih =>
    intro start remainder h
    rw [show fuel + 1 + k = (fuel + k) + 1 by omega]
    simp only [decode_all]
    split_ifs with hr
    · rfl
    · cases hs : (pick_one_utf8_char mem start (some remainder)).start with
      | none => rfl
      | some s' =>
        obtain ⟨cp, _, hlen, _, he⟩ := pick_sound mem start (some remainder) s' hs
        have h1 := (utf8_encode_length cp).1
        simp only [budget] at hlen
        rw [he]
        simp only [Option.map, budget]
        rw [ih _ _ (by omega)]

theorem decode_all_fuel (mem : List Nat) (fuel start remainder : Nat) (h : remainder ≤ fuel) :
    decode_all mem fuel start remainder = decode_all mem remainder start remainder := by
  obtain ⟨k, rfl⟩ := Nat.exists_eq_add_of_le h
  exact decode_all_mono mem k remainder start remainder (Nat.le_refl _)

theorem strnwidth_loop_total (mem : List Nat) (orig : Nat) (len : Int) (skip_ansi : Bool) :
    ∀ (fuel : Nat) (string : Option Nat) (width : Int),
      (∀ s, string = some s → ((orig : Int) + len - s).toNat + 2 ≤ fuel) → 1 ≤ fuel →
      strnwidth_loop mem orig len skip_ansi fuel string width ≠ none := by
  intro fuel
  induction fuel with
  | zero => intro string width _ h; omega
  | succ fuel ih =>
    intro string width hf _
    cases string with
    | none => simp [strnwidth_loop]
    | some s =>
      simp only [strnwidth_loop]
      have hf' := hf s rfl
      split_ifs with hlt
      · apply ih
        · intro s' hs'
          rw [utf8_width_start] at hs'
          have h1 := pick_advances _ _ _ _ hs'
          have h2 := skipped_ge mem skip_ansi s
          omega
        · omega
      · simp

theorem utf8_strnwidth_total (mem : List Nat) (string : Nat) (len : Int) (skip_ansi : Bool) :
    ∃ v, utf8_strnwidth mem string len skip_ansi = some v := by
  have h := strnwidth_loop_total mem string (effective_len mem string len) skip_ansi
    ((effective_len mem string len).toNat + 2) (some string) 0
    (fun s hs => by cases hs; omega) (by omega)
  unfold effective_len at h
  simp only [utf8_strnwidth]
  cases hr : strnwidth_loop mem string (if len = -1 then (strlen mem string : Int) else len)
      skip_ansi ((if len = -1 then (strlen mem string : Int) else len).toNat + 2)
      (some string) 0 with
  | none => exact absurd hr h
  | some r =>
    obtain ⟨s, w⟩ := r
    cases s with
    | none => exact ⟨_, rfl⟩
    | some s => exact ⟨_, rfl⟩

theorem replace_loop_total (mem : List Nat) (stop : Nat) (pos width : Int) :
    ∀ (fuel : Nat) (s : replace_state), stop - s.src + 1 ≤ fuel →
      replace_loop mem stop pos width fuel s ≠ .exhausted := by
  intro fuel
  induction fuel with
  | zero => intro s h; omega
  | succ fuel ih =>
    intro s hf
    by_cases hlt : s.src < stop
    · simp only [replace_loop, hlt, if_true, utf8_width_start, copy_escapes_fst]
      cases hp : (pick_one_utf8_char mem (skip_escapes mem (mem.length + 1) s.src) none).start with
      | none => simp
      | some src' =>
        have h1 := pick_advances _ _ _ _ hp
        have h2 := skip_escapes_ge mem (mem.length + 1) s.src
        simp only
        split_ifs
        · exact ih _ (by simp only; omega)
        · exact ih _ (by simp only; omega)
    · simp [replace_loop, hlt]

theorem strbuf_utf8_replace_total (sb : List Nat) (pos width : Int)
    (subst : Option (List Nat)) : ∃ v, strbuf_utf8_replace sb pos width subst = some v := by
  simp only [strbuf_utf8_replace]
  cases hr : replace_loop sb sb.length pos width (sb.length + 1)
      { src := 0, dst := [], w := 0, subst := subst.map (fun m => window m 0 (strlen m 0)) } with
  | done dst => exact ⟨_, rfl⟩
  | broken => exact ⟨_, rfl⟩
  | exhausted => exact absurd hr (replace_loop_total _ _ _ _ _ _ (by simp))

theorem takeWhile_stop (p : Nat → Bool) :
    ∀ (l : List Nat), (l.takeWhile p).length ≤ l.length ∧
      ∀ (h : (l.takeWhile p).length < l.length), p (l[(l.takeWhile p).length]) = false := by
  intro l
  induction l with
  | nil => exact ⟨Nat.le_refl _, fun h => absurd h (by simp)⟩
  | cons a l ih =>
    by_cases ha : p a = true
    · simp only [List.takeWhile_cons, ha, if_true, List.length_cons, List.getElem_cons_succ]
      exact ⟨by omega, fun h => ih.2 (by omega)⟩
    · have hf : p a = false := by simpa using ha
      simp only [List.takeWhile_cons, hf, Bool.false_eq_true, if_false, List.length_nil,
        List.length_cons, List.getElem_cons_zero]
      exact ⟨by omega, fun _ => trivial⟩

theorem strchrnul_nl_spec (mem : List Nat) (text : Nat) (h : text ≤ mem.length) :
    text + strchrnul_nl mem text ≤ mem.length ∧
      (byteAt mem (text + strchrnul_nl mem text) = 0x0a ∨
       byteAt mem (text + strchrnul_nl mem text) = 0) := by
  obtain ⟨h1, h2⟩ := takeWhile_stop (fun b => b % 256 != 0x0a && b % 256 != 0) (mem.drop text)
  have hl : (mem.drop text).length = mem.length - text := List.length_drop _ _
  unfold strchrnul_nl
  refine ⟨by omega, ?_⟩
  by_cases hlt : ((mem.drop text).takeWhile
      (fun b => b % 256 != 0x0a && b % 256 != 0)).length < (mem.drop text).length
  · have h3 := h2 hlt
    have hb : byteAt mem (text + ((mem.drop text).takeWhile
        (fun b => b % 256 != 0x0a && b % 256 != 0)).length) =
        (mem.drop text)[((mem.drop text).takeWhile
          (fun b => b % 256 != 0x0a && b % 256 != 0)).length] % 256 := by
      unfold byteAt
      rw [List.getD_eq_getElem _ _ (by omega), List.getElem_drop]
    rw [hb]
    simp only [Bool.and_eq_false_iff, bne_eq_false_iff_eq] at h3
    exact h3
  · right
    unfold byteAt
    rw [List.getD_eq_default _ _ (by omega)]

theorem add_indented_loop_total (mem : List Nat) (indent2 : Int) :
    ∀ (fuel text : Nat) (indent : Int) (buf : List Nat), mem.length < text + fuel → 0 < fuel →
      add_indented_loop mem indent2 fuel text indent buf ≠ none := by
  intro fuel
  induction fuel with
  | zero => intro text indent buf _ h; omega
  | succ fuel ih =>
    intro text indent buf hf _
    simp only [add_indented_loop]
    split_ifs with h0 hnl
    · simp
    · have htl := byteAt_ne_zero_lt mem text h0
      obtain ⟨h1, _⟩ := strchrnul_nl_spec mem text (Nat.le_of_lt htl)
      have h2 := byteAt_ne_zero_lt mem _ (show byteAt mem (text + strchrnul_nl mem text) ≠ 0 by
        rw [hnl]; decide)
      exact ih _ _ _ (by omega) (by omega)
    · have htl := byteAt_ne_zero_lt mem text h0
      obtain ⟨h1, h3⟩ := strchrnul_nl_spec mem text (Nat.le_of_lt htl)
      have hz : byteAt mem (text + strchrnul_nl mem text) = 0 := by
        rcases h3 with h3 | h3
        · exact absurd h3 hnl
        · exact h3
      have hk : strchrnul_nl mem text ≠ 0 := by
        intro hk
        rw [hk, Nat.add_zero] at hz
        exact h0 hz
      exact ih _ _ _ (by omega) (by omega)

theorem strbuf_add_indented_text_total (buf mem : List Nat) (text : Nat) (indent indent2 : Int) :
    ∃ v, strbuf_add_indented_text buf mem text indent indent2 = some v := by
  unfold strbuf_add_indented_text
  cases h : add_indented_loop mem indent2 (mem.length + 1) text
      (if indent < 0 then 0 else indent) buf with
  | none => exact absurd h (add_indented_loop_total mem indent2 _ _ _ _ (by omega) (by omega))
  | some v => exact ⟨v, rfl⟩

theorem strbuf_add_wrapped_text_total (buf mem : List Nat) (text : Nat)
    (indent1 indent2 width : Int) :
    ∃ v, strbuf_add_wrapped_text buf mem text indent1 indent2 width = some v := by
  by_cases hw : 0 < width
  · obtain ⟨out, h⟩ := wrapped_text_appends buf mem text indent1 indent2 width hw
    exact ⟨_, h⟩
  · have hnw : width ≤ 0 := by omega
    simp only [strbuf_add_wrapped_text, hnw, if_true]
    exact strbuf_add_indented_text_total buf mem text indent1 indent2

/-! ## The form of an escape sequence -/

theorem takeWhile_run (p : Nat → Bool) :
    ∀ (l : List Nat) (i : Nat), i < (l.takeWhile p).length → p (l.getD i 0) = true := by
  intro l
  induction l with
  | nil => intro i h; simp at h
  | cons a l ih =>
    intro i h
    rw [List.takeWhile_cons] at h
    by_cases ha : p a = true
    · rw [if_pos ha] at h
      cases i with
      | zero => simpa using ha
      | succ i =>
        have := ih i (by simpa using h)
        simpa using this
    · rw [if_neg ha] at h
      simp at h

theorem byteAt_drop (mem : List Nat) (p i : Nat) :
    (mem.drop p).getD i 0 % 256 = byteAt mem (p + i) := by
  simp [byteAt, List.getD_eq_getElem?_getD, List.getElem?_drop]

theorem skip_digits_run (mem : List Nat) (p i : Nat) (h : i < skip_digits mem p) :
    is_param (byteAt mem (p + i)) = true := by
  have := takeWhile_run (fun b => isdigit (b % 256) || b % 256 == 0x3b) (mem.drop p) i h
  rw [← byteAt_drop]
  exact this

theorem skip_digits_stop (mem : List Nat) (p : Nat) :
    is_param (byteAt mem (p + skip_digits mem p)) = false := by
  have h := takeWhile_stop (fun b => isdigit (b % 256) || b % 256 == 0x3b) (mem.drop p)
  rw [← byteAt_drop]
  by_cases hl : skip_digits mem p < (mem.drop p).length
  · have h2 := h.2 hl
    rw [List.getD_eq_getElem _ _ hl]
    exact h2
  · have : (mem.drop p).length ≤ skip_digits mem p := by omega
    rw [List.getD_eq_default _ _ this]
    decide

theorem skip_digits_unique (mem : List Nat) (p k : Nat)
    (hrun : ∀ i, i < k → is_param (byteAt mem (p + i)) = true)
    (hstop : is_param (byteAt mem (p + k)) = false) : skip_digits mem p = k := by
  rcases Nat.lt_trichotomy (skip_digits mem p) k with h | h | h
  · have := hrun _ h
    rw [skip_digits_stop] at this
    cases this
  · exact h
  · have := skip_digits_run mem p k h
    rw [hstop] at this
    cases this

theorem esc_len_of_form (mem : List Nat) (s k : Nat) (h : esc_form mem s k) :
    display_mode_esc_sequence_len mem s = k + 3 := by
  obtain ⟨h0, h1, hrun, hm⟩ := h
  have hk : skip_digits mem (s + 2) = k :=
    skip_digits_unique mem (s + 2) k hrun (by rw [hm]; decide)
  unfold display_mode_esc_sequence_len
  rw [if_neg (by simp [h0]), if_neg (by simp [h1])]
  simp only [hk]
  rw [if_neg (by simp [hm])]
  omega

theorem esc_form_of_len (mem : List Nat) (s : Nat)
    (h : display_mode_esc_sequence_len mem s ≠ 0) :
    esc_form mem s (skip_digits mem (s + 2)) ∧
      display_mode_esc_sequence_len mem s = skip_digits mem (s + 2) + 3 := by
  unfold display_mode_esc_sequence_len at h
  by_cases h0 : byteAt mem s = 0x1b
  · by_cases h1 : byteAt mem (s + 1) = 0x5b
    · by_cases hm : byteAt mem (s + 2 + skip_digits mem (s + 2)) = 0x6d
      · have hf : esc_form mem s (skip_digits mem (s + 2)) :=
          ⟨h0, h1, fun i hi => skip_digits_run mem (s + 2) i hi, hm⟩
        exact ⟨hf, esc_len_of_form mem s _ hf⟩
      · rw [if_neg (by simp [h0]), if_neg (by simp [h1])] at h
        simp only [hm, ne_eq, not_false_eq_true, if_true, not_true_eq_false] at h
    · rw [if_neg (by simp [h0]), if_pos h1] at h
      exact absurd rfl h
  · rw [if_pos h0] at h
    exact absurd rfl h

/-- C13: `display_mode_esc_sequence_len(s)` returns `k + 3` when the string at `s` begins
with ESC, `[`, then `k ≥ 0` bytes each an ASCII digit or `;`, then `m`; it returns 0 in
every other case, and it returns 0 exactly when the first byte is not ESC, or the second is
not `[`, or the first byte behind the run of digits and `;` is not `m`. -/
theorem display_mode_esc_sequence_len_form (mem : List Nat) (s : Nat) :
    (∀ k, esc_form mem s k → display_mode_esc_sequence_len mem s = k + 3) ∧
    ((¬ ∃ k, esc_form mem s k) → display_mode_esc_sequence_len mem s = 0) ∧
    (display_mode_esc_sequence_len mem s = 0 ↔
      (byteAt mem s ≠ 0x1b ∨ byteAt mem (s + 1) ≠ 0x5b ∨
        ∃ k, (∀ i, i < k → is_param (byteAt mem (s + 2 + i)) = true) ∧
          is_param (byteAt mem (s + 2 + k)) = false ∧ byteAt mem (s + 2 + k) ≠ 0x6d)) := by
  refine ⟨fun k h => esc_len_of_form mem s k h, ?_, ?_⟩
  · intro hno
    by_contra hne
    exact hno ⟨_, (esc_form_of_len mem s hne).1⟩
  · constructor
    · intro hz
      by_cases h0 : byteAt mem s = 0x1b
      · by_cases h1 : byteAt mem (s + 1) = 0x5b
        · refine Or.inr (Or.inr ⟨skip_digits mem (s + 2),
            fun i hi => skip_digits_run mem (s + 2) i hi, skip_digits_stop mem (s + 2), ?_⟩)
          intro hm
          have := esc_len_of_form mem s _
            ⟨h0, h1, fun i hi => skip_digits_run mem (s + 2) i hi, hm⟩
          omega
        · exact Or.inr (Or.inl h1)
      · exact Or.inl h0
    · intro h
      by_contra hne
      obtain ⟨⟨h0, h1, hrun, hm⟩, _⟩ := esc_form_of_len mem s hne
      rcases h with h | h | ⟨k, hk, hs, hkm⟩
      · exact h h0
      · exact h h1
      · have := skip_digits_unique mem (s + 2) k hk hs
        rw [this] at hm
        exact hkm hm

theorem display_mode_esc_sequence_len_form_witness :
    display_mode_esc_sequence_len [0x1b, 0x5b, 0x33, 0x31, 0x3b, 0x31, 0x6d, 0x41] 0 = 4 + 3 ∧
    display_mode_esc_sequence_len [0x1b, 0x5b, 0x33, 0x31, 0x41] 0 = 0 :=
  ⟨(display_mode_esc_sequence_len_form [0x1b, 0x5b, 0x33, 0x31, 0x3b, 0x31, 0x6d, 0x41] 0).1 4
      (by decide),
   (display_mode_esc_sequence_len_form [0x1b, 0x5b, 0x33, 0x31, 0x41] 0).2.2.2
      (Or.inr (Or.inr ⟨2, by decide, by decide, by decide⟩))⟩

/-! ## The interval-table invariant and the binary search -/

theorem table_invariant_lt (table : List interval) (h : table_invariant table) (i : Nat) :
    ∀ j : Nat, i < j → j < table.length →
      (tableAt table i).last < (tableAt table j).first := by
  intro j
  induction j with
  | zero => intro h; omega
  | succ j ih =>
    intro hij hj
    by_cases e : i = j
    · subst e; exact h.2 i (by omega)
    · have h1 := ih (by omega) (by omega)
      have h2 := h.1 j (by omega)
      have h3 := h.2 j (by omega)
      omega

theorem usorted_of_invariant (table : List interval) (hn : entries_nonneg table)
    (h : table_invariant table) : usorted table := by
  have hu : ∀ i : Nat, i < table.length →
      (ufirst table i : Int) = (tableAt table i).first ∧
      (ulast table i : Int) = (tableAt table i).last := by
    intro i hi
    have hm := hn _ (tableAt_mem table i hi)
    exact ⟨toUnsigned_of_nonneg _ hm.1.1 hm.1.2, toUnsigned_of_nonneg _ hm.2.1 hm.2.2⟩
  constructor
  · intro i hi
    have := hu i hi
    have := h.1 i hi
    omega
  · intro i hi
    have h1 := hu i (by omega)
    have h2 := hu (i + 1) (by omega)
    have := h.2 i hi
    omega

/-- C19: the zero-width table `combining` of `git_wcwidth` satisfies the interval-table
invariant (every entry has `first ≤ last`, adjacent entries have
`table[i].last < table[i+1].first`); so it is sorted ascending by `first` and any two of
its intervals are disjoint. -/
theorem combining_table_invariant :
    table_invariant combining ∧
    (∀ i j : Nat, i < j → j < combining.length →
      (tableAt combining i).first < (tableAt combining j).first ∧
      ¬ ∃ x : Int, ((tableAt combining i).first ≤ x ∧ x ≤ (tableAt combining i).last) ∧
        ((tableAt combining j).first ≤ x ∧ x ≤ (tableAt combining j).last)) := by
  have hinv : table_invariant combining := by decide
  refine ⟨hinv, ?_⟩
  intro i j hij hj
  have h1 := table_invariant_lt combining hinv i j hij hj
  have h2 := hinv.1 i (by omega)
  refine ⟨by omega, ?_⟩
  rintro ⟨x, ⟨_, hx1⟩, ⟨hx2, _⟩⟩
  omega

theorem combining_table_invariant_witness :
    (tableAt combining (0 : Nat)).first < (tableAt combining (1 : Nat)).first ∧
    ¬ ∃ x : Int, ((tableAt combining (0 : Nat)).first ≤ x ∧
        x ≤ (tableAt combining (0 : Nat)).last) ∧
      ((tableAt combining (1 : Nat)).first ≤ x ∧ x ≤ (tableAt combining (1 : Nat)).last) :=
  combining_table_invariant.2 0 1 (by decide) (by decide)

/-- C18: for every non-empty table of code-point intervals (the `int` fields are not
negative) that satisfies the interval-table invariant, and every code point, the loop of
`bisearch` ends within the rounds it is given, and `bisearch` returns 1 if and only if
some interval of the table contains the code point, and 0 otherwise; hence `git_wcwidth`
is 0 for every code point of the zero-width table that is not a control character. -/
theorem bisearch_correct (table : List interval) (ucs : Nat) (hne : table ≠ [])
    (hn : entries_nonneg table) (hs : table_invariant table) :
    bisearch_loop ucs table (((table.length : Int) - 1).toNat + 2) 0
        ((table.length : Int) - 1) ≠ none ∧
    (bisearch ucs table ((table.length : Int) - 1) = 1 ↔ in_intervals table ucs) ∧
    (bisearch ucs table ((table.length : Int) - 1) = 0 ↔ ¬ in_intervals table ucs) ∧
    (∀ ch, ¬ is_control ch → in_intervals combining ch → git_wcwidth ch = 0) := by
  have hlen : 0 < table.length := List.length_pos.mpr hne
  have hsp := bisearch_spec ucs table hlen (usorted_of_invariant table hn hs)
  rw [← in_table_iff table hn ucs]
  refine ⟨bisearch_total ucs table _, ?_, ?_, ?_⟩
  · constructor
    · intro h
      by_contra hc
      rw [hsp.2 hc] at h
      omega
    · exact hsp.1
  · constructor
    · intro h hc
      rw [hsp.1 hc] at h
      omega
    · exact hsp.2
  · intro ch _ ht
    have := in_combining_ge ch ht
    rw [git_wcwidth_eq, if_neg (by omega), if_neg (by omega), if_pos ht]

theorem bisearch_correct_witness :
    bisearch 0x41 [iv 0x30 0x39, iv 0x41 0x5a, iv 0x61 0x7a] ((3 : Nat) - 1 : Int) = 1 ∧
    bisearch 0x40 [iv 0x30 0x39, iv 0x41 0x5a, iv 0x61 0x7a] ((3 : Nat) - 1 : Int) = 0 ∧
    git_wcwidth 0x301 = 0 :=
  ⟨(bisearch_correct [iv 0x30 0x39, iv 0x41 0x5a, iv 0x61 0x7a] 0x41 (by decide) (by decide)
      (by decide)).2.1.2 (by decide),
   (bisearch_correct [iv 0x30 0x39, iv 0x41 0x5a, iv 0x61 0x7a] 0x40 (by decide) (by decide)
      (by decide)).2.2.1.2 (by decide),
   (bisearch_correct [iv 0x30 0x39, iv 0x41 0x5a, iv 0x61 0x7a] 0x40 (by decide) (by decide)
      (by decide)).2.2.2 0x301 (by decide) (by decide)⟩

/-! ## Column substitution on the literal case of the spec -/

/-- C16 (as stated, refuted): with `pos = 2`, `width = 2` and the literal "..", the buffer
E4 B8 AD E6 96 87 61 62 (two ideographs of width 2, then "ab") does not become
2E 2E E6 96 87 61 62 (the literal, the second ideograph, "ab"). -/
theorem strbuf_utf8_replace_ideographs_claimed :
    strbuf_utf8_replace [0xE4, 0xB8, 0xAD, 0xE6, 0x96, 0x87, 0x61, 0x62] 2 2
        (some [0x2e, 0x2e]) ≠
      some [0x2e, 0x2e, 0xE6, 0x96, 0x87, 0x61, 0x62] := by
  decide

/-- C16 (amended): with `pos = 2`, `width = 2` and the literal "..", the buffer
E4 B8 AD E6 96 87 61 62 becomes E4 B8 AD 2E 2E 61 62: the first ideograph (columns 0 and
1) is kept, the second ideograph (columns 2 and 3) is replaced by the literal, and "ab"
is kept. -/
theorem strbuf_utf8_replace_ideographs :
    strbuf_utf8_replace [0xE4, 0xB8, 0xAD, 0xE6, 0x96, 0x87, 0x61, 0x62] 2 2
        (some [0x2e, 0x2e]) =
      some [0xE4, 0xB8, 0xAD, 0x2e, 0x2e, 0x61, 0x62] := by
  decide

/-! ## `mbs_chrlen` -/

theorem is_encoding_utf8_iff (encoding : Option (List Nat)) :
    is_encoding_utf8 encoding = true ↔
      (encoding = none ∨ ∃ n, encoding = some n ∧ names_utf8 n) := by
  cases encoding with
  | none => simp [is_encoding_utf8]
  | some n =>
    simp only [is_encoding_utf8, strcasecmp_eq, names_utf8, c_string, Bool.or_eq_true,
      beq_iff_eq, Option.some.injEq, exists_eq_left', false_or]
    have e1 : List.map tolower [0x75, 0x74, 0x66, 0x2d, 0x38] = [0x75, 0x74, 0x66, 0x2d, 0x38] := by
      decide
    have e2 : List.map tolower [0x75, 0x74, 0x66, 0x38] = [0x75, 0x74, 0x66, 0x38] := by decide
    rw [e1, e2]
    simp

theorem mbs_chrlen_le (mem : List Nat) (text r : Nat) (encoding : Option (List Nat))
    (hr : 0 < r) :
    ∃ n : Nat, mbs_chrlen mem text (some r) encoding = ((n : Int), text + n, some (r - n)) ∧
      1 ≤ n ∧ n ≤ r ∧ n ≤ 4 ∧
      (is_encoding_utf8 encoding = true →
        ∀ p, (pick_one_utf8_char mem text (some r)).start = some p → text + n = p) ∧
      (is_encoding_utf8 encoding = true →
        (pick_one_utf8_char mem text (some r)).start = none → n = 1) ∧
      (is_encoding_utf8 encoding = false → n = 1) := by
  unfold mbs_chrlen
  simp only
  rw [if_neg (by omega)]
  by_cases he : is_encoding_utf8 encoding = true
  · rw [if_pos he]
    cases hp : (pick_one_utf8_char mem text (some r)).start with
    | none =>
      refine ⟨1, by simp, le_refl _, hr, by omega, ?_, ?_, ?_⟩
      · intro _ p h; cases h
      · intro _ _; rfl
      · intro h; rw [he] at h
    | some p =>
      obtain ⟨cp, _, hlen, _, heq⟩ := pick_sound mem text (some r) p hp
      have hp2 : p = text + (utf8_encode cp).length := by
        rw [heq] at hp
        simpa using hp.symm
      have hl := utf8_encode_length cp
      simp only [budget] at hlen
      refine ⟨(utf8_encode cp).length, ?_, hl.1, hlen, hl.2, ?_, ?_, ?_⟩
      · simp [hp2]
      · intro _ q hq
        cases hq
        exact hp2.symm
      · intro _ h; cases h
      · intro h; rw [he] at h; cases h
  · rw [if_neg he]
    refine ⟨1, by simp, le_refl _, hr, by omega, ?_, ?_, ?_⟩
    · intro h; exact absurd h he
    · intro h; exact absurd h he
    · intro _; rfl

/-- C17: `mbs_chrlen` returns 0 and changes neither the cursor nor the count when the count
`r` is 0; otherwise it returns `n` with `1 ≤ n ≤ min(r, 4)`, where `n` is the number of
bytes the decoder consumes when the encoding is UTF-8 and the first character decodes,
and `n = 1` when the decode fails or the encoding is anything else; the cursor advances
by exactly `n` and the count is reduced by exactly `n`.  The encoding is UTF-8 exactly
when its name is null or spells `utf-8` or `utf8` in any letter case. -/
theorem mbs_chrlen_contract (mem : List Nat) (text r : Nat) (encoding : Option (List Nat)) :
    (is_encoding_utf8 encoding = true ↔
      (encoding = none ∨ ∃ n, encoding = some n ∧ names_utf8 n)) ∧
    (r = 0 → mbs_chrlen mem text (some r) encoding = (0, text, some r)) ∧
    (0 < r →
      ∃ n : Nat, mbs_chrlen mem text (some r) encoding = ((n : Int), text + n, some (r - n)) ∧
        1 ≤ n ∧ n ≤ min r 4 ∧
        (is_encoding_utf8 encoding = true →
          ∀ p, (pick_one_utf8_char mem text (some r)).start = some p → text + n = p) ∧
        (is_encoding_utf8 encoding = true →
          (pick_one_utf8_char mem text (some r)).start = none → n = 1) ∧
        (is_encoding_utf8 encoding = false → n = 1)) := by
  refine ⟨is_encoding_utf8_iff encoding, ?_, ?_⟩
  · intro h
    subst h
    simp [mbs_chrlen]
  · intro hr
    obtain ⟨n, h1, h2, h3, h4, h5⟩ := mbs_chrlen_le mem text r encoding hr
    exact ⟨n, h1, h2, le_min h3 h4, h5⟩

theorem mbs_chrlen_contract_witness :
    (∃ n : Nat, mbs_chrlen [0xE4, 0xB8, 0xAD, 0x61] 0 (some 4) (some [0x55, 0x54, 0x46, 0x2d, 0x38]) =
        ((n : Int), 0 + n, some (4 - n)) ∧
      1 ≤ n ∧ n ≤ min 4 4 ∧
      (is_encoding_utf8 (some [0x55, 0x54, 0x46, 0x2d, 0x38]) = true →
        ∀ p, (pick_one_utf8_char [0xE4, 0xB8, 0xAD, 0x61] 0 (some 4)).start = some p →
          0 + n = p) ∧
      (is_encoding_utf8 (some [0x55, 0x54, 0x46, 0x2d, 0x38]) = true →
        (pick_one_utf8_char [0xE4, 0xB8, 0xAD, 0x61] 0 (some 4)).start = none → n = 1) ∧
      (is_encoding_utf8 (some [0x55, 0x54, 0x46, 0x2d, 0x38]) = false → n = 1)) ∧
    mbs_chrlen [0xE4, 0xB8, 0xAD, 0x61] 0 (some 0) none = (0, 0, some 0) :=
  ⟨(mbs_chrlen_contract [0xE4, 0xB8, 0xAD, 0x61] 0 4 (some [0x55, 0x54, 0x46, 0x2d, 0x38])).2.2
      (by decide),
   (mbs_chrlen_contract [0xE4, 0xB8, 0xAD, 0x61] 0 0 none).2.1 rfl⟩

/-! ## `is_utf8` -/

theorem window_take (pre s : List Nat) (h : ∀ b ∈ s, b < 256) (n : Nat) (hn : n ≤ s.length) :
    window (pre ++ s) pre.length n = s.take n := by
  have h1 := window_append pre (s.take n) (s.drop n)
    (fun b hb => h b (List.mem_of_mem_take hb))
  rw [List.append_assoc, List.take_append_drop, List.length_take, Nat.min_eq_left hn] at h1
  exact h1

theorem byteAt_head (pre s : List Nat) (b : Nat) (hb : b < 256) :
    byteAt (pre ++ b :: s) pre.length = b := byteAt_mid pre s b hb

theorem pick_of_encode (pre s : List Nat) (cp : Nat) (hd : decodable cp) :
    pick_one_utf8_char (pre ++ utf8_encode cp ++ s) pre.length none =
      ⟨cp, some (pre.length + (utf8_encode cp).length), none⟩ := by
  have hw := window_append pre (utf8_encode cp) s (utf8_encode_lt cp hd.1.1)
  have hl := utf8_encode_length cp
  have := pick_complete (pre ++ utf8_encode cp ++ s) pre.length none cp hd
    (by simp only [budget]; omega) hw
  simpa using this

theorem pick_in_run (pre s : List Nat) (hs : nul_free s) (hne : s ≠ []) (p : Nat)
    (h : (pick_one_utf8_char (pre ++ s) pre.length none).start = some p) :
    ∃ cp s', decodable cp ∧ s = utf8_encode cp ++ s' ∧
      p = pre.length + (utf8_encode cp).length ∧
      pick_one_utf8_char (pre ++ s) pre.length none = ⟨cp, some p, none⟩ := by
  obtain ⟨cp, hd, _, hw, heq⟩ := pick_sound (pre ++ s) pre.length none p h
  have hp : p = pre.length + (utf8_encode cp).length := by
    rw [heq] at h
    simpa using h.symm
  obtain ⟨b, s1, rfl⟩ := List.exists_cons_of_ne_nil hne
  have hb := hs b (List.mem_cons_self _ _)
  have h0 : byteAt (pre ++ b :: s1) pre.length ≠ 0 := by
    rw [byteAt_mid pre s1 b hb.2]; omega
  have hle := (pick_le (pre ++ b :: s1) pre.length p h h0).2
  have hn : (utf8_encode cp).length ≤ (b :: s1).length := by
    rw [List.length_append] at hle
    omega
  rw [window_take pre (b :: s1) (fun x hx => (hs x hx).2) _ hn] at hw
  refine ⟨cp, (b :: s1).drop (utf8_encode cp).length, hd, ?_, hp, ?_⟩
  · have := (List.take_append_drop (utf8_encode cp).length (b :: s1)).symm
    rw [hw] at this
    exact this
  · rw [heq, hp]; rfl

theorem item_pick (it : List Nat) (hi : is_utf8_item it) (hb : nul_free it)
    (pre post : List Nat) :
    it ≠ [] ∧ (pick_one_utf8_char (pre ++ it ++ post) pre.length none).start =
      some (pre.length + it.length) := by
  have ascii : ∀ b, b < 0x80 →
      (pick_one_utf8_char (pre ++ [b] ++ post) pre.length none).start =
        some (pre.length + [b].length) := by
    intro b hb
    have hd : decodable b := by unfold decodable is_scalar; omega
    have he : utf8_encode b = [b] := by unfold utf8_encode; rw [if_pos hb]
    have := pick_of_encode pre post b hd
    rw [he] at this
    rw [this]
  rcases hi with rfl | rfl | rfl | h
  · exact ⟨by simp, ascii _ (by decide)⟩
  · exact ⟨by simp, ascii _ (by decide)⟩
  · exact ⟨by simp, ascii _ (by decide)⟩
  · have hne : it ≠ [] := by
      rintro rfl
      revert h
      decide
    refine ⟨hne, ?_⟩
    have h' : (pick_one_utf8_char ([] ++ it) ([] : List Nat).length none).start =
        some it.length := by simpa using h
    obtain ⟨cp, s', hd, hs', hp, _⟩ := pick_in_run [] it hb hne it.length h'
    have hl : s' = [] := by
      have := congrArg List.length hs'
      simp only [List.length_append, List.length_nil, Nat.zero_add] at this hp
      exact List.length_eq_zero.mp (by omega)
    subst hl
    rw [List.append_nil] at hs'
    rw [hs', pick_of_encode pre post cp hd]

theorem is_utf8_loop_items :
    ∀ (items : List (List Nat)), (∀ it ∈ items, is_utf8_item it ∧ nul_free it) →
      ∀ (pre post : List Nat) (fuel : Nat),
        is_utf8_loop (pre ++ items.flatten ++ post) (fuel + items.length) pre.length =
          is_utf8_loop (pre ++ items.flatten ++ post) fuel (pre.length + items.flatten.length) := by
  intro items
  induction items with
  | nil => intro _ pre post fuel; simp
  | cons it items ih =>
    intro h pre post fuel
    have hit := h it (List.mem_cons_self _ _)
    obtain ⟨hne, hp⟩ := item_pick it hit.1 hit.2 pre (items.flatten ++ post)
    obtain ⟨b, tl, rfl⟩ := List.exists_cons_of_ne_nil hne
    have hb := hit.2 b (List.mem_cons_self _ _)
    have hmem : pre ++ ((b :: tl) :: items).flatten ++ post =
        pre ++ (b :: tl) ++ (items.flatten ++ post) := by simp
    have hmem2 : pre ++ ((b :: tl) :: items).flatten ++ post =
        (pre ++ (b :: tl)) ++ items.flatten ++ post := by simp
    have hb0 : byteAt (pre ++ ((b :: tl) :: items).flatten ++ post) pre.length = b := by
      have : pre ++ ((b :: tl) :: items).flatten ++ post =
          pre ++ b :: (tl ++ items.flatten ++ post) := by simp
      rw [this, byteAt_mid pre _ b hb.2]
    have hstep : is_utf8_loop (pre ++ ((b :: tl) :: items).flatten ++ post)
        (fuel + ((b :: tl) :: items).length) pre.length =
        is_utf8_loop (pre ++ ((b :: tl) :: items).flatten ++ post)
          (fuel + items.length) (pre.length + (b :: tl).length) := by
      rw [List.length_cons, ← Nat.add_assoc]
      rw [is_utf8_loop, hb0, if_pos (by omega)]
      rw [hmem]
      by_cases hws : b = 0x0a ∨ b = 0x09 ∨ b = 0x0d
      · rw [if_pos hws]
        have hlt : b < 0x80 := by omega
        have h1 := utf8_width_ascii (pre ++ (b :: tl) ++ (items.flatten ++ post)) pre.length
          (by rw [← hmem, hb0]; exact hlt)
        have h2 := utf8_width_start (pre ++ (b :: tl) ++ (items.flatten ++ post)) pre.length none
        rw [h1, hp] at h2
        simp only [Option.some.injEq] at h2
        rw [← h2]
      · rw [if_neg hws, utf8_width_start, hp]
    rw [hstep, hmem2]
    have := ih (fun x hx => h x (List.mem_cons_of_mem _ hx)) (pre ++ (b :: tl)) post fuel
    simp only [List.length_append, List.flatten_cons, Nat.add_assoc] at this ⊢
    exact this

theorem is_utf8_loop_parse :
    ∀ (fuel : Nat) (s pre : List Nat), nul_free s →
      is_utf8_loop (pre ++ s) fuel pre.length = some true →
      ∃ items : List (List Nat), items.flatten = s ∧ ∀ it ∈ items, is_utf8_item it := by
  intro fuel
  induction fuel with
  | zero => intro s pre _ h; simp [is_utf8_loop] at h
  | succ fuel ih =>
    intro s pre hs h
    cases s with
    | nil => exact ⟨[], rfl, by simp⟩
    | cons b s1 =>
      have hb := hs b (List.mem_cons_self _ _)
      have hb0 : byteAt (pre ++ b :: s1) pre.length = b := byteAt_mid pre s1 b hb.2
      have hs1 : nul_free s1 := fun x hx => hs x (List.mem_cons_of_mem _ hx)
      rw [is_utf8_loop, hb0, if_pos (by omega)] at h
      by_cases hws : b = 0x0a ∨ b = 0x09 ∨ b = 0x0d
      · rw [if_pos hws] at h
        have hm : pre ++ b :: s1 = (pre ++ [b]) ++ s1 := by simp
        have hl : pre.length + 1 = (pre ++ [b]).length := by simp
        rw [hm, hl] at h
        obtain ⟨items, hf, hi⟩ := ih s1 (pre ++ [b]) hs1 h
        refine ⟨[b] :: items, by simp [hf], ?_⟩
        intro it hit
        rcases List.mem_cons.mp hit with rfl | hit
        · unfold is_utf8_item
          rcases hws with rfl | rfl | rfl <;> simp
        · exact hi it hit
      · rw [if_neg hws, utf8_width_start] at h
        cases hp : (pick_one_utf8_char (pre ++ b :: s1) pre.length none).start with
        | none => rw [hp] at h; simp at h
        | some p =>
          rw [hp] at h
          simp only at h
          obtain ⟨cp, s', hd, hs', hpe, _⟩ := pick_in_run pre (b :: s1) hs (by simp) p hp
          have hm : pre ++ b :: s1 = (pre ++ utf8_encode cp) ++ s' := by
            rw [hs', List.append_assoc]
          have hl : p = (pre ++ utf8_encode cp).length := by simp [hpe]
          rw [hm, hl] at h
          have hs2 : nul_free s' := by
            intro x hx
            exact hs x (by rw [hs']; exact List.mem_append_right _ hx)
          obtain ⟨items, hf, hi⟩ := ih s' (pre ++ utf8_encode cp) hs2 h
          refine ⟨utf8_encode cp :: items, by simp [hf, hs'], ?_⟩
          intro it hit
          rcases List.mem_cons.mp hit with rfl | hit
          · have := pick_of_encode [] [] cp hd
            simp only [List.nil_append, List.append_nil, List.length_nil, Nat.zero_add] at this
            unfold is_utf8_item
            rw [this]
            simp
          · exact hi it hit

theorem flatten_length_ge (items : List (List Nat)) (h : ∀ it ∈ items, it ≠ []) :
    items.length ≤ items.flatten.length := by
  induction items with
  | nil => simp
  | cons it items ih =>
    have h1 := h it (List.mem_cons_self _ _)
    have h2 := ih (fun x hx => h x (List.mem_cons_of_mem _ hx))
    have h3 : 0 < it.length := List.length_pos.mpr h1
    simp only [List.flatten_cons, List.length_append, List.length_cons]
    omega

theorem is_utf8_total (mem : List Nat) :
    ∀ (fuel text : Nat), 1 ≤ fuel → mem.length + 1 ≤ text + fuel →
      is_utf8_loop mem fuel text ≠ none := by
  intro fuel
  induction fuel with
  | zero =>
    intro text h
    omega
  | succ fuel ih =>
    intro text _ h
    rw [is_utf8_loop]
    by_cases h0 : byteAt mem text ≠ 0
    · rw [if_pos h0]
      have hlt := byteAt_ne_zero_lt mem text h0
      by_cases hws : byteAt mem text = 0x0a ∨ byteAt mem text = 0x09 ∨ byteAt mem text = 0x0d
      · rw [if_pos hws]
        exact ih (text + 1) (by omega) (by omega)
      · rw [if_neg hws, utf8_width_start]
        cases hp : (pick_one_utf8_char mem text none).start with
        | none => simp
        | some p =>
          have := pick_advances mem text none p hp
          exact ih p (by omega) (by omega)
    · rw [if_neg h0]
      simp

theorem is_utf8_of_items (items : List (List Nat)) (post : List Nat)
    (hs : nul_free (items.flatten ++ post)) (hi : ∀ it ∈ items, is_utf8_item it) :
    ∃ fuel, is_utf8 (items.flatten ++ post) 0 =
        is_utf8_loop (items.flatten ++ post) (fuel + 1) items.flatten.length := by
  have hn : ∀ it ∈ items, is_utf8_item it ∧ nul_free it := by
    intro it hit
    refine ⟨hi it hit, fun b hb => hs b ?_⟩
    exact List.mem_append_left _ (List.mem_flatten.mpr ⟨it, hit, hb⟩)
  have hne : ∀ it ∈ items, it ≠ [] := fun it hit =>
    (item_pick it (hn it hit).1 (hn it hit).2 [] []).1
  have hlen := flatten_length_ge items hne
  have h := is_utf8_loop_items items hn [] post
    ((items.flatten ++ post).length - items.length + 1)
  simp only [List.nil_append, List.length_nil, Nat.zero_add] at h
  refine ⟨(items.flatten ++ post).length - items.length, ?_⟩
  rw [← h]
  unfold is_utf8
  congr 1
  rw [List.length_append] at *
  omega

/-- C11: for a NUL-terminated string `s` (the bytes before the terminator), `is_utf8(s)`
returns true if and only if `s` splits into consecutive items each of which is one of the
bytes `\n`, `\t`, `\r` or a byte sequence that `pick_one_utf8_char` decodes successfully;
it returns false otherwise, and it returns false as soon as one decode fails: when a
prefix of `s` splits into such items and the decode behind it fails. -/
theorem is_utf8_items (s : List Nat) (hs : nul_free s) :
    (is_utf8 s 0 = some true ↔
      ∃ items : List (List Nat), items.flatten = s ∧ ∀ it ∈ items, is_utf8_item it) ∧
    (is_utf8 s 0 = some false ↔
      ¬ ∃ items : List (List Nat), items.flatten = s ∧ ∀ it ∈ items, is_utf8_item it) ∧
    (∀ (items : List (List Nat)) (post : List Nat), s = items.flatten ++ post →
      (∀ it ∈ items, is_utf8_item it) → decode_fails s items.flatten.length →
      is_utf8 s 0 = some false) := by
  have h1 : is_utf8 s 0 = some true ↔
      ∃ items : List (List Nat), items.flatten = s ∧ ∀ it ∈ items, is_utf8_item it := by
    constructor
    · intro h
      have := is_utf8_loop_parse (s.length + 1) s [] hs
      simp only [List.nil_append, List.length_nil] at this
      exact this h
    · rintro ⟨items, rfl, hi⟩
      obtain ⟨fuel, hf⟩ := is_utf8_of_items items [] (by simpa using hs) hi
      simp only [List.append_nil] at hf
      rw [hf, is_utf8_loop, byteAt_end]
      simp
  refine ⟨h1, ?_, ?_⟩
  · constructor
    · intro h hp
      rw [h1.2 hp] at h
      cases h
    · intro hp
      have ht := is_utf8_total s (s.length + 1) 0 (by omega) (by omega)
      unfold is_utf8
      cases hb : is_utf8_loop s (s.length + 1) 0 with
      | none => exact absurd hb ht
      | some b =>
        cases b with
        | false => rfl
        | true => exact absurd (h1.1 hb) hp
  · intro items post hsp hi hf
    subst hsp
    obtain ⟨fuel, hfu⟩ := is_utf8_of_items items post hs hi
    obtain ⟨h0, hws, hpk⟩ := hf
    rw [hfu, is_utf8_loop, if_pos h0, if_neg hws, utf8_width_start, hpk]

theorem is_utf8_items_witness :
    is_utf8 [0x61, 0x0a, 0xC3, 0xA9] 0 = some true ∧
    is_utf8 [0x61, 0xE2, 0x82] 0 = some false :=
  ⟨(is_utf8_items [0x61, 0x0a, 0xC3, 0xA9] (by decide)).1.2
      ⟨[[0x61], [0x0a], [0xC3, 0xA9]], by decide, by decide⟩,
   (is_utf8_items [0x61, 0xE2, 0x82] (by decide)).2.2 [[0x61]] [0xE2, 0x82] (by decide)
      (by decide) (by decide)⟩

/-! ## The scan of `utf8_strnwidth` -/

theorem strnwidth_loop_sums (mem : List Nat) (orig : Nat) (len : Int) (skip_ansi : Bool)
    (s : Nat) (w : Int) (h : scan_sum mem (orig + len) skip_ansi s w) :
    ∀ (fuel : Nat) (width : Int), ((orig : Int) + len - s).toNat + 2 ≤ fuel →
      ∃ s', strnwidth_loop mem orig len skip_ansi fuel (some s) width =
        some (some s', width + w) := by
  induction h with
  | stop s hlt =>
    intro fuel width hf
    obtain ⟨f, rfl⟩ : ∃ f, fuel = f + 1 := ⟨fuel - 1, by omega⟩
    simp only [strnwidth_loop, hlt, if_false]
    exact ⟨s, by simp⟩
  | step s s' w hlt hsome _ ih =>
    intro fuel width hf
    obtain ⟨f, rfl⟩ : ∃ f, fuel = f + 1 := ⟨fuel - 1, by omega⟩
    have h1 := pick_advances _ _ _ _ hsome
    have h2 := skipped_ge mem skip_ansi s
    obtain ⟨s2, hs2⟩ := ih f
      (width + git_wcwidth (pick_one_utf8_char mem (skipped mem skip_ansi s) none).ch)
      (by omega)
    refine ⟨s2, ?_⟩
    simp only [strnwidth_loop, hlt, if_true, utf8_width, hsome]
    rw [hs2, Int.add_assoc]

theorem utf8_strnwidth_of_scan (mem : List Nat) (string : Nat) (len : Int) (skip_ansi : Bool)
    (w : Int) (h : scan_sum mem (string + effective_len mem string len) skip_ansi string w) :
    utf8_strnwidth mem string len skip_ansi = some w := by
  obtain ⟨s', hs⟩ := strnwidth_loop_sums mem string (effective_len mem string len) skip_ansi
    string w h ((effective_len mem string len).toNat + 2) 0 (by omega)
  unfold effective_len at hs
  simp only [utf8_strnwidth, hs, Int.zero_add]

/-! ## What the scan reads -/

theorem is_param_bounds (b : Nat) (h : is_param b = true) : 0 < b ∧ b < 0x80 := by
  unfold is_param isdigit at h
  simp only [Bool.or_eq_true, decide_eq_true_eq, beq_iff_eq] at h
  omega

theorem esc_form_bytes (mem : List Nat) (p k : Nat) (h : esc_form mem p k) :
    ∀ i, i < k + 3 → 0 < byteAt mem (p + i) ∧ byteAt mem (p + i) < 0x80 := by
  obtain ⟨h0, h1, hrun, hm⟩ := h
  intro i hi
  by_cases e0 : i = 0
  · subst e0; rw [Nat.add_zero, h0]; omega
  · by_cases e1 : i = 1
    · subst e1; rw [h1]; omega
    · by_cases e2 : i = k + 2
      · subst e2
        have : p + (k + 2) = p + 2 + k := by omega
        rw [this, hm]; omega
      · have := is_param_bounds _ (hrun (i - 2) (by omega))
        have e : p + 2 + (i - 2) = p + i := by omega
        rw [e] at this
        exact this

theorem esc_form_congr (m1 m2 : List Nat) (p1 p2 k : Nat)
    (h : ∀ i, i < k + 3 → byteAt m1 (p1 + i) = byteAt m2 (p2 + i))
    (hf : esc_form m1 p1 k) : esc_form m2 p2 k := by
  obtain ⟨h0, h1, hrun, hm⟩ := hf
  refine ⟨?_, ?_, ?_, ?_⟩
  · rw [← h0]; exact (h 0 (by omega)).symm
  · rw [← h1]; exact (h 1 (by omega)).symm
  · intro i hi
    have e := h (2 + i) (by omega)
    rw [← Nat.add_assoc, ← Nat.add_assoc] at e
    rw [← e]
    exact hrun i hi
  · have e := h (2 + k) (by omega)
    rw [← Nat.add_assoc, ← Nat.add_assoc] at e
    rw [← e]
    exact hm

theorem esc_len_before_nul (mem : List Nat) (p N : Nat) (hN : byteAt mem N = 0) (hp : p ≤ N)
    (h : display_mode_esc_sequence_len mem p ≠ 0) :
    p + display_mode_esc_sequence_len mem p ≤ N := by
  obtain ⟨hf, hl⟩ := esc_form_of_len mem p h
  by_contra hc
  have := (esc_form_bytes mem p _ hf (N - p) (by omega)).1
  have e : p + (N - p) = N := by omega
  rw [e, hN] at this
  omega

theorem esc_len_agree (m1 m2 : List Nat) (p N : Nat) (hN : byteAt m1 N = 0) (hp : p ≤ N)
    (h : ∀ i, p ≤ i → i ≤ N → byteAt m1 i = byteAt m2 i) :
    display_mode_esc_sequence_len m1 p = display_mode_esc_sequence_len m2 p := by
  have hN2 : byteAt m2 N = 0 := by rw [← h N hp (le_refl _)]; exact hN
  by_cases h1 : display_mode_esc_sequence_len m1 p ≠ 0
  · obtain ⟨hf, hl⟩ := esc_form_of_len m1 p h1
    have hb := esc_len_before_nul m1 p N hN hp h1
    have hf2 := esc_form_congr m1 m2 p p _ (fun i hi => h (p + i) (by omega) (by omega)) hf
    rw [hl, esc_len_of_form m2 p _ hf2]
  · by_cases h2 : display_mode_esc_sequence_len m2 p ≠ 0
    · obtain ⟨hf, hl⟩ := esc_form_of_len m2 p h2
      have hb := esc_len_before_nul m2 p N hN2 hp h2
      have hf1 := esc_form_congr m2 m1 p p _
        (fun i hi => (h (p + i) (by omega) (by omega)).symm) hf
      have := esc_len_of_form m1 p _ hf1
      omega
    · omega

theorem skip_escapes_fuel (mem : List Nat) :
    ∀ (f1 f2 p : Nat), mem.length < p + f1 → mem.length < p + f2 →
      skip_escapes mem f1 p = skip_escapes mem f2 p := by
  intro f1
  induction f1 with
  | zero =>
    intro f2 p h1 _
    cases f2 with
    | zero => rfl
    | succ f2 =>
      have h0 : byteAt mem p = 0 := by
        by_contra hc
        have := byteAt_ne_zero_lt mem p hc
        omega
      simp only [skip_escapes, esc_len_of_nul mem p h0, ne_eq, not_true_eq_false, if_false]
  | succ f1 ih =>
    intro f2 p h1 h2
    by_cases he : display_mode_esc_sequence_len mem p ≠ 0
    · have hb := esc_len_bounds mem p he
      obtain ⟨g, rfl⟩ : ∃ g, f2 = g + 1 := ⟨f2 - 1, by omega⟩
      rw [skip_escapes, skip_escapes, if_pos he, if_pos he]
      exact ih g (p + display_mode_esc_sequence_len mem p) (by omega) (by omega)
    · cases f2 with
      | zero => rw [skip_escapes, skip_escapes, if_neg he]
      | succ f2 => rw [skip_escapes, skip_escapes, if_neg he, if_neg he]

theorem skipped_unfold (mem : List Nat) (p : Nat) :
    skipped mem true p =
      if display_mode_esc_sequence_len mem p ≠ 0 then
        skipped mem true (p + display_mode_esc_sequence_len mem p)
      else p := by
  simp only [skipped, if_true]
  by_cases he : display_mode_esc_sequence_len mem p ≠ 0
  · have hb := esc_len_bounds mem p he
    rw [if_pos he, skip_escapes, if_pos he]
    exact skip_escapes_fuel mem _ _ _ (by omega) (by omega)
  · rw [if_neg he, skip_escapes, if_neg he]

theorem skipped_agree (m1 m2 : List Nat) (N : Nat) (hN : byteAt m1 N = 0)
    (skip_ansi : Bool) :
    ∀ (n p : Nat), N - p ≤ n → p ≤ N → (∀ i, p ≤ i → i ≤ N → byteAt m1 i = byteAt m2 i) →
      skipped m1 skip_ansi p = skipped m2 skip_ansi p ∧ skipped m1 skip_ansi p ≤ N := by
  cases skip_ansi with
  | false => intro n p _ hp _; simp [skipped, hp]
  | true =>
    intro n
    induction n with
    | zero =>
      intro p hn hp h
      have e : p = N := by omega
      subst e
      have h2 : byteAt m2 p = 0 := by rw [← h p (le_refl _) (le_refl _)]; exact hN
      rw [skipped_unfold m1, skipped_unfold m2, esc_len_of_nul m1 p hN, esc_len_of_nul m2 p h2]
      simp
    | succ n ih =>
      intro p hn hp h
      have ha := esc_len_agree m1 m2 p N hN hp h
      rw [skipped_unfold m1, skipped_unfold m2, ← ha]
      by_cases he : display_mode_esc_sequence_len m1 p ≠ 0
      · have hb := esc_len_before_nul m1 p N hN hp he
        have h3 := (esc_len_bounds m1 p he).1
        rw [if_pos he, if_pos he]
        exact ih _ (by omega) hb (fun i hi1 hi2 => h i (by omega) hi2)
      · rw [if_neg he, if_neg he]
        exact ⟨rfl, hp⟩

theorem pick_agree (m1 m2 : List Nat) (q N : Nat) (hN : byteAt m1 N = 0) (hq : q ≤ N)
    (h : ∀ i, q ≤ i → i ≤ N → byteAt m1 i = byteAt m2 i) :
    pick_one_utf8_char m1 q none = pick_one_utf8_char m2 q none := by
  rw [pick_one_utf8_char_eq_table m1, pick_one_utf8_char_eq_table m2]
  have e0 : byteAt m1 (q + 0) = byteAt m2 (q + 0) := h _ (by omega) (by omega)
  have key : ∀ j, j < 3 → (∀ i, i ≤ j → byteAt m1 (q + i) ≠ 0) →
      byteAt m1 (q + (j + 1)) = byteAt m2 (q + (j + 1)) := by
    intro j _ hj
    apply h _ (by omega)
    by_contra hc
    have := hj (N - q) (by omega)
    have e : q + (N - q) = N := by omega
    rw [e] at this
    exact this hN
  have ht := pick_table_nul_local (byteAt m1 (q + 0)) (byteAt m1 (q + 1)) (byteAt m1 (q + 2))
    (byteAt m1 (q + 3)) (byteAt m2 (q + 1)) (byteAt m2 (q + 2)) (byteAt m2 (q + 3))
    (budget none)
    (fun h0 => key 0 (by omega) (fun i hi => by
      have : i = 0 := by omega
      subst this; exact h0))
    (fun h0 h1 => key 1 (by omega) (fun i hi => by
      rcases Nat.lt_or_ge i 1 with hlt | hge
      · have : i = 0 := by omega
        subst this; exact h0
      · have : i = 1 := by omega
        subst this; exact h1))
    (fun h0 h1 h2 => key 2 (by omega) (fun i hi => by
      rcases Nat.lt_or_ge i 1 with hlt | hge
      · have : i = 0 := by omega
        subst this; exact h0
      · rcases Nat.lt_or_ge i 2 with hlt | hge2
        · have : i = 1 := by omega
          subst this; exact h1
        · have : i = 2 := by omega
          subst this; exact h2))
  rw [ht, e0]

theorem strnwidth_loop_agree (m1 m2 : List Nat) (orig : Nat) (len : Int) (skip_ansi : Bool)
    (N : Nat) (hl : (orig : Int) + len ≤ N) (hN : byteAt m1 N = 0)
    (h : ∀ i, orig ≤ i → i ≤ N → byteAt m1 i = byteAt m2 i) :
    ∀ (fuel : Nat) (string : Option Nat) (width : Int),
      (∀ s, string = some s → orig ≤ s) →
      strnwidth_loop m1 orig len skip_ansi fuel string width =
        strnwidth_loop m2 orig len skip_ansi fuel string width := by
  intro fuel
  induction fuel with
  | zero => intro _ _ _; rfl
  | succ fuel ih =>
    intro string width ho
    cases string with
    | none => rfl
    | some s =>
      have hs := ho s rfl
      simp only [strnwidth_loop]
      by_cases hlt : (s : Int) < orig + len
      · have hsN : s ≤ N := by omega
        have hsk := skipped_agree m1 m2 N hN skip_ansi (N - s) s (le_refl _) hsN
          (fun i hi1 hi2 => h i (by omega) hi2)
        have hge := skipped_ge m1 skip_ansi s
        have hp := pick_agree m1 m2 (skipped m1 skip_ansi s) N hN hsk.2
          (fun i hi1 hi2 => h i (by omega) hi2)
        rw [if_pos hlt, if_pos hlt, ← hsk.1]
        have hw : utf8_width m1 (skipped m1 skip_ansi s) none =
            utf8_width m2 (skipped m1 skip_ansi s) none := by
          simp only [utf8_width, hp]
        rw [← hw]
        apply ih
        intro s' hs'
        rw [utf8_width_start] at hs'
        have := pick_advances _ _ _ _ hs'
        omega
      · rw [if_neg hlt, if_neg hlt]

/-- C14 (as stated, refuted): the inputs E4 B8 AD and E4 41 41 agree on their first byte,
yet `utf8_strnwidth` with `len = 1` returns 2 for the first (the width of the ideograph
whose bytes lie mostly behind the span) and 1 for the second (the byte length, as the
character does not decode). -/
theorem utf8_strnwidth_reads_on :
    window [0xE4, 0xB8, 0xAD] 0 1 = window [0xE4, 0x41, 0x41] 0 1 ∧
    utf8_strnwidth [0xE4, 0xB8, 0xAD] 0 1 false = some 2 ∧
    utf8_strnwidth [0xE4, 0x41, 0x41] 0 1 false = some 1 ∧
    utf8_strnwidth [0xE4, 0xB8, 0xAD] 0 1 true = some 2 ∧
    utf8_strnwidth [0xE4, 0x41, 0x41] 0 1 true = some 1 := by
  decide

/-- C14 (amended): for every `len ≥ 0` and either setting of `skip_ansi`,
`utf8_strnwidth(s, len, skip_ansi)` is the sum of the widths of the characters that start
(behind the skipped escape sequences) inside the first `len` bytes, when they all decode;
a character or escape sequence that starts inside the span is read to its end, so the
result is determined by the bytes up to and including a NUL at or behind the end of the
span: any two inputs that agree on those bytes give the same result. -/
theorem utf8_strnwidth_span (m1 m2 : List Nat) (string : Nat) (len : Int) (skip_ansi : Bool)
    (hlen : 0 ≤ len) :
    (∀ w, scan_sum m1 (string + len) skip_ansi string w →
      utf8_strnwidth m1 string len skip_ansi = some w) ∧
    (∀ N : Nat, (string : Int) + len ≤ N → byteAt m1 N = 0 →
      (∀ i, string ≤ i → i ≤ N → byteAt m1 i = byteAt m2 i) →
      utf8_strnwidth m1 string len skip_ansi = utf8_strnwidth m2 string len skip_ansi) := by
  have he : ∀ m : List Nat, effective_len m string len = len := by
    intro m
    unfold effective_len
    rw [if_neg (by omega)]
  constructor
  · intro w h
    apply utf8_strnwidth_of_scan
    rw [he]
    exact h
  · intro N hl hN h
    have := strnwidth_loop_agree m1 m2 string len skip_ansi N hl hN h (len.toNat + 2)
      (some string) 0 (fun s hs => by cases hs; exact le_refl _)
    simp only [utf8_strnwidth, if_neg (show ¬ len = -1 by omega), this]

theorem utf8_strnwidth_span_witness :
    utf8_strnwidth [0x61, 0xE4, 0xB8, 0xAD, 0, 0x62] 1 1 false =
      utf8_strnwidth [0x61, 0xE4, 0xB8, 0xAD, 0, 0x63, 0x64] 1 1 false :=
  (utf8_strnwidth_span [0x61, 0xE4, 0xB8, 0xAD, 0, 0x62] [0x61, 0xE4, 0xB8, 0xAD, 0, 0x63, 0x64]
    1 1 false (by decide)).2 4 (by decide) (by decide) (by decide)

/-! ## Scanning a concatenation -/

theorem byteAt_left (a b : List Nat) (i : Nat) (h : i < a.length) :
    byteAt (a ++ b) i = byteAt a i := by
  unfold byteAt
  rw [List.getD_eq_getElem?_getD, List.getD_eq_getElem?_getD, List.getElem?_append_left h]

theorem byteAt_right (a b : List Nat) (i : Nat) :
    byteAt (a ++ b) (a.length + i) = byteAt b i := by
  unfold byteAt
  rw [List.getD_eq_getElem?_getD, List.getD_eq_getElem?_getD,
    List.getElem?_append_right (by omega)]
  congr 3
  omega

theorem byteAt_nul_free (s : List Nat) (hs : nul_free s) (i : Nat) :
    byteAt s i = 0 ↔ s.length ≤ i := by
  constructor
  · intro h
    by_contra hc
    have hi : i < s.length := by omega
    have hb := hs s[i] (List.getElem_mem hi)
    unfold byteAt at h
    rw [List.getD_eq_getElem _ _ hi] at h
    omega
  · intro h
    unfold byteAt
    rw [List.getD_eq_default _ _ h]

theorem strlen_nul_free (s : List Nat) (hs : nul_free s) : strlen s 0 = s.length := by
  unfold strlen
  rw [List.drop_zero, List.takeWhile_eq_self_iff.mpr]
  intro b hb
  have := hs b hb
  simp only [bne_iff_ne, ne_eq]
  omega

theorem window_congr (m1 m2 : List Nat) (q1 q2 n : Nat)
    (h : ∀ i, i < n → byteAt m1 (q1 + i) = byteAt m2 (q2 + i)) :
    window m1 q1 n = window m2 q2 n := by
  unfold window
  apply List.map_congr_left
  intro i hi
  exact h i (List.mem_range.mp hi)

theorem pick_transfer (m1 m2 : List Nat) (q1 q2 n : Nat)
    (hs : (pick_one_utf8_char m1 q1 none).start = some (q1 + n))
    (h : ∀ i, i < n → byteAt m1 (q1 + i) = byteAt m2 (q2 + i)) :
    pick_one_utf8_char m2 q2 none = ⟨(pick_one_utf8_char m1 q1 none).ch, some (q2 + n), none⟩ := by
  obtain ⟨cp, hd, hl, hw, heq⟩ := pick_sound m1 q1 none _ hs
  have hn : n = (utf8_encode cp).length := by
    rw [heq] at hs
    simp only [Option.some.injEq] at hs
    omega
  subst hn
  rw [window_congr m1 m2 q1 q2 _ h] at hw
  rw [pick_complete m2 q2 none cp hd hl hw, heq]
  rfl

theorem esc_len_congr (m1 m2 : List Nat) (p1 p2 : Nat)
    (h : ∀ i, byteAt m1 (p1 + i) = byteAt m2 (p2 + i)) :
    display_mode_esc_sequence_len m1 p1 = display_mode_esc_sequence_len m2 p2 := by
  by_cases h1 : display_mode_esc_sequence_len m1 p1 ≠ 0
  · obtain ⟨hf, hl⟩ := esc_form_of_len m1 p1 h1
    rw [hl, esc_len_of_form m2 p2 _ (esc_form_congr m1 m2 p1 p2 _ (fun i _ => h i) hf)]
  · by_cases h2 : display_mode_esc_sequence_len m2 p2 ≠ 0
    · obtain ⟨hf, hl⟩ := esc_form_of_len m2 p2 h2
      have := esc_len_of_form m1 p1 _
        (esc_form_congr m2 m1 p2 p1 _ (fun i _ => (h i).symm) hf)
      omega
    · omega

theorem esc_len_right (a b : List Nat) (k : Nat) :
    display_mode_esc_sequence_len (a ++ b) (a.length + k) =
      display_mode_esc_sequence_len b k :=
  esc_len_congr (a ++ b) b (a.length + k) k (fun i => by
    rw [Nat.add_assoc]; exact byteAt_right a b (k + i))

theorem skipped_right (a b : List Nat) (skip_ansi : Bool) :
    ∀ (n k : Nat), b.length + 1 - k ≤ n →
      skipped (a ++ b) skip_ansi (a.length + k) = a.length + skipped b skip_ansi k := by
  cases skip_ansi with
  | false => intro n k _; simp [skipped]
  | true =>
    intro n
    induction n with
    | zero =>
      intro k hk
      have h0 : byteAt b k = 0 := by
        by_contra hc
        have := byteAt_ne_zero_lt b k hc
        omega
      rw [skipped_unfold (a ++ b), skipped_unfold b, esc_len_right,
        esc_len_of_nul b k h0]
      simp
    | succ n ih =>
      intro k hk
      rw [skipped_unfold (a ++ b), skipped_unfold b, esc_len_right]
      by_cases he : display_mode_esc_sequence_len b k ≠ 0
      · have hb := esc_len_bounds b k he
        rw [if_pos he, if_pos he, Nat.add_assoc]
        exact ih _ (by omega)
      · rw [if_neg he, if_neg he]

theorem esc_len_left (a b : List Nat) (hs : no_span a b) (p : Nat) (hp : p < a.length) :
    display_mode_esc_sequence_len (a ++ b) p = display_mode_esc_sequence_len a p := by
  by_cases h1 : display_mode_esc_sequence_len a p ≠ 0
  · obtain ⟨hf, hl⟩ := esc_form_of_len a p h1
    have hb := esc_len_bounds a p h1
    have hf2 := esc_form_congr a (a ++ b) p p _
      (fun i hi => (byteAt_left a b (p + i) (by omega)).symm) hf
    rw [hl, esc_len_of_form (a ++ b) p _ hf2]
  · by_cases h2 : display_mode_esc_sequence_len (a ++ b) p ≠ 0
    · obtain ⟨hf, hl⟩ := esc_form_of_len (a ++ b) p h2
      have hb := hs p hp h2
      have hf1 := esc_form_congr (a ++ b) a p p _
        (fun i hi => byteAt_left a b (p + i) (by omega)) hf
      have := esc_len_of_form a p _ hf1
      omega
    · omega

theorem skipped_left (a b : List Nat) (skip_ansi : Bool)
    (hs : skip_ansi = true → no_span a b) :
    ∀ (n p : Nat), a.length - p ≤ n → p ≤ a.length →
      skipped a skip_ansi p ≤ a.length ∧
      (skipped a skip_ansi p < a.length →
        skipped (a ++ b) skip_ansi p = skipped a skip_ansi p) ∧
      (skipped a skip_ansi p = a.length →
        skipped (a ++ b) skip_ansi p = skipped (a ++ b) skip_ansi a.length) := by
  cases skip_ansi with
  | false =>
    intro n p _ hp
    have e : ∀ (m : List Nat) (q : Nat), skipped m false q = q := fun _ _ => rfl
    rw [e, e, e]
    exact ⟨hp, fun _ => rfl, fun h => h⟩
  | true =>
    have hsp := hs rfl
    intro n
    induction n with
    | zero =>
      intro p hn hp
      have e : p = a.length := by omega
      subst e
      have h0 : skipped a true a.length = a.length := by
        rw [skipped_unfold, esc_len_of_nul a _ (byteAt_end a)]
        simp
      rw [h0]
      exact ⟨le_refl _, fun h => absurd h (lt_irrefl _), fun _ => rfl⟩
    | succ n ih =>
      intro p hn hp
      rcases Nat.lt_or_ge p a.length with hlt | hge
      · have ha := esc_len_left a b hsp p hlt
        rw [skipped_unfold a, skipped_unfold (a ++ b), ha]
        by_cases he : display_mode_esc_sequence_len a p ≠ 0
        · have hb := esc_len_bounds a p he
          rw [if_pos he, if_pos he]
          exact ih _ (by omega) hb.2
        · rw [if_neg he, if_neg he]
          exact ⟨hp, fun _ => rfl, fun h => by omega⟩
      · have e : p = a.length := by omega
        subst e
        have h0 : skipped a true a.length = a.length := by
          rw [skipped_unfold, esc_len_of_nul a _ (byteAt_end a)]
          simp
        rw [h0]
        exact ⟨le_refl _, fun h => absurd h (lt_irrefl _), fun _ => rfl⟩

theorem scan_sum_step (mem : List Nat) (limit : Int) (skip_ansi : Bool) (s s' ch : Nat)
    (w total : Int) (hlt : (s : Int) < limit)
    (hp : pick_one_utf8_char mem (skipped mem skip_ansi s) none = ⟨ch, some s', none⟩)
    (hr : scan_sum mem limit skip_ansi s' w) (ht : total = git_wcwidth ch + w) :
    scan_sum mem limit skip_ansi s total := by
  have := scan_sum.step s s' w hlt (by rw [hp]) hr
  rw [hp] at this
  rw [ht]
  exact this

theorem scan_sum_inv (mem : List Nat) (limit : Int) (skip_ansi : Bool) (s : Nat) (total : Int)
    (h : scan_sum mem limit skip_ansi s total) :
    (¬ (s : Int) < limit ∧ total = 0) ∨
    ((s : Int) < limit ∧ ∃ s' w,
      (pick_one_utf8_char mem (skipped mem skip_ansi s) none).start = some s' ∧
      scan_sum mem limit skip_ansi s' w ∧
      total = git_wcwidth (pick_one_utf8_char mem (skipped mem skip_ansi s) none).ch + w) := by
  cases h with
  | stop _ hlt => exact Or.inl ⟨hlt, rfl⟩
  | step _ s' w hlt hp hr => exact Or.inr ⟨hlt, s', w, hp, hr, rfl⟩

theorem scan_sum_right (a b : List Nat) (skip_ansi : Bool) (k : Nat) (w : Int)
    (h : scan_sum b b.length skip_ansi k w) :
    scan_sum (a ++ b) (a ++ b).length skip_ansi (a.length + k) w := by
  induction h with
  | stop s hlt =>
    apply scan_sum.stop
    rw [List.length_append]
    push_cast
    omega
  | step s s' w hlt hp _ ih =>
    have hadv := pick_advances _ _ _ _ hp
    have hsk := skipped_right a b skip_ansi (b.length + 1 - s) s (le_refl _)
    have e : s' = skipped b skip_ansi s + (s' - skipped b skip_ansi s) := by omega
    rw [e] at hp
    have ht := pick_transfer b (a ++ b) (skipped b skip_ansi s) (a.length + skipped b skip_ansi s)
      _ hp (fun i _ => by rw [Nat.add_assoc]; exact (byteAt_right a b _).symm)
    rw [← hsk] at ht
    have e2 : skipped (a ++ b) skip_ansi (a.length + s) + (s' - skipped b skip_ansi s) =
        a.length + s' := by omega
    rw [e2] at ht
    refine scan_sum_step _ _ _ _ _ _ _ _ ?_ ht ih rfl
    rw [List.length_append]
    push_cast
    omega

theorem pick_ascii (mem : List Nat) (t : Nat) (h : byteAt mem t < 0x80) :
    pick_one_utf8_char mem t none = ⟨byteAt mem t, some (t + 1), none⟩ := by
  have hd : decodable (byteAt mem t) := by unfold decodable is_scalar; omega
  have he : utf8_encode (byteAt mem t) = [byteAt mem t] := by
    unfold utf8_encode; rw [if_pos h]
  have := pick_complete mem t none (byteAt mem t) hd (by rw [he]; simp [budget])
    (by rw [he]; simp [window, List.range_succ])
  rw [this, he]
  rfl

theorem is_utf8_loop_decodes (mem : List Nat) :
    ∀ (fuel p : Nat), is_utf8_loop mem fuel p = some true → decodes_from mem p := by
  intro fuel
  induction fuel with
  | zero => intro p h; simp [is_utf8_loop] at h
  | succ fuel ih =>
    intro p h
    rw [is_utf8_loop] at h
    by_cases h0 : byteAt mem p ≠ 0
    · rw [if_pos h0] at h
      by_cases hws : byteAt mem p = 0x0a ∨ byteAt mem p = 0x09 ∨ byteAt mem p = 0x0d
      · rw [if_pos hws] at h
        have hp := pick_ascii mem p (by omega)
        exact decodes_from.chr p (p + 1) h0 (by rw [hp]) (ih _ h)
      · rw [if_neg hws, utf8_width_start] at h
        cases hp : (pick_one_utf8_char mem p none).start with
        | none => rw [hp] at h; simp at h
        | some p' =>
          rw [hp] at h
          exact decodes_from.chr p p' h0 hp (ih _ h)
    · exact decodes_from.nul p (by omega)

theorem decodes_run (mem : List Nat) :
    ∀ (n p : Nat), decodes_from mem p →
      (∀ i, i < n → 0 < byteAt mem (p + i) ∧ byteAt mem (p + i) < 0x80) →
      decodes_from mem (p + n) := by
  intro n
  induction n with
  | zero => intro p h _; exact h
  | succ n ih =>
    intro p h hb
    have h0 := hb 0 (by omega)
    rw [Nat.add_zero] at h0
    have h1 : decodes_from mem (p + 1) := by
      cases h with
      | nul _ hz => omega
      | chr _ p' _ hp hr =>
        rw [pick_ascii mem p h0.2] at hp
        simp only [Option.some.injEq] at hp
        rw [hp]
        exact hr
    have := ih (p + 1) h1 (fun i hi => by
      have := hb (1 + i) (by omega)
      rw [← Nat.add_assoc] at this
      exact this)
    have e : p + 1 + n = p + (n + 1) := by omega
    rw [e] at this
    exact this

theorem decodes_skipped (mem : List Nat) (skip_ansi : Bool) :
    ∀ (n p : Nat), mem.length + 1 - p ≤ n → decodes_from mem p →
      decodes_from mem (skipped mem skip_ansi p) := by
  cases skip_ansi with
  | false => intro n p _ h; exact h
  | true =>
    intro n
    induction n with
    | zero =>
      intro p hn h
      have h0 : byteAt mem p = 0 := by
        by_contra hc
        have := byteAt_ne_zero_lt mem p hc
        omega
      rw [skipped_unfold, esc_len_of_nul mem p h0]
      exact h
    | succ n ih =>
      intro p hn h
      rw [skipped_unfold]
      by_cases he : display_mode_esc_sequence_len mem p ≠ 0
      · rw [if_pos he]
        obtain ⟨hf, hl⟩ := esc_form_of_len mem p he
        have hb := esc_len_bounds mem p he
        apply ih _ (by omega)
        rw [hl]
        exact decodes_run mem _ p h (esc_form_bytes mem p _ hf)
      · rw [if_neg he]
        exact h

theorem scan_exists (a : List Nat) (ha : nul_free a) (skip_ansi : Bool) :
    ∀ (n p : Nat), a.length - p ≤ n → decodes_from a p →
      ∃ w, scan_sum a a.length skip_ansi p w := by
  intro n
  induction n with
  | zero =>
    intro p hn _
    exact ⟨0, scan_sum.stop p (by omega)⟩
  | succ n ih =>
    intro p hn h
    rcases Nat.lt_or_ge p a.length with hlt | hge
    · have hq := decodes_skipped a skip_ansi _ p (le_refl _) h
      have hge := skipped_ge a skip_ansi p
      cases hq with
      | nul _ hz =>
        have hp := pick_ascii a (skipped a skip_ansi p) (by omega)
        have hl := (byteAt_nul_free a ha _).mp hz
        exact ⟨_, scan_sum_step a _ skip_ansi p _ _ 0 _ (by omega) hp
          (scan_sum.stop _ (by omega)) rfl⟩
      | chr _ p' h0 hp hr =>
        have hadv := pick_advances _ _ _ _ hp
        obtain ⟨w, hw⟩ := ih p' (by omega) hr
        exact ⟨_, scan_sum.step p p' w (by omega) hp hw⟩
    · exact ⟨0, scan_sum.stop p (by omega)⟩

theorem scan_concat (a b : List Nat) (ha : nul_free a) (skip_ansi : Bool)
    (hs : skip_ansi = true → no_span a b) (wb : Int)
    (hb : scan_sum b b.length skip_ansi 0 wb) :
    ∀ (n p : Nat) (wa : Int), a.length - p ≤ n → p ≤ a.length →
      scan_sum a a.length skip_ansi p wa →
      scan_sum (a ++ b) (a ++ b).length skip_ansi p (wa + wb) := by
  have hend : ∀ wa, scan_sum a a.length skip_ansi a.length wa →
      scan_sum (a ++ b) (a ++ b).length skip_ansi a.length (wa + wb) := by
    intro wa h
    rcases scan_sum_inv _ _ _ _ _ h with ⟨_, h0⟩ | ⟨hlt, _⟩
    · have := scan_sum_right a b skip_ansi 0 wb hb
      rw [Nat.add_zero] at this
      rw [h0, Int.zero_add]
      exact this
    · omega
  have hM : ((a ++ b).length : Int) = a.length + b.length := by
    rw [List.length_append]; push_cast; rfl
  intro n
  induction n with
  | zero =>
    intro p wa hn hp h
    have e : p = a.length := by omega
    subst e
    exact hend wa h
  | succ n ih =>
    intro p wa hn hp h
    rcases Nat.lt_or_ge p a.length with hlt | hge
    · rcases scan_sum_inv _ _ _ _ _ h with ⟨hnl, _⟩ | ⟨_, s', w', hpk, hr, ht⟩
      · exact absurd (by omega) hnl
      · obtain ⟨hq_le, hq_lt, hq_eq⟩ := skipped_left a b skip_ansi hs _ p (le_refl _) hp
        have hadv := pick_advances _ _ _ _ hpk
        have hge := skipped_ge a skip_ansi p
        rcases Nat.lt_or_ge (skipped a skip_ansi p) a.length with hq | hq
        · have h0 : byteAt a (skipped a skip_ansi p) ≠ 0 := by
            intro hz
            have := (byteAt_nul_free a ha _).mp hz
            omega
          have hle := (pick_le a _ s' hpk h0).2
          have e : s' = skipped a skip_ansi p + (s' - skipped a skip_ansi p) := by omega
          have hpk2 := hpk
          rw [e] at hpk2
          have htr := pick_transfer a (a ++ b) (skipped a skip_ansi p) (skipped a skip_ansi p) _
            hpk2 (fun i hi => (byteAt_left a b _ (by omega)).symm)
          rw [← e, ← hq_lt hq] at htr
          have hrec := ih s' w' (by omega) hle hr
          exact scan_sum_step _ _ _ _ _ _ _ _ (by rw [hM]; omega) htr hrec
            (by rw [ht, hq_lt hq]; omega)
        · have hqe : skipped a skip_ansi p = a.length := by omega
          have hz : byteAt a (skipped a skip_ansi p) = 0 := by
            rw [hqe]; exact byteAt_end a
          have hpa := pick_ascii a (skipped a skip_ansi p) (by omega)
          rw [hpa] at hpk ht
          simp only [Option.some.injEq] at hpk
          have hw' : w' = 0 := by
            rcases scan_sum_inv _ _ _ _ _ hr with ⟨_, h0⟩ | ⟨hlt', _⟩
            · exact h0
            · omega
          have g0 : git_wcwidth 0 = 0 := by decide
          have hwa : wa = 0 := by
            rw [ht, hw', hz]
            show git_wcwidth 0 + 0 = 0
            rw [g0]
            rfl
          have hsM : skipped (a ++ b) skip_ansi p = a.length + skipped b skip_ansi 0 := by
            rw [hq_eq hqe]
            exact skipped_right a b skip_ansi _ 0 (le_refl _)
          rcases scan_sum_inv _ _ _ _ _ hb with ⟨hnl, hwb⟩ | ⟨hlb, sb, wb', hpb, hrb, htb⟩
          · have hbl : b.length = 0 := by omega
            have hbn : b = [] := List.length_eq_zero.mp hbl
            have hs0 : skipped b skip_ansi 0 = 0 := by
              subst hbn
              cases skip_ansi with
              | false => rfl
              | true =>
                rw [skipped_unfold, esc_len_of_nul [] 0 (byteAt_end [])]
                simp
            rw [hs0, Nat.add_zero] at hsM
            have hzM : byteAt (a ++ b) a.length = 0 := by
              have := byteAt_right a b 0
              rw [Nat.add_zero] at this
              rw [this, hbn]
              exact byteAt_end []
            have hpM := pick_ascii (a ++ b) a.length (by omega)
            rw [← hsM] at hpM
            refine scan_sum_step _ _ _ _ _ _ 0 _ (by rw [hM]; omega) hpM
              (scan_sum.stop _ (by rw [hM, hsM]; push_cast; omega)) ?_
            rw [hwa, hwb, hsM, hzM, g0]
          · have hadvb := pick_advances _ _ _ _ hpb
            have e : sb = skipped b skip_ansi 0 + (sb - skipped b skip_ansi 0) := by omega
            have hpb2 := hpb
            rw [e] at hpb2
            have htr := pick_transfer b (a ++ b) (skipped b skip_ansi 0)
              (a.length + skipped b skip_ansi 0) _ hpb2
              (fun i _ => by rw [Nat.add_assoc]; exact (byteAt_right a b _).symm)
            have e2 : a.length + skipped b skip_ansi 0 + (sb - skipped b skip_ansi 0) =
                a.length + sb := by omega
            rw [e2, ← hsM] at htr
            exact scan_sum_step _ _ _ _ _ _ _ _ (by rw [hM]; omega) htr
              (scan_sum_right a b skip_ansi sb wb' hrb) (by rw [hwa, htb]; omega)
    · have e : p = a.length := by omega
      subst e
      exact hend wa h

theorem nul_free_append (a b : List Nat) (ha : nul_free a) (hb : nul_free b) :
    nul_free (a ++ b) := by
  intro x hx
  rcases List.mem_append.mp hx with h | h
  · exact ha x h
  · exact hb x h

theorem utf8_strnwidth_of_scan_len (s : List Nat) (hs : nul_free s) (skip_ansi : Bool)
    (w : Int) (h : scan_sum s s.length skip_ansi 0 w) (len : Int)
    (hl : len = -1 ∨ len = s.length) : utf8_strnwidth s 0 len skip_ansi = some w := by
  apply utf8_strnwidth_of_scan
  have e : effective_len s 0 len = s.length := by
    unfold effective_len
    rcases hl with rfl | rfl
    · rw [if_pos rfl, strlen_nul_free s hs]
    · rw [if_neg (by omega)]
  rw [e]
  simpa using h

theorem strnwidth_concat (a b : List Nat) (ha : nul_free a) (hb : nul_free b)
    (hva : is_utf8 a 0 = some true) (hvb : is_utf8 b 0 = some true) (skip_ansi : Bool)
    (hs : skip_ansi = true → no_span a b) :
    ∃ wa wb, scan_sum a a.length skip_ansi 0 wa ∧ scan_sum b b.length skip_ansi 0 wb ∧
      scan_sum (a ++ b) (a ++ b).length skip_ansi 0 (wa + wb) := by
  obtain ⟨wa, hwa⟩ := scan_exists a ha skip_ansi _ 0 (le_refl _)
    (is_utf8_loop_decodes a _ 0 hva)
  obtain ⟨wb, hwb⟩ := scan_exists b hb skip_ansi _ 0 (le_refl _)
    (is_utf8_loop_decodes b _ 0 hvb)
  exact ⟨wa, wb, hwa, hwb,
    scan_concat a b ha skip_ansi hs wb hwb _ 0 wa (le_refl _) (Nat.zero_le _) hwa⟩

theorem utf8_encode_nul_free (cp : Nat) (hd : decodable cp) (h0 : cp ≠ 0) :
    nul_free (utf8_encode cp) := by
  have hmax := hd.1.1
  unfold utf8_encode
  split_ifs <;> intro b hb <;>
    simp only [List.mem_cons, List.mem_singleton, List.not_mem_nil, or_false] at hb <;> omega

theorem is_utf8_encode_all (cps : List Nat) (h : ∀ cp ∈ cps, decodable cp ∧ cp ≠ 0) :
    nul_free (utf8_encode_all cps) ∧ is_utf8 (utf8_encode_all cps) 0 = some true := by
  have hfl : (cps.map utf8_encode).flatten = utf8_encode_all cps := by
    unfold utf8_encode_all
    rw [List.flatMap_def]
  have hnf : nul_free (utf8_encode_all cps) := by
    intro b hb
    unfold utf8_encode_all at hb
    obtain ⟨cp, hcp, hbc⟩ := List.mem_flatMap.mp hb
    exact utf8_encode_nul_free cp (h cp hcp).1 (h cp hcp).2 b hbc
  refine ⟨hnf, ?_⟩
  have hi : ∀ it ∈ cps.map utf8_encode, is_utf8_item it := by
    intro it hit
    obtain ⟨cp, hcp, rfl⟩ := List.mem_map.mp hit
    have := pick_of_encode [] [] cp (h cp hcp).1
    simp only [List.nil_append, List.append_nil, List.length_nil, Nat.zero_add] at this
    unfold is_utf8_item
    rw [this]
    simp
  obtain ⟨fuel, hf⟩ := is_utf8_of_items (cps.map utf8_encode) []
    (by rw [List.append_nil, hfl]; exact hnf) hi
  rw [List.append_nil, hfl] at hf
  rw [hf, is_utf8_loop, byteAt_end]
  simp

/-- C12 (as stated, refuted): EF BF BE and E4 B8 AD are NUL-free and each the shortest-form
encoding of a Unicode scalar value (U+FFFE, U+4E2D), yet `utf8_strwidth` gives 3 for the
first (its byte length, as the decoder rejects U+FFFE), 2 for the second and 6, not 5, for
their concatenation; `utf8_strnwidth` with escape skipping gives the same values. -/
theorem utf8_strwidth_fffe :
    nul_free [0xEF, 0xBF, 0xBE] ∧ nul_free [0xE4, 0xB8, 0xAD] ∧
    is_scalar 0xFFFE ∧ utf8_encode 0xFFFE = [0xEF, 0xBF, 0xBE] ∧
    is_scalar 0x4E2D ∧ utf8_encode 0x4E2D = [0xE4, 0xB8, 0xAD] ∧
    utf8_strwidth [0xEF, 0xBF, 0xBE] 0 = some 3 ∧
    utf8_strwidth [0xE4, 0xB8, 0xAD] 0 = some 2 ∧
    utf8_strwidth ([0xEF, 0xBF, 0xBE] ++ [0xE4, 0xB8, 0xAD]) 0 = some 6 ∧
    utf8_strnwidth [0xEF, 0xBF, 0xBE] 0 (-1) true = some 3 ∧
    utf8_strnwidth [0xE4, 0xB8, 0xAD] 0 (-1) true = some 2 ∧
    utf8_strnwidth ([0xEF, 0xBF, 0xBE] ++ [0xE4, 0xB8, 0xAD]) 0 (-1) true = some 6 := by
  decide

/-- C12 (amended): for two NUL-free byte strings `a` and `b` that are each valid UTF-8
which the decoder accepts (`is_utf8` returns true for them, as it does for every
concatenation of encodings of scalar values other than U+FFFE and U+FFFF,
`is_utf8_encode_all`), `utf8_strwidth(a ++ b) = utf8_strwidth(a) + utf8_strwidth(b)`; the
same equation holds for `utf8_strnwidth` with escape skipping enabled (with `len = -1` and
with the byte lengths for `len`) whenever no escape sequence spans the boundary between
`a` and `b`. -/
theorem utf8_strwidth_concat (a b : List Nat) (ha : nul_free a) (hb : nul_free b)
    (hva : is_utf8 a 0 = some true) (hvb : is_utf8 b 0 = some true) :
    (∃ wa wb, utf8_strwidth a 0 = some wa ∧ utf8_strwidth b 0 = some wb ∧
      utf8_strwidth (a ++ b) 0 = some (wa + wb)) ∧
    (no_span a b →
      ∃ wa wb, utf8_strnwidth a 0 (-1) true = some wa ∧
        utf8_strnwidth b 0 (-1) true = some wb ∧
        utf8_strnwidth (a ++ b) 0 (-1) true = some (wa + wb) ∧
        utf8_strnwidth a 0 a.length true = some wa ∧
        utf8_strnwidth b 0 b.length true = some wb ∧
        utf8_strnwidth (a ++ b) 0 (a ++ b).length true = some (wa + wb)) := by
  have hab := nul_free_append a b ha hb
  constructor
  · obtain ⟨wa, wb, h1, h2, h3⟩ := strnwidth_concat a b ha hb hva hvb false
      (fun h => by cases h)
    exact ⟨wa, wb, utf8_strnwidth_of_scan_len a ha false wa h1 (-1) (Or.inl rfl),
      utf8_strnwidth_of_scan_len b hb false wb h2 (-1) (Or.inl rfl),
      utf8_strnwidth_of_scan_len (a ++ b) hab false _ h3 (-1) (Or.inl rfl)⟩
  · intro hs
    obtain ⟨wa, wb, h1, h2, h3⟩ := strnwidth_concat a b ha hb hva hvb true (fun _ => hs)
    exact ⟨wa, wb, utf8_strnwidth_of_scan_len a ha true wa h1 (-1) (Or.inl rfl),
      utf8_strnwidth_of_scan_len b hb true wb h2 (-1) (Or.inl rfl),
      utf8_strnwidth_of_scan_len (a ++ b) hab true _ h3 (-1) (Or.inl rfl),
      utf8_strnwidth_of_scan_len a ha true wa h1 _ (Or.inr rfl),
      utf8_strnwidth_of_scan_len b hb true wb h2 _ (Or.inr rfl),
      utf8_strnwidth_of_scan_len (a ++ b) hab true _ h3 _ (Or.inr rfl)⟩

theorem utf8_strwidth_concat_witness :
    (∃ wa wb, utf8_strwidth [0xE4, 0xB8, 0xAD, 0x1b, 0x5b, 0x6d] 0 = some wa ∧
      utf8_strwidth [0x1b, 0x5b, 0x33, 0x31, 0x6d, 0x61] 0 = some wb ∧
      utf8_strwidth ([0xE4, 0xB8, 0xAD, 0x1b, 0x5b, 0x6d] ++ [0x1b, 0x5b, 0x33, 0x31, 0x6d, 0x61])
        0 = some (wa + wb)) ∧
    (∃ wa wb, utf8_strnwidth [0xE4, 0xB8, 0xAD, 0x1b, 0x5b, 0x6d] 0 (-1) true = some wa ∧
      utf8_strnwidth [0x1b, 0x5b, 0x33, 0x31, 0x6d, 0x61] 0 (-1) true = some wb ∧
      utf8_strnwidth ([0xE4, 0xB8, 0xAD, 0x1b, 0x5b, 0x6d] ++ [0x1b, 0x5b, 0x33, 0x31, 0x6d, 0x61])
        0 (-1) true = some (wa + wb) ∧
      utf8_strnwidth [0xE4, 0xB8, 0xAD, 0x1b, 0x5b, 0x6d] 0
        ([0xE4, 0xB8, 0xAD, 0x1b, 0x5b, 0x6d] : List Nat).length true = some wa ∧
      utf8_strnwidth [0x1b, 0x5b, 0x33, 0x31, 0x6d, 0x61] 0
        ([0x1b, 0x5b, 0x33, 0x31, 0x6d, 0x61] : List Nat).length true = some wb ∧
      utf8_strnwidth ([0xE4, 0xB8, 0xAD, 0x1b, 0x5b, 0x6d] ++ [0x1b, 0x5b, 0x33, 0x31, 0x6d, 0x61])
        0 ([0xE4, 0xB8, 0xAD, 0x1b, 0x5b, 0x6d] ++ [0x1b, 0x5b, 0x33, 0x31, 0x6d, 0x61] :
          List Nat).length true = some (wa + wb)) :=
  ⟨(utf8_strwidth_concat [0xE4, 0xB8, 0xAD, 0x1b, 0x5b, 0x6d]
      [0x1b, 0x5b, 0x33, 0x31, 0x6d, 0x61] (by decide) (by decide) (by decide) (by decide)).1,
   (utf8_strwidth_concat [0xE4, 0xB8, 0xAD, 0x1b, 0x5b, 0x6d]
      [0x1b, 0x5b, 0x33, 0x31, 0x6d, 0x61] (by decide) (by decide) (by decide) (by decide)).2
      (by decide)⟩

/-! ## Wrapping only changes whitespace -/

theorem strip_ws_append (a b : List Nat) : strip_ws (a ++ b) = strip_ws a ++ strip_ws b :=
  List.filter_append a b

theorem strip_ws_spaces (n : Nat) : strip_ws (List.replicate n 0x20) = [] := by
  induction n with
  | zero => rfl
  | succ n ih =>
    rw [List.replicate_succ, strip_ws, List.filter_cons_of_neg (by decide)]
    exact ih

theorem byteAt_of_lt (T : List Nat) (hT : nul_free T) (i : Nat) (h : i < T.length) :
    byteAt T i = T[i] := by
  unfold byteAt
  rw [List.getD_eq_getElem _ _ h]
  exact Nat.mod_eq_of_lt (hT _ (List.getElem_mem h)).2

theorem strip_take_ws (T : List Nat) (hT : nul_free T) (i : Nat)
    (h : isspace (byteAt T i) = true) :
    i < T.length ∧ strip_ws (T.take (i + 1)) = strip_ws (T.take i) := by
  have hi : i < T.length := byteAt_ne_zero_lt T i (isspace_ne_zero _ h)
  refine ⟨hi, ?_⟩
  rw [byteAt_of_lt T hT i hi] at h
  rw [List.take_succ, List.getElem?_eq_getElem hi, strip_ws_append]
  simp only [Option.toList, strip_ws, List.filter_cons, h, Bool.not_true, Bool.false_eq_true,
    if_false, List.filter_nil, List.append_nil]

theorem window_drop (T : List Nat) (hT : nul_free T) (E n : Nat) (h : E + n ≤ T.length) :
    window T E n = (T.drop E).take n := by
  have h1 := window_take (T.take E) (T.drop E)
    (fun b hb => (hT b (List.mem_of_mem_drop hb)).2) n (by rw [List.length_drop]; omega)
  rw [List.take_append_drop, List.length_take, Nat.min_eq_left (by omega)] at h1
  exact h1

theorem strip_window (T : List Nat) (hT : nul_free T) (E t : Nat) (hE : E ≤ t)
    (ht : t ≤ T.length) :
    strip_ws (T.take E) ++ strip_ws (window T E (t - E)) = strip_ws (T.take t) := by
  rw [window_drop T hT E (t - E) (by omega), ← strip_ws_append, ← List.take_add]
  congr 2
  omega

theorem new_line_inv (T : List Nat) (hT : nul_free T) (i2 : Int) (buf : List Nat) (q : Nat)
    (hq : q ≤ T.length) (hb : strip_ws buf = strip_ws (T.take q)) :
    wrap_ws_inv T (wrap_new_line T i2 buf q) := by
  have hnl : strip_ws [0x0a] = [] := by decide
  show q + b2n (isspace (byteAt T q)) ≤ q + b2n (isspace (byteAt T q)) ∧
    q + b2n (isspace (byteAt T q)) ≤ q + b2n (isspace (byteAt T q)) ∧
    q + b2n (isspace (byteAt T q)) ≤ T.length ∧
    strip_ws (buf ++ [0x0a]) = strip_ws (T.take (q + b2n (isspace (byteAt T q))))
  rw [strip_ws_append, hnl, List.append_nil, hb]
  by_cases hs : isspace (byteAt T q) = true
  · obtain ⟨h1, h2⟩ := strip_take_ws T hT q hs
    have e : b2n (isspace (byteAt T q)) = 1 := by rw [hs]; rfl
    rw [e]
    exact ⟨le_refl _, le_refl _, by omega, h2.symm⟩
  · have e : b2n (isspace (byteAt T q)) = 0 := by
      have : isspace (byteAt T q) = false := by simpa using hs
      rw [this]; rfl
    rw [e]
    exact ⟨le_refl _, le_refl _, hq, rfl⟩

theorem emit_tail_ws (T : List Nat) (hT : nul_free T) (i2 : Int) (s : wrap_state) (t : Nat)
    (B2 : List Nat) (hbol : s.bol ≤ t) (ht2 : t ≤ T.length)
    (hc : byteAt T t = 0 ∨ isspace (byteAt T t) = true)
    (hB2 : strip_ws B2 = strip_ws (T.take t)) :
    wrap_ws_post T
      (if byteAt T t = 0 then .done B2
       else if byteAt T t = 0x09 then
         .next { s with text := t + 1, space := some t, w := Int.lor s.w 0x07 + 1, buf := B2 }
       else if byteAt T t = 0x0a then
         if byteAt T (t + 1) = 0x0a then
           .next (wrap_new_line T i2 (strbuf_addch B2 0x0a) (t + 1))
         else if ¬ isalnum (byteAt T (t + 1)) then
           .next (wrap_new_line T i2 B2 (t + 1))
         else
           .next { s with text := t + 1, space := some (t + 1), w := s.w + 1,
                          buf := strbuf_addch B2 0x20 }
       else .next { s with text := t + 1, space := some t, w := s.w + 1, buf := B2 }) := by
  have hnl : strip_ws [0x0a] = [] := by decide
  have hsp : strip_ws [0x20] = [] := by decide
  by_cases c0 : byteAt T t = 0
  · rw [if_pos c0]
    have e : t = T.length := by
      have := (byteAt_nul_free T hT t).mp c0
      omega
    show strip_ws B2 = strip_ws T
    rw [hB2, e, List.take_length]
  · have htl := byteAt_ne_zero_lt T t c0
    have hw : strip_ws (T.take (t + 1)) = strip_ws (T.take t) := by
      rcases hc with hc | hc
      · exact absurd hc c0
      · exact (strip_take_ws T hT t hc).2
    rw [if_neg c0]
    by_cases c9 : byteAt T t = 0x09
    · rw [if_pos c9]
      show s.bol ≤ t ∧ t ≤ t + 1 ∧ t + 1 ≤ T.length ∧ strip_ws B2 = strip_ws (T.take t)
      exact ⟨hbol, by omega, by omega, hB2⟩
    · rw [if_neg c9]
      by_cases ca : byteAt T t = 0x0a
      · rw [if_pos ca]
        by_cases cn : byteAt T (t + 1) = 0x0a
        · rw [if_pos cn]
          apply new_line_inv T hT i2 _ (t + 1) (by omega)
          rw [strbuf_addch, strip_ws_append, hnl, List.append_nil, hB2, hw]
        · rw [if_neg cn]
          by_cases cal : ¬ isalnum (byteAt T (t + 1)) = true
          · rw [if_pos cal]
            apply new_line_inv T hT i2 _ (t + 1) (by omega)
            rw [hB2, hw]
          · rw [if_neg cal]
            show s.bol ≤ t + 1 ∧ t + 1 ≤ t + 1 ∧ t + 1 ≤ T.length ∧
              strip_ws (B2 ++ [0x20]) = strip_ws (T.take (t + 1))
            rw [strip_ws_append, hsp, List.append_nil, hB2, hw]
            exact ⟨by omega, le_refl _, by omega, rfl⟩
      · rw [if_neg ca]
        show s.bol ≤ t ∧ t ≤ t + 1 ∧ t + 1 ≤ T.length ∧ strip_ws B2 = strip_ws (T.take t)
        exact ⟨hbol, by omega, by omega, hB2⟩

theorem wrap_emit_ws (T : List Nat) (hT : nul_free T) (i2 : Int) (s : wrap_state) (t : Nat)
    (hinv : wrap_ws_inv T s) (ht1 : s.text ≤ t) (ht2 : t ≤ T.length)
    (hc : byteAt T t = 0 ∨ isspace (byteAt T t) = true) :
    wrap_ws_post T (wrap_emit T i2 s t (byteAt T t)) := by
  obtain ⟨h1, h2, h3, h4⟩ := hinv
  have hwin := strip_window T hT (wrap_frontier s) t (by omega) ht2
  have hfull : byteAt T t = 0 → T.take t = T := by
    intro h0
    have := (byteAt_nul_free T hT t).mp h0
    have e : t = T.length := by omega
    rw [e, List.take_length]
  unfold wrap_frontier at h1 h2 h4 hwin
  cases hsp : s.space with
  | none =>
    rw [hsp] at h1 h2 h4 hwin
    simp only at h1 h2 h4 hwin
    simp only [wrap_emit, hsp]
    by_cases c1 : byteAt T t = 0 ∧ t = s.bol
    · rw [if_pos c1]
      show strip_ws s.buf = strip_ws T
      rw [h4, ← c1.2, hfull c1.1]
    · rw [if_neg c1]
      apply emit_tail_ws T hT i2 s t _ (by omega) ht2 hc
      rw [← hwin, ← h4]
      simp only [strbuf_add, strbuf_addchars, strip_ws_append, strip_ws_spaces, List.append_nil]
  | some sp =>
    rw [hsp] at h1 h2 h4 hwin
    simp only at h1 h2 h4 hwin
    simp only [wrap_emit, hsp]
    by_cases c1 : byteAt T t = 0 ∧ t = s.bol
    · rw [if_pos c1]
      show strip_ws s.buf = strip_ws T
      have e : sp = t := by omega
      rw [h4, e, hfull c1.1]
    · rw [if_neg c1]
      apply emit_tail_ws T hT i2 s t _ (by omega) ht2 hc
      rw [← hwin, ← h4]
      simp only [strbuf_add, strip_ws_append]

theorem wrap_step_ws (T : List Nat) (hT : nul_free T) (assume_utf8 : Bool) (i2 width : Int)
    (s : wrap_state) (hinv : wrap_ws_inv T s) :
    wrap_ws_post T (wrap_step T assume_utf8 i2 width s) := by
  have ht1 := skip_escapes_ge T (T.length + 1) s.text
  have ht2 := skip_escapes_le T (T.length + 1) s.text hinv.2.2.1
  simp only [wrap_step]
  generalize skip_escapes T (T.length + 1) s.text = t at ht1 ht2
  by_cases hc : byteAt T t = 0 ∨ isspace (byteAt T t) = true
  · rw [if_pos hc]
    have hemit := wrap_emit_ws T hT i2 s t hinv ht1 ht2 hc
    cases hsp : s.space with
    | none => exact hemit
    | some sp =>
      simp only
      by_cases hw : s.w ≤ width
      · rw [if_pos hw]; exact hemit
      · rw [if_neg hw]
        obtain ⟨h1, h2, h3, h4⟩ := hinv
        have hf : wrap_frontier s = sp := by unfold wrap_frontier; rw [hsp]
        rw [hf] at h1 h2 h4
        exact new_line_inv T hT i2 s.buf sp (by omega) h4
  · rw [if_neg hc]
    have h0 : byteAt T t ≠ 0 := fun h => hc (Or.inl h)
    have htl := byteAt_ne_zero_lt T t h0
    obtain ⟨h1, h2, h3, h4⟩ := hinv
    cases assume_utf8 with
    | false =>
      simp only [Bool.false_eq_true, if_false, wrap_ws_post, wrap_ws_inv, wrap_frontier]
      exact ⟨h1, by unfold wrap_frontier at h2; omega, by omega, h4⟩
    | true =>
      simp only [if_true]
      cases hp : (utf8_width T t none).2.1 with
      | none => trivial
      | some t' =>
        rw [utf8_width_start] at hp
        have := pick_le T t t' hp h0
        simp only [wrap_ws_post, wrap_ws_inv, wrap_frontier]
        exact ⟨h1, by unfold wrap_frontier at h2; omega, by omega, h4⟩

theorem wrap_run_ws (T : List Nat) (hT : nul_free T) (assume_utf8 : Bool) (i2 width : Int) :
    ∀ (n : Nat) (s : wrap_state) (out : List Nat), wrap_ws_inv T s →
      wrap_run T assume_utf8 i2 width n s = .done out → strip_ws out = strip_ws T := by
  intro n
  induction n with
  | zero => intro s out _ h; simp [wrap_run] at h
  | succ n ih =>
    intro s out hinv h
    have hstep := wrap_step_ws T hT assume_utf8 i2 width s hinv
    rw [wrap_run] at h
    cases hr : wrap_step T assume_utf8 i2 width s with
    | next s' =>
      rw [hr] at h hstep
      exact ih s' out hstep h
    | done buf =>
      rw [hr] at h hstep
      simp only [wrap_outcome.done.injEq] at h
      rw [← h]
      exact hstep
    | broken buf =>
      rw [hr] at h
      simp at h

theorem wrap_init_ws (T : List Nat) (indent1 : Int) : wrap_ws_inv T (wrap_init 0 indent1 []) := by
  unfold wrap_init
  split_ifs <;> simp [wrap_ws_inv, wrap_frontier, strip_ws]

/-- C20: wrapping only changes whitespace.  For every NUL-terminated text `T`, every
`width > 0` and every `indent1 ≥ 0`, `indent2 ≥ 0`, the bytes `strbuf_add_wrapped_text`
appends to the buffer, with all whitespace bytes (space, tab, newline, carriage return)
deleted, equal the text with all its whitespace bytes deleted: no other byte (the bytes
of escape sequences included) is dropped, duplicated or reordered.  The same holds for
the raw-byte mode run from the start of the text. -/
theorem strbuf_add_wrapped_text_whitespace (B T : List Nat) (hT : nul_free T)
    (indent1 indent2 width : Int) (hw : 0 < width) (h1 : 0 ≤ indent1) (h2 : 0 ≤ indent2) :
    (∃ out, strbuf_add_wrapped_text B T 0 indent1 indent2 width = some (B ++ out) ∧
      strip_ws out = strip_ws T) ∧
    (∃ out, wrap_raw B T 0 indent1 indent2 width = some (B ++ out) ∧
      strip_ws out = strip_ws T) := by
  have _ := h1
  have _ := h2
  obtain ⟨raw, hraw⟩ := wrap_raw_done T 0 indent1 indent2 width
  have hsraw := wrap_run_ws T hT false indent2 width _ _ raw (wrap_init_ws T indent1) hraw
  constructor
  · cases hu : wrap_run T true indent2 width (wrap_fuel T) (wrap_init 0 indent1 []) with
    | done out =>
      have hB : wrap_run T true indent2 width (wrap_fuel T) (wrap_init 0 indent1 B) =
          .done (B ++ out) := by
        rw [wrap_run_appends, hu]
        rfl
      exact ⟨out, wrapped_text_of_run B T 0 indent1 indent2 width hw _ ⟨_, hB⟩,
        wrap_run_ws T hT true indent2 width _ _ out (wrap_init_ws T indent1) hu⟩
    | broken b =>
      have hB : wrap_run T true indent2 width (wrap_fuel T) (wrap_init 0 indent1 B) =
          .broken (B ++ b) := by
        rw [wrap_run_appends, hu]
        rfl
      exact ⟨raw, wrapped_text_of_broken B T 0 indent1 indent2 width hw _ raw hraw hB, hsraw⟩
    | exhausted =>
      exact absurd hu (wrap_run_init_ne_exhausted T true 0 indent1 indent2 width [])
  · refine ⟨raw, ?_, hsraw⟩
    unfold wrap_raw
    rw [wrap_run_appends, hraw]
    rfl

theorem strbuf_add_wrapped_text_whitespace_witness :
    (∃ out, strbuf_add_wrapped_text [0x3e] [0x61, 0x61, 0x20, 0x1b, 0x5b, 0x6d, 0x62, 0x0a, 0x63]
        0 1 2 3 = some ([0x3e] ++ out) ∧
      strip_ws out = strip_ws [0x61, 0x61, 0x20, 0x1b, 0x5b, 0x6d, 0x62, 0x0a, 0x63]) ∧
    (∃ out, wrap_raw [0x3e] [0x61, 0x61, 0x20, 0x1b, 0x5b, 0x6d, 0x62, 0x0a, 0x63]
        0 1 2 3 = some ([0x3e] ++ out) ∧
      strip_ws out = strip_ws [0x61, 0x61, 0x20, 0x1b, 0x5b, 0x6d, 0x62, 0x0a, 0x63]) :=
  strbuf_add_wrapped_text_whitespace [0x3e] [0x61, 0x61, 0x20, 0x1b, 0x5b, 0x6d, 0x62, 0x0a, 0x63]
    (by decide) 1 2 3 (by decide) (by decide) (by decide)

/-! ## Wrapping the wrapped text again -/

theorem isalnum_bounds (b : Nat) (h : isalnum b = true) :
    0x21 ≤ b ∧ b ≤ 0x7e ∧ b ≠ 0x20 ∧ b ≠ 0x0a := by
  unfold isalnum at h
  simp only [Bool.or_eq_true, decide_eq_true_eq] at h
  omega

theorem alnum_is_word (u : List Nat) (h : is_alnum_word u) : is_word u :=
  ⟨h.1, fun b hb => by have := isalnum_bounds b (h.2 b hb); omega⟩

theorem wrap_step_nl_fresh (mem : List Nat) (i2 w : Int) (s : wrap_state)
    (hs : s.space = none) (hc : byteAt mem s.text = 0x0a)
    (hn : isalnum (byteAt mem (s.text + 1)) = true) :
    wrap_step mem true i2 w s =
      .next { s with text := s.text + 1, space := some (s.text + 1), w := s.w + 1,
                     buf := strbuf_addch (strbuf_add (strbuf_addchars s.buf 0x20 s.indent) mem
                       s.bol (s.text - s.bol)) 0x20 } := by
  have hk : skip_escapes mem (mem.length + 1) s.text = s.text :=
    skip_escapes_of_ne mem _ _ (by rw [hc]; decide)
  have hne := (isalnum_bounds _ hn).2.2.2
  simp [wrap_step, wrap_emit, hk, hc, hs, isspace, hn, hne]

theorem wrap_step_nl_mid (mem : List Nat) (i2 w : Int) (s : wrap_state) (sp : Nat)
    (hs : s.space = some sp) (hw : s.w ≤ w) (hc : byteAt mem s.text = 0x0a)
    (hn : isalnum (byteAt mem (s.text + 1)) = true) :
    wrap_step mem true i2 w s =
      .next { s with text := s.text + 1, space := some (s.text + 1), w := s.w + 1,
                     buf := strbuf_addch (strbuf_add s.buf mem sp (s.text - sp)) 0x20 } := by
  have hk : skip_escapes mem (mem.length + 1) s.text = s.text :=
    skip_escapes_of_ne mem _ _ (by rw [hc]; decide)
  have hne := (isalnum_bounds _ hn).2.2.2
  simp [wrap_step, wrap_emit, hk, hc, hs, hw, isspace, hn, hne]

theorem wrap_step_break_ws (mem : List Nat) (i2 w : Int) (s : wrap_state) (sp : Nat)
    (hs : s.space = some sp) (hw : ¬ s.w ≤ w)
    (hc : byteAt mem s.text = 0 ∨ byteAt mem s.text = 0x20 ∨ byteAt mem s.text = 0x0a) :
    wrap_step mem true i2 w s = .next (wrap_new_line mem i2 s.buf sp) := by
  have hk : skip_escapes mem (mem.length + 1) s.text = s.text :=
    skip_escapes_of_ne mem _ _ (by rcases hc with hc | hc | hc <;> rw [hc] <;> decide)
  rcases hc with hc | hc | hc <;> simp [wrap_step, hk, hc, hs, hw, isspace]

theorem mid_out_fit (width cur : Int) (v : List Nat) (rest : List (List Nat))
    (h : cur + 1 + v.length ≤ width) :
    mid_out 0 width cur (v :: rest) = 0x20 :: (v ++ mid_out 0 width (cur + 1 + v.length) rest) := by
  simp only [mid_out, h, if_true, List.cons_append]

theorem mid_out_break (width cur : Int) (v : List Nat) (rest : List (List Nat))
    (h : ¬ cur + 1 + v.length ≤ width) :
    mid_out 0 width cur (v :: rest) = 0x0a :: (v ++ mid_out 0 width v.length rest) := by
  simp only [mid_out, h, if_false, Int.toNat_zero, List.replicate_zero, List.nil_append,
    Int.zero_add]

theorem mid_out_head (width : Int) (cur : Int) (rest : List (List Nat)) :
    mid_out 0 width cur rest = [] ∨
      ∃ c tl, mid_out 0 width cur rest = c :: tl ∧ (c = 0x20 ∨ c = 0x0a) := by
  cases rest with
  | nil => exact Or.inl rfl
  | cons v rest' =>
    right
    by_cases hfit : cur + 1 + v.length ≤ width
    · exact ⟨0x20, _, mid_out_fit width cur v rest' hfit, Or.inl rfl⟩
    · exact ⟨0x0a, _, mid_out_break width cur v rest' hfit, Or.inr rfl⟩

theorem byteAt_after (pre u M : List Nat) :
    (M = [] → byteAt (pre ++ u ++ M) (pre.length + u.length) = 0) ∧
    (∀ c tl, M = c :: tl → c < 256 → byteAt (pre ++ u ++ M) (pre.length + u.length) = c) := by
  have hpos : pre.length + u.length = (pre ++ u).length := by simp
  constructor
  · rintro rfl
    rw [hpos, List.append_nil]
    exact byteAt_end _
  · rintro c tl rfl hc
    rw [hpos]
    exact byteAt_mid _ _ _ hc

theorem resim_fold_of_fresh (width : Int) (u : List Nat) (rest : List (List Nat))
    (hu : is_alnum_word u) (hF : resim_fresh width u rest) : resim_fold width u rest := by
  intro pre buf cur bol hnf
  have huw := alnum_is_word u hu
  have hscan := wrap_scan_word 0 width u pre (mid_out 0 width u.length rest)
    (fold_state pre.length bol cur buf) huw.2 rfl
  refine wrap_reaches_run _ _ _ _ _ _ _ hscan ?_
  have hbyte : byteAt (pre ++ u ++ mid_out 0 width u.length rest) (pre.length + u.length) = 0 ∨
      byteAt (pre ++ u ++ mid_out 0 width u.length rest) (pre.length + u.length) = 0x20 ∨
      byteAt (pre ++ u ++ mid_out 0 width u.length rest) (pre.length + u.length) = 0x0a := by
    have hb := byteAt_after pre u (mid_out 0 width u.length rest)
    rcases mid_out_head width u.length rest with h | ⟨c, tl, h, hc⟩
    · exact Or.inl (hb.1 h)
    · rcases hc with rfl | rfl
      · exact Or.inr (Or.inl (hb.2 _ tl h (by decide)))
      · exact Or.inr (Or.inr (hb.2 _ tl h (by decide)))
  have hstep := wrap_step_break_ws (pre ++ u ++ mid_out 0 width u.length rest) 0 width
    ((fold_state pre.length bol cur buf).advance u.length) pre.length rfl
    (by simp only [wrap_state.advance, fold_state]; omega) hbyte
  refine wrap_reaches_run _ _ _ _ _ _ _ (wrap_reaches_step _ _ _ _ _ _ hstep) ?_
  obtain ⟨b, u', rfl⟩ := List.exists_cons_of_ne_nil hu.1
  have hb := isalnum_bounds b (hu.2 b (List.mem_cons_self _ _))
  have hb0 : byteAt (pre ++ b :: u' ++ mid_out 0 width (b :: u').length rest) pre.length = b := by
    have := byteAt_mid pre (u' ++ mid_out 0 width (b :: u').length rest) b (by omega)
    simpa using this
  have hsp : isspace b = false := by
    unfold isspace
    simp only [Bool.or_eq_false_iff, decide_eq_false_iff_not]
    omega
  obtain ⟨n, hn⟩ := hF pre (buf ++ [0x0a])
  refine ⟨n, ?_⟩
  simp only [wrap_new_line, wrap_state.advance, fold_state, hb0, hsp, b2n, Bool.false_eq_true,
    if_false, Nat.add_zero, strbuf_addch]
  simp only [fresh_state] at hn
  rw [hn]
  simp only [List.append_assoc, List.cons_append, List.nil_append]

theorem byteAt_next (A u M : List Nat) (b : Nat) (hb : b < 256) :
    byteAt (A ++ u ++ 0x0a :: (b :: M)) (A.length + u.length + 1) = b := by
  have e : A ++ u ++ 0x0a :: (b :: M) = (A ++ u ++ [0x0a]) ++ b :: M := by simp
  have hl : (A ++ u ++ [0x0a]).length = A.length + u.length + 1 := by
    simp only [List.length_append, List.length_singleton]
  rw [e, ← hl]
  exact byteAt_mid _ _ _ hb

theorem resim_fresh_of (width : Int) (u : List Nat) (rest : List (List Nat))
    (hu : is_alnum_word u)
    (hM : ∀ v rest', rest = v :: rest' →
      is_alnum_word v ∧ resim_mid width v rest' ∧ resim_fold width v rest') :
    resim_fresh width u rest := by
  intro pre buf
  have huw := alnum_is_word u hu
  have hupos : 0 < u.length := List.length_pos.mpr hu.1
  cases rest with
  | nil =>
    have hscan := wrap_scan_word 0 width u pre [] (fresh_state pre.length 0 buf) huw.2 rfl
    simp only [mid_out]
    refine wrap_reaches_run _ _ _ _ _ _ _ hscan ?_
    apply wrap_step_done_run
    have hw := window_append pre u [] (word_bytes_lt u huw.2)
    rw [wrap_step_end_fresh _ _ _ _ rfl
      (by simp only [wrap_state.advance, fresh_state]; exact (byteAt_after pre u []).1 rfl)
      (by simp only [wrap_state.advance, fresh_state]; omega)]
    simp only [wrap_state.advance, fresh_state, strbuf_add, strbuf_addchars,
      Nat.add_sub_cancel_left, hw, Int.toNat_zero, List.replicate_zero]
    simp only [rewrap_out, List.append_nil]
  | cons v rest' =>
    obtain ⟨hv, hmid, hfold⟩ := hM v rest' rfl
    by_cases hfit : (u.length : Int) + 1 + v.length ≤ width
    · rw [mid_out_fit _ _ _ _ hfit]
      have hscan := wrap_scan_word 0 width u pre
        (0x20 :: (v ++ mid_out 0 width (u.length + 1 + v.length) rest'))
        (fresh_state pre.length 0 buf) huw.2 rfl
      refine wrap_reaches_run _ _ _ _ _ _ _ hscan ?_
      have hbyte := (byteAt_after pre u
        (0x20 :: (v ++ mid_out 0 width (u.length + 1 + v.length) rest'))).2 0x20 _ rfl
        (by decide)
      have hstep := wrap_step_space_fresh
        (pre ++ u ++ 0x20 :: (v ++ mid_out 0 width (u.length + 1 + v.length) rest')) 0 width
        ((fresh_state pre.length 0 buf).advance u.length) rfl hbyte
      refine wrap_reaches_run _ _ _ _ _ _ _ (wrap_reaches_step _ _ _ _ _ _ hstep) ?_
      obtain ⟨n, hn⟩ := hmid (pre ++ u) (buf ++ u) u.length pre.length (by simp) hfit
      refine ⟨n, ?_⟩
      have hw := window_append pre u
        (0x20 :: (v ++ mid_out 0 width (u.length + 1 + v.length) rest')) (word_bytes_lt u huw.2)
      simp only [wrap_state.advance, fresh_state, strbuf_add, strbuf_addchars,
        Nat.add_sub_cancel_left, hw, Int.toNat_zero, List.replicate_zero]
      simp only [mid_state, List.length_append] at hn
      simp only [List.append_assoc, List.singleton_append, List.cons_append, List.nil_append,
        List.append_nil, Nat.add_assoc, Int.zero_add, rewrap_out, hfit, if_true] at hn ⊢
      exact hn
    · rw [mid_out_break _ _ _ _ hfit]
      have hscan := wrap_scan_word 0 width u pre (0x0a :: (v ++ mid_out 0 width v.length rest'))
        (fresh_state pre.length 0 buf) huw.2 rfl
      refine wrap_reaches_run _ _ _ _ _ _ _ hscan ?_
      have hbyte := (byteAt_after pre u
        (0x0a :: (v ++ mid_out 0 width v.length rest'))).2 0x0a _ rfl (by decide)
      obtain ⟨b, v', rfl⟩ := List.exists_cons_of_ne_nil hv.1
      have hb := hv.2 b (List.mem_cons_self _ _)
      have hbb := isalnum_bounds b hb
      have hnext : byteAt (pre ++ u ++ 0x0a :: (b :: v' ++ mid_out 0 width (b :: v').length rest'))
          (pre.length + u.length + 1) = b :=
        byteAt_next pre u (v' ++ mid_out 0 width (b :: v').length rest') b (by omega)
      have hstep := wrap_step_nl_fresh
        (pre ++ u ++ 0x0a :: (b :: v' ++ mid_out 0 width (b :: v').length rest')) 0 width
        ((fresh_state pre.length 0 buf).advance u.length) rfl hbyte
        (by simp only [wrap_state.advance, fresh_state]; rw [hnext]; exact hb)
      refine wrap_reaches_run _ _ _ _ _ _ _ (wrap_reaches_step _ _ _ _ _ _ hstep) ?_
      obtain ⟨n, hn⟩ := hfold (pre ++ u ++ [0x0a]) (buf ++ u ++ [0x20]) u.length pre.length hfit
      refine ⟨n, ?_⟩
      have hw := window_append pre u
        (0x0a :: (b :: v' ++ mid_out 0 width (b :: v').length rest')) (word_bytes_lt u huw.2)
      simp only [wrap_state.advance, fresh_state, strbuf_add, strbuf_addchars, strbuf_addch,
        Nat.add_sub_cancel_left, hw, Int.toNat_zero, List.replicate_zero]
      simp only [fold_state, List.length_append, List.length_singleton] at hn
      simp only [List.append_assoc, List.singleton_append, List.cons_append, List.nil_append,
        List.append_nil, Nat.add_assoc, Int.zero_add, rewrap_out, hfit, if_false] at hn ⊢
      exact hn

theorem resim_mid_of (width : Int) (u : List Nat) (rest : List (List Nat))
    (hu : is_alnum_word u)
    (hM : ∀ v rest', rest = v :: rest' →
      is_alnum_word v ∧ resim_mid width v rest' ∧ resim_fold width v rest') :
    resim_mid width u rest := by
  intro pre0 buf cur bol hbol hfit0
  have huw := alnum_is_word u hu
  have hupos : 0 < u.length := List.length_pos.mpr hu.1
  have hpos : pre0.length + 1 + u.length = (pre0 ++ [0x20]).length + u.length := by simp
  have hmem : ∀ M : List Nat, pre0 ++ 0x20 :: (u ++ M) = (pre0 ++ [0x20]) ++ u ++ M := by
    intro M; simp
  have hwin : ∀ M : List Nat, window (pre0 ++ [0x20] ++ u ++ M) pre0.length (u.length + 1) =
      0x20 :: u := by
    intro M
    have hw := window_append pre0 (0x20 :: u) M (space_word_lt u huw.2)
    have e : pre0 ++ 0x20 :: u ++ M = pre0 ++ [0x20] ++ u ++ M := by simp
    rw [e, List.length_cons] at hw
    exact hw
  rw [hmem]
  have hscan := wrap_scan_word 0 width u (pre0 ++ [0x20]) (mid_out 0 width (cur + 1 + u.length) rest)
    (mid_state pre0.length bol cur 0 buf) huw.2 (by simp [mid_state])
  refine wrap_reaches_run _ _ _ _ _ _ _ hscan ?_
  have hsub : pre0.length + 1 + u.length - pre0.length = u.length + 1 := by omega
  cases rest with
  | nil =>
    apply wrap_step_done_run
    have hb0 := (byteAt_after (pre0 ++ [0x20]) u (mid_out 0 width (cur + 1 + u.length) [])).1 rfl
    rw [← hpos] at hb0
    rw [wrap_step_end_mid _ _ _ _ pre0.length rfl
      (by simp only [wrap_state.advance, mid_state]; omega)
      (by simp only [wrap_state.advance, mid_state]; exact hb0)
      (by simp only [wrap_state.advance, mid_state]; omega)]
    simp only [wrap_state.advance, mid_state, strbuf_add, hsub, hwin]
    simp only [rewrap_out, List.append_nil]
  | cons v rest' =>
    obtain ⟨hv, hmid, hfold⟩ := hM v rest' rfl
    by_cases hfit : cur + 1 + u.length + 1 + v.length ≤ width
    · rw [mid_out_fit _ _ _ _ hfit]
      have hbyte := (byteAt_after (pre0 ++ [0x20]) u
        (0x20 :: (v ++ mid_out 0 width (cur + 1 + u.length + 1 + v.length) rest'))).2 0x20 _ rfl
        (by decide)
      rw [← hpos] at hbyte
      have hstep := wrap_step_space_mid
        (pre0 ++ [0x20] ++ u ++
          0x20 :: (v ++ mid_out 0 width (cur + 1 + u.length + 1 + v.length) rest')) 0 width
        ((mid_state pre0.length bol cur 0 buf).advance u.length) pre0.length rfl
        (by simp only [wrap_state.advance, mid_state]; omega) hbyte
      refine wrap_reaches_run _ _ _ _ _ _ _ (wrap_reaches_step _ _ _ _ _ _ hstep) ?_
      obtain ⟨n, hn⟩ := hmid (pre0 ++ [0x20] ++ u) (buf ++ 0x20 :: u) (cur + 1 + u.length) bol
        (by simp; omega) hfit
      refine ⟨n, ?_⟩
      simp only [wrap_state.advance, mid_state, strbuf_add, hsub, hwin]
      simp only [mid_state, List.length_append, List.length_singleton] at hn
      simp only [List.append_assoc, List.singleton_append, List.cons_append, List.nil_append,
        List.append_nil, Nat.add_assoc, Int.zero_add, rewrap_out, hfit, if_true] at hn ⊢
      exact hn
    · rw [mid_out_break _ _ _ _ hfit]
      have hbyte := (byteAt_after (pre0 ++ [0x20]) u
        (0x0a :: (v ++ mid_out 0 width v.length rest'))).2 0x0a _ rfl (by decide)
      rw [← hpos] at hbyte
      obtain ⟨b, v', rfl⟩ := List.exists_cons_of_ne_nil hv.1
      have hb := hv.2 b (List.mem_cons_self _ _)
      have hbb := isalnum_bounds b hb
      have hnext : byteAt (pre0 ++ [0x20] ++ u ++
          0x0a :: (b :: v' ++ mid_out 0 width (b :: v').length rest'))
          ((pre0 ++ [0x20]).length + u.length + 1) = b :=
        byteAt_next (pre0 ++ [0x20]) u (v' ++ mid_out 0 width (b :: v').length rest') b
          (by omega)
      rw [← hpos] at hnext
      have hstep := wrap_step_nl_mid
        (pre0 ++ [0x20] ++ u ++ 0x0a :: (b :: v' ++ mid_out 0 width (b :: v').length rest'))
        0 width ((mid_state pre0.length bol cur 0 buf).advance u.length) pre0.length rfl
        (by simp only [wrap_state.advance, mid_state]; omega) hbyte
        (by simp only [wrap_state.advance, mid_state]; rw [hnext]; exact hb)
      refine wrap_reaches_run _ _ _ _ _ _ _ (wrap_reaches_step _ _ _ _ _ _ hstep) ?_
      obtain ⟨n, hn⟩ := hfold (pre0 ++ [0x20] ++ u ++ [0x0a]) (buf ++ 0x20 :: u ++ [0x20])
        (cur + 1 + u.length) bol hfit
      refine ⟨n, ?_⟩
      simp only [wrap_state.advance, mid_state, strbuf_add, strbuf_addch, hsub, hwin]
      simp only [fold_state, List.length_append, List.length_singleton] at hn
      simp only [List.append_assoc, List.singleton_append, List.cons_append, List.nil_append,
        List.append_nil, Nat.add_assoc, Int.zero_add, rewrap_out, hfit, if_false] at hn ⊢
      exact hn

theorem wrap_resim (width : Int) :
    ∀ (rest : List (List Nat)) (u : List Nat), is_alnum_word u →
      (∀ v ∈ rest, is_alnum_word v) →
      resim_fresh width u rest ∧ resim_mid width u rest ∧ resim_fold width u rest := by
  intro rest
  induction rest with
  | nil =>
    intro u hu _
    have hF := resim_fresh_of width u [] hu (fun v rest' h => by cases h)
    exact ⟨hF, resim_mid_of width u [] hu (fun v rest' h => by cases h),
      resim_fold_of_fresh width u [] hu hF⟩
  | cons v rest' ih =>
    intro u hu hrest
    have hvw := hrest v (List.mem_cons_self _ _)
    have hv := ih v hvw (fun x hx => hrest x (List.mem_cons_of_mem _ hx))
    have hM : ∀ v' r', v :: rest' = v' :: r' →
        is_alnum_word v' ∧ resim_mid width v' r' ∧ resim_fold width v' r' := by
      intro v' r' h
      cases h
      exact ⟨hvw, hv.2.1, hv.2.2⟩
    have hF := resim_fresh_of width u (v :: rest') hu hM
    exact ⟨hF, resim_mid_of width u (v :: rest') hu hM,
      resim_fold_of_fresh width u (v :: rest') hu hF⟩

/-! ## The lines and words of an output -/

theorem split_on_append (sep : Nat) (a b : List Nat) (h : ∀ x ∈ a, x ≠ sep) :
    split_on sep (a ++ sep :: b) = a :: split_on sep b := by
  induction a with
  | nil => simp [split_on]
  | cons x a ih =>
    have hx := h x (List.mem_cons_self _ _)
    have := ih (fun y hy => h y (List.mem_cons_of_mem _ hy))
    rw [List.cons_append, split_on, if_neg hx, this]

theorem split_on_self (sep : Nat) (a : List Nat) (h : ∀ x ∈ a, x ≠ sep) :
    split_on sep a = [a] := by
  induction a with
  | nil => rfl
  | cons x a ih =>
    have hx := h x (List.mem_cons_self _ _)
    have := ih (fun y hy => h y (List.mem_cons_of_mem _ hy))
    rw [split_on, if_neg hx, this]

theorem words_of_cons (u J : List Nat) (hne : u ≠ []) (h : ∀ x ∈ u, x ≠ 0x20) :
    words_of (u ++ 0x20 :: J) = u :: words_of J := by
  unfold words_of
  rw [split_on_append 0x20 u J h, List.filter_cons_of_pos]
  cases u with
  | nil => exact absurd rfl hne
  | cons _ _ => rfl

theorem words_of_join :
    ∀ (line : List (List Nat)), (∀ w ∈ line, w ≠ [] ∧ ∀ x ∈ w, x ≠ 0x20) →
      words_of (join_words line) = line ∧ words_of (join_words line ++ [0x20]) = line := by
  intro line
  induction line with
  | nil => intro _; exact ⟨by decide, by decide⟩
  | cons u line ih =>
    intro h
    have hu := h u (List.mem_cons_self _ _)
    have hl := ih (fun w hw => h w (List.mem_cons_of_mem _ hw))
    cases line with
    | nil =>
      have e1 : words_of u = [u] := by
        unfold words_of
        rw [split_on_self 0x20 u hu.2, List.filter_cons_of_pos]
        · rfl
        · cases u with
          | nil => exact absurd rfl hu.1
          | cons _ _ => rfl
      have e2 : words_of (u ++ [0x20]) = [u] := by
        rw [words_of_cons u [] hu.1 hu.2]
        rfl
      exact ⟨e1, e2⟩
    | cons v line =>
      have e : join_words (u :: v :: line) = u ++ 0x20 :: join_words (v :: line) := rfl
      constructor
      · rw [e, words_of_cons u _ hu.1 hu.2, hl.1]
      · rw [e, List.append_assoc, List.cons_append, words_of_cons u _ hu.1 hu.2, hl.2]

theorem join_words_mem (x : Nat) :
    ∀ (line : List (List Nat)), x ∈ join_words line → x = 0x20 ∨ ∃ w ∈ line, x ∈ w := by
  intro line
  induction line with
  | nil => intro h; simp [join_words] at h
  | cons u line ih =>
    intro h
    cases line with
    | nil => exact Or.inr ⟨u, List.mem_cons_self _ _, h⟩
    | cons v line =>
      have e : join_words (u :: v :: line) = u ++ 0x20 :: join_words (v :: line) := rfl
      rw [e] at h
      rcases List.mem_append.mp h with h | h
      · exact Or.inr ⟨u, List.mem_cons_self _ _, h⟩
      · rcases List.mem_cons.mp h with h | h
        · exact Or.inl h
        · rcases ih h with h | ⟨w, hw, hx⟩
          · exact Or.inl h
          · exact Or.inr ⟨w, List.mem_cons_of_mem _ hw, hx⟩

theorem alnum_line (line : List (List Nat)) (h : ∀ w ∈ line, is_alnum_word w) :
    (∀ w ∈ line, w ≠ [] ∧ ∀ x ∈ w, x ≠ 0x20) ∧
    (∀ x ∈ join_words line, x ≠ 0x0a) ∧ (∀ x ∈ join_words line ++ [0x20], x ≠ 0x0a) := by
  have h1 : ∀ x ∈ join_words line, x ≠ 0x0a := by
    intro x hx
    rcases join_words_mem x line hx with rfl | ⟨w, hw, hxw⟩
    · decide
    · exact (isalnum_bounds x ((h w hw).2 x hxw)).2.2.2
  refine ⟨fun w hw => ⟨(h w hw).1, fun x hx => (isalnum_bounds x ((h w hw).2 x hx)).2.2.1⟩,
    h1, ?_⟩
  intro x hx
  rcases List.mem_append.mp hx with hx | hx
  · exact h1 x hx
  · rw [List.mem_singleton.mp hx]; decide

theorem lines_of_single (A : List Nat) (h : ∀ x ∈ A, x ≠ 0x0a) : lines_of A = [words_of A] := by
  unfold lines_of
  rw [split_on_self 0x0a A h]
  rfl

theorem lines_of_cons (A R : List Nat) (h : ∀ x ∈ A, x ≠ 0x0a) :
    lines_of (A ++ 0x0a :: R) = words_of A :: lines_of R := by
  unfold lines_of
  rw [split_on_append 0x0a A R h]
  rfl

theorem lines_mid_out (width : Int) :
    ∀ (rest line : List (List Nat)) (cur : Int), line ≠ [] →
      (∀ w ∈ line, is_alnum_word w) → (∀ w ∈ rest, is_alnum_word w) →
      lines_of (join_words line ++ mid_out 0 width cur rest) =
        (fill_lines 0 width 0 line cur rest).map Prod.snd := by
  intro rest
  induction rest with
  | nil =>
    intro line cur _ hl _
    obtain ⟨h1, h2, _⟩ := alnum_line line hl
    simp only [mid_out, fill_lines, List.append_nil, List.map_cons, List.map_nil]
    rw [lines_of_single _ h2, (words_of_join line h1).1]
  | cons v rest ih =>
    intro line cur hne hl hr
    obtain ⟨h1, h2, _⟩ := alnum_line line hl
    have hv := hr v (List.mem_cons_self _ _)
    have hr' : ∀ w ∈ rest, is_alnum_word w := fun w hw => hr w (List.mem_cons_of_mem _ hw)
    by_cases hfit : cur + 1 + v.length ≤ width
    · rw [mid_out_fit _ _ _ _ hfit]
      simp only [fill_lines, hfit, if_true]
      rw [← ih (line ++ [v]) (cur + 1 + v.length) (by simp)
        (fun w hw => by
          rcases List.mem_append.mp hw with hw | hw
          · exact hl w hw
          · rw [List.mem_singleton.mp hw]; exact hv) hr',
        join_words_snoc v line hne]
      simp only [List.append_assoc, List.cons_append]
    · rw [mid_out_break _ _ _ _ hfit]
      simp only [fill_lines, hfit, if_false, List.map_cons, Int.zero_add]
      rw [lines_of_cons _ _ h2, (words_of_join line h1).1]
      have := ih [v] v.length (by simp)
        (fun w hw => by rw [List.mem_singleton.mp hw]; exact hv) hr'
      simp only [join_words] at this
      rw [this]

theorem lines_rewrap_out (width : Int) :
    ∀ (rest line : List (List Nat)) (cur : Int), line ≠ [] →
      (∀ w ∈ line, is_alnum_word w) → (∀ w ∈ rest, is_alnum_word w) →
      lines_of (join_words line ++ rewrap_out width cur rest) =
        (fill_lines 0 width 0 line cur rest).map Prod.snd := by
  intro rest
  induction rest with
  | nil =>
    intro line cur _ hl _
    obtain ⟨h1, h2, _⟩ := alnum_line line hl
    simp only [rewrap_out, fill_lines, List.append_nil, List.map_cons, List.map_nil]
    rw [lines_of_single _ h2, (words_of_join line h1).1]
  | cons v rest ih =>
    intro line cur hne hl hr
    obtain ⟨h1, h2, h3⟩ := alnum_line line hl
    have hv := hr v (List.mem_cons_self _ _)
    have hr' : ∀ w ∈ rest, is_alnum_word w := fun w hw => hr w (List.mem_cons_of_mem _ hw)
    by_cases hfit : cur + 1 + v.length ≤ width
    · simp only [rewrap_out, fill_lines, hfit, if_true]
      rw [← ih (line ++ [v]) (cur + 1 + v.length) (by simp)
        (fun w hw => by
          rcases List.mem_append.mp hw with hw | hw
          · exact hl w hw
          · rw [List.mem_singleton.mp hw]; exact hv) hr',
        join_words_snoc v line hne]
      simp only [List.append_assoc, List.cons_append]
    · simp only [rewrap_out, fill_lines, hfit, if_false, List.map_cons, Int.zero_add]
      have e : join_words line ++ 0x20 :: 0x0a :: (v ++ rewrap_out width v.length rest) =
          (join_words line ++ [0x20]) ++ 0x0a :: (v ++ rewrap_out width v.length rest) := by
        simp
      rw [e, lines_of_cons _ _ h3, (words_of_join line h1).2]
      have := ih [v] v.length (by simp)
        (fun w hw => by rw [List.mem_singleton.mp hw]; exact hv) hr'
      simp only [join_words] at this
      rw [this]

/-- C15: wrapping idempotence.  For every width `W > 0` and every text of words of ASCII
letters and digits separated by single spaces, the output of
`strbuf_add_wrapped_text(text, 0, 0, W)`, wrapped again with the same arguments, has the
same lines: the same number of lines and the same words, in the same order, on each line
(and the lines hold the words of the text in order). -/
theorem strbuf_add_wrapped_text_rewrap (words : List (List Nat)) (W : Int) (hW : 0 < W)
    (hwords : ∀ u ∈ words, is_alnum_word u) :
    ∃ out1 out2 : List Nat,
      strbuf_add_wrapped_text [] (join_words words) 0 0 0 W = some out1 ∧
      strbuf_add_wrapped_text [] out1 0 0 0 W = some out2 ∧
      lines_of out2 = lines_of out1 ∧ (lines_of out1).flatten = words := by
  have hinit : wrap_init 0 0 [] = fresh_state 0 0 [] := by
    simp only [wrap_init, fresh_state, if_neg (show ¬ (0 : Int) < 0 by omega)]
  cases words with
  | nil =>
    have h0 : strbuf_add_wrapped_text [] [] 0 0 0 W = some [] := by
      apply wrapped_text_of_run _ _ _ _ _ _ hW
      refine ⟨1, ?_⟩
      simp [wrap_run, wrap_step, wrap_emit, hinit, fresh_state, skip_escapes,
        display_mode_esc_sequence_len, byteAt]
    exact ⟨[], [], h0, h0, rfl, by decide⟩
  | cons u rest =>
    have hu := hwords u (List.mem_cons_self _ _)
    have hrest : ∀ v ∈ rest, is_alnum_word v := fun v hv => hwords v (List.mem_cons_of_mem _ hv)
    have h1 : strbuf_add_wrapped_text [] (join_words (u :: rest)) 0 0 0 W =
        some (u ++ mid_out 0 W u.length rest) := by
      apply wrapped_text_of_run _ _ _ _ _ _ hW
      obtain ⟨n, hn⟩ := (wrap_sim 0 W rest u (alnum_is_word u hu)
        (fun v hv => alnum_is_word v (hrest v hv))).1 [] [] 0
      refine ⟨n, ?_⟩
      rw [hinit]
      simp only [List.nil_append, List.length_nil, Int.toNat_zero, List.replicate_zero,
        Int.zero_add] at hn
      exact hn
    have h2 : strbuf_add_wrapped_text [] (u ++ mid_out 0 W u.length rest) 0 0 0 W =
        some (u ++ rewrap_out W u.length rest) := by
      apply wrapped_text_of_run _ _ _ _ _ _ hW
      obtain ⟨n, hn⟩ := (wrap_resim W rest u hu hrest).1 [] []
      refine ⟨n, ?_⟩
      rw [hinit]
      simp only [List.nil_append, List.length_nil] at hn
      exact hn
    have hl : ∀ w ∈ [u], is_alnum_word w := fun w hw => by
      rw [List.mem_singleton.mp hw]; exact hu
    have e1 := lines_mid_out W rest [u] u.length (by simp) hl hrest
    have e2 := lines_rewrap_out W rest [u] u.length (by simp) hl hrest
    simp only [join_words] at e1 e2
    refine ⟨_, _, h1, h2, by rw [e1, e2], ?_⟩
    rw [e1]
    have := fill_words 0 W rest 0 [u] u.length
    rw [List.flatMap_def] at this
    simpa using this

theorem strbuf_add_wrapped_text_rewrap_witness :
    ∃ out1 out2 : List Nat,
      strbuf_add_wrapped_text []
        (join_words [[0x61, 0x61, 0x61, 0x61], [0x62, 0x62], [0x63], [0x64, 0x64, 0x64]])
        0 0 0 5 = some out1 ∧
      strbuf_add_wrapped_text [] out1 0 0 0 5 = some out2 ∧
      lines_of out2 = lines_of out1 ∧
      (lines_of out1).flatten = [[0x61, 0x61, 0x61, 0x61], [0x62, 0x62], [0x63], [0x64, 0x64, 0x64]] :=
  strbuf_add_wrapped_text_rewrap [[0x61, 0x61, 0x61, 0x61], [0x62, 0x62], [0x63], [0x64, 0x64, 0x64]]
    5 (by decide) (by decide)

/-! ## Column substitution on buffers of characters and escape sequences, stray ESC bytes
included -/

theorem replace_loop_items (pos width : Int) :
    ∀ (rest : List item), items_wf rest → ¬ ends_with_esc rest →
      ∀ (pre dst : List Nat) (w : Int) (lit : Option (List Nat)) (fuel : Nat),
        (render_items rest).length + 1 ≤ fuel →
        replace_loop (pre ++ render_items rest) (pre ++ render_items rest).length pos width fuel
            ⟨pre.length, dst, w, lit⟩ =
          .done (dst ++ replace_spec pos width w lit rest) := by
  intro rest
  induction rest with
  | nil =>
    intro _ _ pre dst w lit fuel hf
    obtain ⟨f, rfl⟩ : ∃ f, fuel = f + 1 := ⟨fuel - 1, by omega⟩
    simp [replace_loop, render_items, replace_spec]
  | cons it rest ih =>
    intro hwf hend pre dst w lit fuel hf
    obtain ⟨f, rfl⟩ : ∃ f, fuel = f + 1 := ⟨fuel - 1, by omega⟩
    have hend' : ¬ ends_with_esc rest := fun h => hend (ends_with_esc_cons it rest h)
    have hmem : pre ++ render_items (it :: rest) = pre ++ it.bytes ++ render_items rest := by
      rw [render_items_cons, List.append_assoc]
    have hlen : (render_items (it :: rest)).length =
        it.bytes.length + (render_items rest).length := by
      rw [render_items_cons, List.length_append]
    have hpos := List.length_pos.mpr (item_bytes_ne_nil it)
    have hsrc : pre.length < (pre ++ render_items (it :: rest)).length := by
      rw [List.length_append, hlen]; omega
    cases it with
    | chr cp =>
      obtain ⟨hd, hstray, hwf'⟩ : decodable cp ∧
          (cp = 0x1b →
            display_mode_esc_sequence_len (render_items (.chr cp :: rest)) 0 = 0) ∧
          items_wf rest := hwf
      have ih' := ih hwf' hend' (pre ++ (item.chr cp).bytes)
      rw [← hmem] at ih'
      have hbytes : (item.chr cp).bytes = utf8_encode cp := rfl
      rw [hbytes] at hmem hlen hpos ih'
      have hesc0 : display_mode_esc_sequence_len (pre ++ render_items (item.chr cp :: rest))
          pre.length = 0 := by
        by_cases hcp : cp = 0x1b
        · have := esc_len_right pre (render_items (item.chr cp :: rest)) 0
          rw [Nat.add_zero] at this
          rw [this]
          exact hstray hcp
        · obtain ⟨b, tl, hb, hb1, hb2⟩ := utf8_encode_head cp hd hcp
          apply esc_len_of_ne
          rw [hmem, hb]
          have := byteAt_mid pre (tl ++ render_items rest) b hb2
          simp only [List.cons_append, List.append_assoc] at this ⊢
          rw [this]
          exact hb1
      have hcopy : copy_escapes (pre ++ render_items (item.chr cp :: rest))
          ((pre ++ render_items (item.chr cp :: rest)).length + 1) pre.length dst =
          (pre.length, dst) := by
        simp [copy_escapes, hesc0]
      have hwin : window (pre ++ render_items (item.chr cp :: rest)) pre.length
          (utf8_encode cp).length = utf8_encode cp := by
        rw [hmem]
        exact window_append _ _ _ (utf8_encode_lt cp hd.1.1)
      have hpick := pick_complete (pre ++ render_items (item.chr cp :: rest)) pre.length none cp
        hd (by have := (utf8_encode_length cp).2; simp only [budget]; omega) hwin
      have hwidth : utf8_width (pre ++ render_items (item.chr cp :: rest)) pre.length none =
          (git_wcwidth cp, some (pre.length + (utf8_encode cp).length), none) := by
        simp only [utf8_width, hpick, Option.map]
      simp only [replace_loop, hsrc, if_true, hcopy, hwidth, replace_spec]
      have hl : (pre ++ utf8_encode cp).length = pre.length + (utf8_encode cp).length :=
        List.length_append _ _
      simp only [hl] at ih'
      by_cases hc : git_wcwidth cp ≠ 0 ∧ pos ≤ w ∧ w < pos + width
      · have hc' : git_wcwidth cp ≠ 0 ∧ w ≥ pos ∧ w < pos + width := hc
        rw [if_pos hc', if_pos hc]
        cases lit with
        | none =>
          simp only
          rw [ih' dst (w + git_wcwidth cp) none f (by omega)]
          simp
        | some l =>
          simp only
          rw [ih' (dst ++ l) (w + git_wcwidth cp) none f (by omega)]
          simp
      · have hc' : ¬ (git_wcwidth cp ≠ 0 ∧ w ≥ pos ∧ w < pos + width) := hc
        rw [if_neg hc', if_neg hc, Nat.add_sub_cancel_left, hwin,
          ih' (dst ++ utf8_encode cp) (w + git_wcwidth cp) lit f (by omega)]
        simp
    | esc params =>
      obtain ⟨hw, hwf'⟩ : (∀ b ∈ params, isdigit b = true ∨ b = 0x3b) ∧ items_wf rest := hwf
      have ih' := ih hwf' hend' (pre ++ (item.esc params).bytes)
      rw [← hmem] at ih'
      have hrest : rest ≠ [] := by
        rintro rfl
        exact hend ⟨params, rfl⟩
      have hrpos := render_items_length_pos rest hrest
      have hesc : display_mode_esc_sequence_len (pre ++ render_items (item.esc params :: rest))
          pre.length = (item.esc params).bytes.length := by
        rw [hmem]
        exact esc_len_item pre (render_items rest) params hw
      have hwin : window (pre ++ render_items (item.esc params :: rest)) pre.length
          (item.esc params).bytes.length = (item.esc params).bytes := by
        rw [hmem]
        exact window_append _ _ _ (esc_bytes_lt params hw)
      have hne : (item.esc params).bytes.length ≠ 0 := by omega
      have key : replace_loop (pre ++ render_items (item.esc params :: rest))
          (pre ++ render_items (item.esc params :: rest)).length pos width (f + 1)
          ⟨pre.length, dst, w, lit⟩ =
          replace_loop (pre ++ render_items (item.esc params :: rest))
          (pre ++ render_items (item.esc params :: rest)).length pos width (f + 1)
          ⟨(pre ++ (item.esc params).bytes).length, dst ++ (item.esc params).bytes, w, lit⟩ := by
        have hl1 : (pre ++ (item.esc params).bytes).length =
            pre.length + (item.esc params).bytes.length := List.length_append _ _
        have hl2 : (pre ++ render_items (item.esc params :: rest)).length =
            pre.length + ((item.esc params).bytes.length + (render_items rest).length) := by
          rw [List.length_append, hlen]
        apply replace_loop_congr _ _ _ _ _ _ _ hsrc
        · show (pre ++ (item.esc params).bytes).length < _
          omega
        · show copy_escapes _ _ pre.length dst =
            copy_escapes _ _ (pre ++ (item.esc params).bytes).length
              (dst ++ (item.esc params).bytes)
          rw [copy_escapes, hesc, if_pos hne, hwin, hl1, copy_escapes_fuel]
          omega
        · rfl
        · rfl
      rw [key, ih' (dst ++ (item.esc params).bytes) w lit (f + 1) (by omega)]
      simp [replace_spec]

/-- C7 (amended): for every buffer made of characters the decoder accepts and of colour
escape sequences (an ESC byte that starts no escape sequence being a character like any
other) that does not end with an escape sequence, every `pos` and `width` whose sum
`pos + width` is an `int`, and every literal, `strbuf_utf8_replace` leaves in the buffer
the original bytes in order, minus exactly the characters of non-zero width whose first
column (the sum of the widths of the characters before them) lies in `[pos, pos+width)`,
with the literal inserted once in the place of the first character removed; every other
byte, every escape sequence included, is kept and no other byte is added. -/
theorem strbuf_utf8_replace_items (items : List item) (pos width : Int)
    (subst : Option (List Nat)) (hwf : items_wf items) (hend : ¬ ends_with_esc items)
    (hpos : int_range pos) (hwidth : int_range width) (hsum : int_range (pos + width)) :
    strbuf_utf8_replace (render_items items) pos width subst =
      some (replace_spec pos width 0 (subst.map c_string) items) := by
  have _ := hpos
  have _ := hwidth
  have _ := hsum
  have h := replace_loop_items pos width items hwf hend [] [] 0 (subst.map c_string)
    ((render_items items).length + 1) (Nat.le_refl _)
  simp only [List.nil_append, List.length_nil] at h
  simp only [strbuf_utf8_replace]
  have e : (subst.map fun m => window m 0 (strlen m 0)) = subst.map c_string := rfl
  rw [e, h]

theorem strbuf_utf8_replace_items_witness :
    strbuf_utf8_replace
        (render_items [.esc [0x33, 0x31], .chr 0x4E2D, .chr 0x1b, .chr 0x301, .chr 0x61,
          .esc [], .chr 0x62])
        1 2 (some [0x2e, 0x2e]) =
      some (replace_spec 1 2 0 (some [0x2e, 0x2e])
        [.esc [0x33, 0x31], .chr 0x4E2D, .chr 0x1b, .chr 0x301, .chr 0x61, .esc [],
          .chr 0x62]) :=
  strbuf_utf8_replace_items
    [.esc [0x33, 0x31], .chr 0x4E2D, .chr 0x1b, .chr 0x301, .chr 0x61, .esc [], .chr 0x62] 1 2
    (some [0x2e, 0x2e]) (by decide) (by decide) (by decide) (by decide) (by decide)

/-! ## The fallback to raw-byte mode -/

theorem wrap_step_raw_bytes (mem : List Nat) (indent2 width : Int) (s : wrap_state)
    (h : display_mode_esc_sequence_len mem s.text = 0) :
    wrap_step mem false indent2 width s = wrap_step_bytes mem indent2 width s := by
  have hk : skip_escapes mem (mem.length + 1) s.text = s.text := by
    rw [skip_escapes, if_neg (by simp [h])]
  simp only [wrap_step, wrap_step_bytes, hk, Bool.false_eq_true, if_false]

theorem wrap_run_raw_bytes (mem : List Nat) (indent2 width : Int)
    (h : ∀ p, p < mem.length → display_mode_esc_sequence_len mem p = 0) :
    ∀ (n : Nat) (s : wrap_state),
      wrap_run mem false indent2 width n s = wrap_run_bytes mem indent2 width n s := by
  have h' : ∀ p, display_mode_esc_sequence_len mem p = 0 := by
    intro p
    by_cases hp : p < mem.length
    · exact h p hp
    · apply esc_len_of_nul
      by_contra hc
      exact hp (byteAt_ne_zero_lt mem p hc)
  intro n
  induction n with
  | zero => intro s; rfl
  | succ n ih =>
    intro s
    rw [wrap_run, wrap_run_bytes, wrap_step_raw_bytes mem indent2 width s (h' _)]
    cases wrap_step_bytes mem indent2 width s with
    | next s' => exact ih s'
    | done b => rfl
    | broken b => rfl

/-- C6 (as stated, refuted): the text `ESC [ 3 1 m a SP FF` does not decode (FF), so it is
wrapped in raw-byte mode; at width 3 the result is the one line `ESC [ 3 1 m a SP FF`,
because raw-byte mode still skips the escape sequence (its five bytes count as width 0),
whereas wrapping with each non-whitespace byte counted as width 1 breaks the line behind
`a`. -/
theorem strbuf_add_wrapped_text_raw_escape :
    wrap_run [0x1b, 0x5b, 0x33, 0x31, 0x6d, 0x61, 0x20, 0xff] true 0 3 4 (wrap_init 0 0 []) =
      .broken [0x1b, 0x5b, 0x33, 0x31, 0x6d, 0x61] ∧
    strbuf_add_wrapped_text [] [0x1b, 0x5b, 0x33, 0x31, 0x6d, 0x61, 0x20, 0xff] 0 0 0 3 =
      some [0x1b, 0x5b, 0x33, 0x31, 0x6d, 0x61, 0x20, 0xff] ∧
    wrap_bytes [] [0x1b, 0x5b, 0x33, 0x31, 0x6d, 0x61, 0x20, 0xff] 0 0 0 3 =
      some [0x1b, 0x5b, 0x33, 0x31, 0x6d, 0x61, 0x0a, 0xff] := by
  decide

/-- C6 (amended): for every initial buffer `B`, every text, every width > 0 and indents
within the range in which the `int` column count cannot overflow (`indent2 ≥ 0`, and
`|indent1|` and `indent2` at most `INT_MAX` less eight times the length of the text): if
decoding of some character fails during the UTF-8-mode scan, the final buffer is exactly
`B` followed by what raw-byte-mode wrapping of the entire text from its beginning
produces (which always exists), so nothing emitted by the abandoned UTF-8 attempt
remains; in every case the call returns a buffer of which `B` is an unchanged prefix.
Raw-byte mode still skips escape sequences; on a text without escape sequences it is
wrapping with each non-whitespace byte counted as width 1. -/
theorem strbuf_add_wrapped_text_fallback (B mem : List Nat) (text : Nat)
    (indent1 indent2 width : Int) (hw : 0 < width) (h2 : 0 ≤ indent2)
    (h1 : (indent1.natAbs : Int) + 8 * mem.length ≤ 2147483647)
    (h3 : indent2 + 8 * mem.length ≤ 2147483647) :
    ((∃ n b, wrap_run mem true indent2 width n (wrap_init text indent1 B) = .broken b) →
      ∃ raw, wrap_raw [] mem text indent1 indent2 width = some raw ∧
        strbuf_add_wrapped_text B mem text indent1 indent2 width = some (B ++ raw)) ∧
    (∃ out, strbuf_add_wrapped_text B mem text indent1 indent2 width = some (B ++ out)) ∧
    ((∀ p, p < mem.length → display_mode_esc_sequence_len mem p = 0) →
      wrap_raw [] mem text indent1 indent2 width =
        wrap_bytes [] mem text indent1 indent2 width) := by
  have _ := h1
  have _ := h2
  have _ := h3
  refine ⟨?_, wrapped_text_appends B mem text indent1 indent2 width hw, ?_⟩
  · rintro ⟨n, b, hb⟩
    obtain ⟨raw, hraw⟩ := wrap_raw_done mem text indent1 indent2 width
    refine ⟨raw, by simp only [wrap_raw, hraw], ?_⟩
    apply wrapped_text_of_broken B mem text indent1 indent2 width hw b raw hraw
    rw [← hb]
    apply wrap_run_agree
    · exact wrap_run_init_ne_exhausted _ _ _ _ _ _ _
    · rw [hb]; simp
  · intro hne
    simp only [wrap_raw, wrap_bytes, wrap_run_raw_bytes mem indent2 width hne]

theorem strbuf_add_wrapped_text_fallback_witness :
    (∃ raw, wrap_raw [] [0x61, 0x20, 0xc3, 0x28, 0x20, 0x62, 0x62, 0x62] 0 (-2) 0 3 = some raw ∧
      strbuf_add_wrapped_text [0x58] [0x61, 0x20, 0xc3, 0x28, 0x20, 0x62, 0x62, 0x62] 0 (-2) 0 3 =
        some ([0x58] ++ raw)) ∧
    wrap_raw [] [0x61, 0x20, 0xc3, 0x28, 0x20, 0x62, 0x62, 0x62] 0 (-2) 0 3 =
      wrap_bytes [] [0x61, 0x20, 0xc3, 0x28, 0x20, 0x62, 0x62, 0x62] 0 (-2) 0 3 :=
  ⟨(strbuf_add_wrapped_text_fallback [0x58] [0x61, 0x20, 0xc3, 0x28, 0x20, 0x62, 0x62, 0x62]
      0 (-2) 0 3 (by decide) (by decide) (by decide) (by decide)).1 ⟨3, [0x58, 0x61], by decide⟩,
   (strbuf_add_wrapped_text_fallback [0x58] [0x61, 0x20, 0xc3, 0x28, 0x20, 0x62, 0x62, 0x62]
      0 (-2) 0 3 (by decide) (by decide) (by decide) (by decide)).2.2 (by decide)⟩

end Utf8
